import Mathlib

/-!
Verification development for the per-AG space-accounting core of xfsprogs:
the per-AG reservation pool (xfs_ag_resv.c), the reference-count extent
adjuster (xfs_refcount.c) and the reverse-map extent maintainer (xfs_rmap.c).

The on-disk btrees are embedded shallowly as sorted lists of records; the
btree cursor primitives (lookup-le, lookup-ge, get, insert, delete, update,
increment, decrement) become positional list operations.  Machine integers
are Nat with explicit reduction mod 2^32 (or 2^64) at the points where the
C code performs unsigned arithmetic that can wrap.  Fallible paths return
Except.  Per spec section 7, an operation that fails with CorruptMetadata
aborts the enclosing transaction and all its index mutations are rolled
back, so sequences of operations are folded with the failing call leaving
the state unchanged.
-/

/-- Unsigned 32-bit modulus. -/
def u32lim : Nat := 4294967296

/-- Unsigned 64-bit modulus. -/
def u64lim : Nat := 18446744073709551616

/-- Reduce mod 2^32, as C u32 arithmetic does. -/
def w32 (n : Nat) : Nat := n % u32lim

/-- u32 subtraction with wraparound, assuming both arguments are below 2^32. -/
def usub32 (a b : Nat) : Nat := if b ≤ a then a - b else a + u32lim - b

/-- Modelled from the spec: xfs_btree.h is not part of the core source; the
critical-reservation floor is a small fixed constant equal to the maximum
height of the index (spec 4.1). -/
def XFS_BTREE_MAXLEVELS : Nat := 9

/-- Modelled from the spec: xfs_format.h is not part of the core source; the
refcount field is a u32, and a record is never incremented past the maximum
representable value (spec 4.2, adjust_rcextents). -/
def MAXREFCOUNT : Nat := u32lim - 1

/-- Modelled from the spec: xfs_format.h is not part of the core source; the
blockcount field is a u32, bounding the maximum representable extent length
(try_merge_rcextents). -/
def MAXREFCEXTLEN : Nat := u32lim - 1

/-! ## Per-AG reservation pool (xfs_ag_resv.c)

The repository carries two historical reservation-pool implementations; per
the spec (section 9) the newer ask/used-per-class design of xfs_ag_resv.c is
authoritative and is what is embedded here. -/

/-- One reservation-pool entry: struct xfs_ag_resv (ar_asked, ar_reserved). -/
structure xfs_ag_resv where
  ar_asked : Nat
  ar_reserved : Nat
deriving Repr, DecidableEq

/-- enum xfs_ag_resv_type. -/
inductive xfs_ag_resv_type where
  | metadata
  | agfl
  | nores
deriving Repr, DecidableEq

/-- The per-AG fields consulted by the reservation pool: struct xfs_perag,
restricted to pagf_freeblks, pagf_flcount and the two reservation entries. -/
structure xfs_perag where
  pagf_freeblks : Nat
  pagf_flcount : Nat
  pag_meta_resv : xfs_ag_resv
  pag_agfl_resv : xfs_ag_resv
deriving Repr, DecidableEq

/-- XFS_AG_RESV(pag, type): select the class entry. -/
def XFS_AG_RESV (pag : xfs_perag) : xfs_ag_resv_type → xfs_ag_resv
  | .metadata => pag.pag_meta_resv
  | .agfl => pag.pag_agfl_resv
  | .nores => ⟨0, 0⟩

/-- Write back the class entry selected by XFS_AG_RESV. -/
def setResv (pag : xfs_perag) (t : xfs_ag_resv_type) (r : xfs_ag_resv) : xfs_perag :=
  match t with
  | .metadata => { pag with pag_meta_resv := r }
  | .agfl => { pag with pag_agfl_resv := r }
  | .nores => pag

/-- The avail quantity computed by xfs_ag_resv_critical for each class
(pagf_freeblks minus the other class's ar_reserved; for the AGFL class the
free-list block count pagf_flcount also counts as free).  u32 arithmetic. -/
def resv_critical_avail (pag : xfs_perag) : xfs_ag_resv_type → Nat
  | .metadata => usub32 pag.pagf_freeblks pag.pag_agfl_resv.ar_reserved
  | .agfl => usub32 (w32 (pag.pagf_freeblks + pag.pagf_flcount))
      pag.pag_meta_resv.ar_reserved
  | .nores => 0

/-- The orig quantity (ar_asked of the class) in xfs_ag_resv_critical. -/
def resv_critical_orig (pag : xfs_perag) : xfs_ag_resv_type → Nat
  | .metadata => pag.pag_meta_resv.ar_asked
  | .agfl => pag.pag_agfl_resv.ar_asked
  | .nores => 0

/-- xfs_ag_resv_critical: avail < orig/10 or avail below the fixed floor.
The default (ASSERT) branch returns false. -/
def xfs_ag_resv_critical (pag : xfs_perag) (t : xfs_ag_resv_type) : Bool :=
  match t with
  | .nores => false
  | _ =>
    decide (resv_critical_avail pag t < resv_critical_orig pag t / 10) ||
    decide (resv_critical_avail pag t < XFS_BTREE_MAXLEVELS)

/-- Spec-side rendering of the critical check, following the spec words:
true exactly when the available headroom is below the larger of 10 percent
of asked and the fixed floor (spec 4.1 is_critical). -/
def ag_resv_critical_spec (pag : xfs_perag) (t : xfs_ag_resv_type) : Bool :=
  decide (resv_critical_avail pag t <
    max (resv_critical_orig pag t / 10) XFS_BTREE_MAXLEVELS)

/-- Entry update performed by ag_resv_init: asked = max(ask, used),
reserved = asked - used. -/
def resv_init_entry (ask used : Nat) : xfs_ag_resv :=
  let ask' := if used > ask then used else ask
  ⟨ask', ask' - used⟩

/-- Entry update performed by xfs_ag_resv_alloc_extent for the two real
classes: if the request exceeds ar_reserved, clamp at zero, else subtract. -/
def resv_alloc_entry (r : xfs_ag_resv) (len : Nat) : xfs_ag_resv :=
  if len > r.ar_reserved then { r with ar_reserved := 0 }
  else { r with ar_reserved := r.ar_reserved - len }

/-- Entry update performed by xfs_ag_resv_free_extent: if the return would
exceed ar_asked, clamp at ar_asked, else add (u32 addition). -/
def resv_free_extent_entry (r : xfs_ag_resv) (len : Nat) : xfs_ag_resv :=
  if w32 (r.ar_reserved + len) > r.ar_asked then { r with ar_reserved := r.ar_asked }
  else { r with ar_reserved := w32 (r.ar_reserved + len) }

/-- Entry update performed by ag_resv_free: zero the entry. -/
def resv_free_entry : xfs_ag_resv := ⟨0, 0⟩

/-- ag_resv_init on the perag, also returning the signed delta applied to the
global free-block counter (negative: blocks taken out of the free pool).
The entry fields are written before xfs_mod_fdblocks runs, so they are set
even when that call fails. -/
def ag_resv_init (pag : xfs_perag) (t : xfs_ag_resv_type) (ask used : Nat) :
    xfs_perag × Int :=
  let r := resv_init_entry ask used
  let delta : Int := if t = .agfl then -(r.ar_asked : Int) else -(r.ar_reserved : Int)
  (setResv pag t r, delta)

/-- xfs_ag_resv_alloc_extent, returning the updated perag and the delta that
xfs_trans_mod_sb applies to the superblock free-block counter.  The NONE
class charges the whole length; the real classes charge only the leftover
beyond the reservation, and the AGFL class charges nothing. -/
def xfs_ag_resv_alloc_extent (pag : xfs_perag) (t : xfs_ag_resv_type) (len : Nat) :
    xfs_perag × Int :=
  match t with
  | .nores => (pag, -(len : Int))
  | _ =>
    let r := XFS_AG_RESV pag t
    let delta : Int :=
      if len > r.ar_reserved ∧ t ≠ .agfl then -((len - r.ar_reserved : Nat) : Int) else 0
    (setResv pag t (resv_alloc_entry r len), delta)

/-- xfs_ag_resv_free_extent, returning the updated perag and the superblock
free-block counter delta. -/
def xfs_ag_resv_free_extent (pag : xfs_perag) (t : xfs_ag_resv_type) (len : Nat) :
    xfs_perag × Int :=
  match t with
  | .nores => (pag, (len : Int))
  | _ =>
    let r := XFS_AG_RESV pag t
    let delta : Int :=
      if w32 (r.ar_reserved + len) > r.ar_asked ∧ t ≠ .agfl
      then ((w32 (r.ar_reserved + len) - r.ar_asked : Nat) : Int) else 0
    (setResv pag t (resv_free_extent_entry r len), delta)

/-- ag_resv_free on one class: zero the entry and return the unused portion
(whole ask for the AGFL class, reserved for the others) to the free pool. -/
def ag_resv_free (pag : xfs_perag) (t : xfs_ag_resv_type) : xfs_perag × Int :=
  let r := XFS_AG_RESV pag t
  let delta : Int := if t = .agfl then (r.ar_asked : Int) else (r.ar_reserved : Int)
  (setResv pag t resv_free_entry, delta)

/-- One reservation-pool call acting on a single class entry. -/
inductive AgResvOp where
  | init (ask used : Nat)
  | allocExtent (len : Nat)
  | freeExtent (len : Nat)
  | freePool
deriving Repr, DecidableEq

/-- Apply one call to the class entry (the entry-level effect is identical
for the metadata and AGFL classes; the classes differ only in which global
counters absorb the side deltas). -/
def agResvStep (r : xfs_ag_resv) : AgResvOp → xfs_ag_resv
  | .init ask used => resv_init_entry ask used
  | .allocExtent len => resv_alloc_entry r len
  | .freeExtent len => resv_free_extent_entry r len
  | .freePool => resv_free_entry

/-- Field bounds of a u32-backed entry together with the reservation bound
reserved <= asked. -/
def AgResvInv (r : xfs_ag_resv) : Prop :=
  r.ar_reserved ≤ r.ar_asked ∧ r.ar_asked < u32lim

/-- Numeric arguments of a call fit in u32, as the C prototypes require. -/
def AgResvOpOk : AgResvOp → Prop
  | .init ask used => ask < u32lim ∧ used < u32lim
  | .allocExtent len => len < u32lim
  | .freeExtent len => len < u32lim
  | .freePool => True

instance : DecidablePred AgResvInv := by
  intro r; unfold AgResvInv; infer_instance

instance : DecidablePred AgResvOpOk := by
  intro op; cases op <;> (unfold AgResvOpOk; infer_instance)

/-! ## Reference-count index records (xfs_refcount.c) -/

/-- In-core reference count record: struct xfs_refcount_irec. -/
structure xfs_refcount_irec where
  rc_startblock : Nat
  rc_blockcount : Nat
  rc_refcount : Nat
deriving Repr, DecidableEq

/-- RCNEXT: one past the end of the record's extent. -/
def RCNEXT (r : xfs_refcount_irec) : Nat := r.rc_startblock + r.rc_blockcount

/-- Errors surfaced by the core; EFSCORRUPTED is the CorruptMetadata error. -/
inductive XfsError where
  | EFSCORRUPTED
deriving Repr, DecidableEq

/-- u32 value of bno - 1, wrapping at zero as the C key arithmetic does. -/
def sub1_u32 (n : Nat) : Nat := if n = 0 then u32lim - 1 else n - 1

/-- refcount btree lookup-le splits the index at the key: the records at or
left of the key (refcount btree keys compare rc_startblock only). -/
def rcBelow (l : List xfs_refcount_irec) (bno : Nat) : List xfs_refcount_irec :=
  l.takeWhile (fun r => r.rc_startblock ≤ bno)

/-- The records strictly right of a lookup-le key. -/
def rcAbove (l : List xfs_refcount_irec) (bno : Nat) : List xfs_refcount_irec :=
  l.dropWhile (fun r => r.rc_startblock ≤ bno)

/-- The records strictly left of a lookup-ge key. -/
def rcBefore (l : List xfs_refcount_irec) (bno : Nat) : List xfs_refcount_irec :=
  l.takeWhile (fun r => r.rc_startblock < bno)

/-- The records at or right of a lookup-ge key. -/
def rcFrom (l : List xfs_refcount_irec) (bno : Nat) : List xfs_refcount_irec :=
  l.dropWhile (fun r => r.rc_startblock < bno)

/-- lookup-le followed by delete of the current record; CorruptMetadata when
nothing is at or left of the key (xfs_refcountbt_delete after lookup). -/
def rcDeleteAtLE (l : List xfs_refcount_irec) (key : Nat) :
    Except XfsError (List xfs_refcount_irec) :=
  match (rcBelow l key).getLast? with
  | none => .error .EFSCORRUPTED
  | some _ => .ok ((rcBelow l key).dropLast ++ rcAbove l key)

/-- lookup-le followed by update of the current record in place. -/
def rcUpdateAtLE (l : List xfs_refcount_irec) (key : Nat) (newrec : xfs_refcount_irec) :
    Except XfsError (List xfs_refcount_irec) :=
  match (rcBelow l key).getLast? with
  | none => .error .EFSCORRUPTED
  | some _ => .ok ((rcBelow l key).dropLast ++ newrec :: rcAbove l key)

/-- try_split_left_rcextent: split the record found at or left of agbno into
two records at agbno if it straddles agbno (update to the left part, then
insert the right part). -/
def try_split_left_rcextent (l : List xfs_refcount_irec) (agbno : Nat) :
    List xfs_refcount_irec :=
  match (rcBelow l agbno).getLast? with
  | none => l
  | some left =>
    if agbno ≤ left.rc_startblock ∨ RCNEXT left ≤ agbno then l
    else
      (rcBelow l agbno).dropLast ++
        { left with rc_blockcount := agbno - left.rc_startblock } ::
        { left with rc_startblock := agbno,
                    rc_blockcount := left.rc_blockcount - (agbno - left.rc_startblock) } ::
        rcAbove l agbno

/-- try_split_right_rcextent: split the record found at or left of
agbnext - 1 if it extends past agbnext (update to the right part, then
insert the left part before it). -/
def try_split_right_rcextent (l : List xfs_refcount_irec) (agbnext : Nat) :
    List xfs_refcount_irec :=
  match (rcBelow l (sub1_u32 agbnext)).getLast? with
  | none => l
  | some right =>
    if RCNEXT right ≤ agbnext then l
    else
      (rcBelow l (sub1_u32 agbnext)).dropLast ++
        { right with rc_blockcount := agbnext - right.rc_startblock } ::
        { right with rc_startblock := agbnext,
                     rc_blockcount := right.rc_blockcount - (agbnext - right.rc_startblock) } ::
        rcAbove l (sub1_u32 agbnext)

/-- XFS_FIND_RCEXT_SHARED / XFS_FIND_RCEXT_COW flag for the find functions
(the two callers pass exactly one of the two bits). -/
inductive FindRcFlag where
  | shared
  | cow
deriving Repr, DecidableEq

/-- The all-zero record used by try_merge_rcextents to zero-initialize
left/cleft/cright/right; blockcount 0 encodes absence. -/
def zeroRc : xfs_refcount_irec := ⟨0, 0, 0⟩

/-- find_left_extent: the record ending exactly at agbno (left), and the
stored or implied extent starting at agbno (cleft).  Returns records with
blockcount 0 when there is no left extent to merge with. -/
def find_left_extent (l : List xfs_refcount_irec) (agbno aglen : Nat)
    (flags : FindRcFlag) : xfs_refcount_irec × xfs_refcount_irec :=
  match (rcBelow l (sub1_u32 agbno)).getLast? with
  | none => (zeroRc, zeroRc)
  | some tmp =>
    if RCNEXT tmp ≠ agbno then (zeroRc, zeroRc)
    else if flags = .shared ∧ tmp.rc_refcount < 2 then (zeroRc, zeroRc)
    else if flags = .cow ∧ tmp.rc_refcount > 1 then (zeroRc, zeroRc)
    else
      match (rcAbove l (sub1_u32 agbno)).head? with
      | some nxt =>
        if nxt.rc_startblock = agbno then (tmp, nxt)
        else (tmp, ⟨agbno, min aglen (nxt.rc_startblock - agbno), 1⟩)
      | none => (tmp, ⟨agbno, aglen, 1⟩)

/-- find_right_extent: the record starting exactly at agbno + aglen (right),
and the stored or implied extent ending there (cright). -/
def find_right_extent (l : List xfs_refcount_irec) (agbno aglen : Nat)
    (flags : FindRcFlag) : xfs_refcount_irec × xfs_refcount_irec :=
  match (rcFrom l (agbno + aglen)).head? with
  | none => (zeroRc, zeroRc)
  | some tmp =>
    if tmp.rc_startblock ≠ agbno + aglen then (zeroRc, zeroRc)
    else if flags = .shared ∧ tmp.rc_refcount < 2 then (zeroRc, zeroRc)
    else if flags = .cow ∧ tmp.rc_refcount > 1 then (zeroRc, zeroRc)
    else
      match (rcBefore l (agbno + aglen)).getLast? with
      | some prv =>
        if RCNEXT prv = agbno + aglen then (tmp, prv)
        else (tmp, ⟨max agbno (RCNEXT prv),
                    tmp.rc_startblock - max agbno (RCNEXT prv), 1⟩)
      | none => (tmp, ⟨agbno, aglen, 1⟩)

/-- The u32 value of rc + adjust, wrapping as the C unsigned arithmetic does
(adjust is an int, promoted to unsigned in the additions and comparisons). -/
def adjRc (rc : Nat) (adjust : Int) : Nat :=
  (((rc : Int) + adjust) % (u32lim : Int)).toNat

/-- merge_center: delete the record at or right of the center start, delete
a second record when the center was stored (refcount > 1), then extend the
left record to cover left, center and right. -/
def merge_center (l : List xfs_refcount_irec) (left center : xfs_refcount_irec)
    (extlen : Nat) : Except XfsError (List xfs_refcount_irec) :=
  match rcFrom l center.rc_startblock with
  | [] => .error .EFSCORRUPTED
  | _ :: b1 => do
    let b2 ←
      if center.rc_refcount > 1 then
        match b1 with
        | [] => .error .EFSCORRUPTED
        | _ :: t => Except.ok t
      else Except.ok b1
    rcUpdateAtLE (rcBefore l center.rc_startblock ++ b2) left.rc_startblock
      { left with rc_blockcount := extlen }

/-- merge_left: delete the stored cleft when it has refcount > 1, extend the
left record over cleft, and advance the adjustment range past cleft. -/
def merge_left (l : List xfs_refcount_irec) (left cleft : xfs_refcount_irec)
    (agbno aglen : Nat) : Except XfsError (List xfs_refcount_irec × Nat × Nat) := do
  let l1 ←
    if cleft.rc_refcount > 1 then rcDeleteAtLE l cleft.rc_startblock
    else Except.ok l
  let l2 ← rcUpdateAtLE l1 left.rc_startblock
    { left with rc_blockcount := left.rc_blockcount + cleft.rc_blockcount }
  Except.ok (l2, agbno + cleft.rc_blockcount, aglen - cleft.rc_blockcount)

/-- merge_right: delete the stored cright when it has refcount > 1, extend
the right record leftward over cright, and trim the adjustment range. -/
def merge_right (l : List xfs_refcount_irec) (right cright : xfs_refcount_irec)
    (agbno aglen : Nat) : Except XfsError (List xfs_refcount_irec × Nat × Nat) := do
  let l1 ←
    if cright.rc_refcount > 1 then rcDeleteAtLE l cright.rc_startblock
    else Except.ok l
  let l2 ← rcUpdateAtLE l1 right.rc_startblock
    { right with rc_startblock := right.rc_startblock - cright.rc_blockcount,
                 rc_blockcount := right.rc_blockcount + cright.rc_blockcount }
  Except.ok (l2, agbno, aglen - cright.rc_blockcount)

/-- Tail of try_merge_rcextents: the attempt to merge cright and right. -/
def try_merge_right_part (l : List xfs_refcount_irec) (right cright : xfs_refcount_irec)
    (agbno aglen : Nat) (adjust : Int) :
    Except XfsError (List xfs_refcount_irec × Nat × Nat) :=
  if right.rc_blockcount ≠ 0 ∧ cright.rc_blockcount ≠ 0 ∧
      right.rc_refcount = adjRc cright.rc_refcount adjust ∧
      right.rc_blockcount + cright.rc_blockcount < MAXREFCEXTLEN then
    merge_right l right cright agbno aglen
  else
    Except.ok (l, agbno, aglen)

/-- try_merge_rcextents: try center, left, then right merges against the
extents on the boundaries of the adjustment range, updating agbno/aglen. -/
def try_merge_rcextents (l : List xfs_refcount_irec) (agbno aglen : Nat)
    (adjust : Int) (flags : FindRcFlag) :
    Except XfsError (List xfs_refcount_irec × Nat × Nat) :=
  let lc := find_left_extent l agbno aglen flags
  let rc := find_right_extent l agbno aglen flags
  let left := lc.1
  let cleft := lc.2
  let right := rc.1
  let cright := rc.2
  if left.rc_blockcount = 0 ∧ right.rc_blockcount = 0 then Except.ok (l, agbno, aglen)
  else
    let cequal := cleft.rc_startblock = cright.rc_startblock ∧
                  cleft.rc_blockcount = cright.rc_blockcount
    if left.rc_blockcount ≠ 0 ∧ right.rc_blockcount ≠ 0 ∧
        cleft.rc_blockcount ≠ 0 ∧ cright.rc_blockcount ≠ 0 ∧ cequal ∧
        left.rc_refcount = adjRc cleft.rc_refcount adjust ∧
        right.rc_refcount = adjRc cleft.rc_refcount adjust ∧
        left.rc_blockcount + cleft.rc_blockcount + right.rc_blockcount < MAXREFCEXTLEN then do
      let l' ← merge_center l left cleft
        (left.rc_blockcount + cleft.rc_blockcount + right.rc_blockcount)
      Except.ok (l', agbno, 0)
    else if left.rc_blockcount ≠ 0 ∧ cleft.rc_blockcount ≠ 0 ∧
        left.rc_refcount = adjRc cleft.rc_refcount adjust ∧
        left.rc_blockcount + cleft.rc_blockcount < MAXREFCEXTLEN then do
      let s ← merge_left l left cleft agbno aglen
      if cequal then Except.ok s
      else try_merge_right_part s.1 right cright s.2.1 s.2.2 adjust
    else
      try_merge_right_part l right cright agbno aglen adjust

/-- Disposition of one stored record inside the adjust_rcextents loop:
skip records at MAXREFCOUNT, update in place when the new count stays above
1, delete when it reaches exactly 1, and hand the blocks to the free-list
sink when it reaches 0 (the record itself is left in place in that case).
Returns the new walked prefix (in reverse) and freed-extent accumulator. -/
def adjust_walk_rec (adj : Int) (ext : xfs_refcount_irec)
    (acc : List xfs_refcount_irec) (freed : List (Nat × Nat)) :
    List xfs_refcount_irec × List (Nat × Nat) :=
  if ext.rc_refcount = MAXREFCOUNT then (ext :: acc, freed)
  else
    let newrc := adjRc ext.rc_refcount adj
    if newrc > 1 then ({ ext with rc_refcount := newrc } :: acc, freed)
    else if newrc = 1 then (acc, freed)
    else (ext :: acc, (ext.rc_startblock, ext.rc_blockcount) :: freed)

/-- The loop of adjust_rcextents, recursing along the records at or right of
the cursor.  acc holds the already-walked prefix in reverse; freed
accumulates the extents handed to the free-list sink.  The synthesized
record at an exhausted cursor has startblock sb_agblocks (agsz), and
adjusting it fails with CorruptMetadata because the cursor has no current
record. -/
def adjust_rcextents_walk (agsz : Nat) (adj : Int) :
    List xfs_refcount_irec → Nat → Nat → List xfs_refcount_irec →
    List (Nat × Nat) →
    Except XfsError (List xfs_refcount_irec × List (Nat × Nat))
  | rest, agbno, aglen, acc, freed =>
    if aglen = 0 then Except.ok (acc.reverse ++ rest, freed)
    else
      match rest with
      | [] =>
        if agsz ≠ agbno then
          let gap := min aglen (agsz - agbno)
          let holeRc := adjRc 1 adj
          let acc1 := if holeRc ≠ 0 then ⟨agbno, gap, holeRc⟩ :: acc else acc
          let freed1 := if holeRc ≠ 0 then freed else (agbno, gap) :: freed
          if aglen - gap = 0 then Except.ok (acc1.reverse, freed1)
          else .error .EFSCORRUPTED
        else .error .EFSCORRUPTED
      | ext :: rest' =>
        if ext.rc_startblock ≠ agbno then
          let gap := min aglen (ext.rc_startblock - agbno)
          let holeRc := adjRc 1 adj
          let acc1 := if holeRc ≠ 0 then ⟨agbno, gap, holeRc⟩ :: acc else acc
          let freed1 := if holeRc ≠ 0 then freed else (agbno, gap) :: freed
          if aglen - gap = 0 then Except.ok (acc1.reverse ++ ext :: rest', freed1)
          else
            let s := adjust_walk_rec adj ext acc1 freed1
            adjust_rcextents_walk agsz adj rest' (agbno + gap + ext.rc_blockcount)
              (aglen - gap - ext.rc_blockcount) s.1 s.2
        else
          let s := adjust_walk_rec adj ext acc freed
          adjust_rcextents_walk agsz adj rest' (agbno + ext.rc_blockcount)
            (aglen - ext.rc_blockcount) s.1 s.2

/-- adjust_rcextents: walk the records inside the adjustment range, starting
the cursor at the first record at or right of agbno. -/
def adjust_rcextents (agsz : Nat) (l : List xfs_refcount_irec)
    (agbno aglen : Nat) (adj : Int) :
    Except XfsError (List xfs_refcount_irec × List (Nat × Nat)) :=
  adjust_rcextents_walk agsz adj (rcFrom l agbno) agbno aglen
    (rcBefore l agbno).reverse []

/-- xfs_refcountbt_adjust_refcount: split both boundaries, try the boundary
merges, then adjust the middle extents. -/
def xfs_refcountbt_adjust_refcount (agsz : Nat) (l : List xfs_refcount_irec)
    (agbno aglen : Nat) (adj : Int) :
    Except XfsError (List xfs_refcount_irec × List (Nat × Nat)) := do
  let l1 := try_split_left_rcextent l agbno
  let l2 := try_split_right_rcextent l1 (agbno + aglen)
  let s ← try_merge_rcextents l2 agbno aglen adj .shared
  adjust_rcextents agsz s.1 s.2.1 s.2.2 adj

/-- xfs_refcount_increase. -/
def xfs_refcount_increase (agsz : Nat) (l : List xfs_refcount_irec)
    (agbno aglen : Nat) :
    Except XfsError (List xfs_refcount_irec × List (Nat × Nat)) :=
  xfs_refcountbt_adjust_refcount agsz l agbno aglen 1

/-- xfs_refcount_decrease. -/
def xfs_refcount_decrease (agsz : Nat) (l : List xfs_refcount_irec)
    (agbno aglen : Nat) :
    Except XfsError (List xfs_refcount_irec × List (Nat × Nat)) :=
  xfs_refcountbt_adjust_refcount agsz l agbno aglen (-1)

/-- enum xfs_adjust_cow, with the integer value passed to the merge step. -/
inductive xfs_adjust_cow where
  | allocCow
  | freeCow
deriving Repr, DecidableEq

/-- The enum's integer value (XFS_ADJUST_COW_ALLOC = 0, _FREE = -1). -/
def cowAdjInt : xfs_adjust_cow → Int
  | .allocCow => 0
  | .freeCow => -1

/-- adjust_cow_rcextents: insert one refcount-1 reservation covering the
whole range (alloc, asserting nothing overlaps), or delete the single
exactly-matching refcount-1 record (free). -/
def adjust_cow_rcextents (agsz : Nat) (l : List xfs_refcount_irec)
    (agbno aglen : Nat) (adj : xfs_adjust_cow) :
    Except XfsError (List xfs_refcount_irec) :=
  if aglen = 0 then Except.ok l
  else
    let ext := (rcFrom l agbno).head?.getD ⟨agsz, 0, 0⟩
    match adj with
    | .allocCow =>
      if agbno + aglen ≤ ext.rc_startblock then
        Except.ok (rcBefore l agbno ++ ⟨agbno, aglen, 1⟩ :: rcFrom l agbno)
      else .error .EFSCORRUPTED
    | .freeCow =>
      if ext.rc_startblock = agbno ∧ ext.rc_blockcount = aglen ∧
          ext.rc_refcount = 1 then
        Except.ok (rcBefore l agbno ++ (rcFrom l agbno).tail)
      else .error .EFSCORRUPTED

/-- xfs_refcountbt_adjust_cow_refcount: the CoW-reservation variant of the
split/merge/adjust pipeline, with the COW find flag. -/
def xfs_refcountbt_adjust_cow_refcount (agsz : Nat) (l : List xfs_refcount_irec)
    (agbno aglen : Nat) (adj : xfs_adjust_cow) :
    Except XfsError (List xfs_refcount_irec) := do
  let l1 := try_split_left_rcextent l agbno
  let l2 := try_split_right_rcextent l1 (agbno + aglen)
  let s ← try_merge_rcextents l2 agbno aglen (cowAdjInt adj) .cow
  adjust_cow_rcextents agsz s.1 s.2.1 s.2.2 adj

/-- xfs_refcountbt_cow_alloc (the refcount-index effect). -/
def xfs_refcountbt_cow_alloc (agsz : Nat) (l : List xfs_refcount_irec)
    (agbno aglen : Nat) : Except XfsError (List xfs_refcount_irec) :=
  xfs_refcountbt_adjust_cow_refcount agsz l agbno aglen .allocCow

/-- xfs_refcountbt_cow_free (the refcount-index effect; the follow-on rmap
update acts on the separate reverse-map index). -/
def xfs_refcountbt_cow_free (agsz : Nat) (l : List xfs_refcount_irec)
    (agbno aglen : Nat) : Except XfsError (List xfs_refcount_irec) :=
  xfs_refcountbt_adjust_cow_refcount agsz l agbno aglen .freeCow

/-- Separation of two refcount records: the first ends at or before the
second starts. -/
def RcSep (a b : xfs_refcount_irec) : Prop := RCNEXT a ≤ b.rc_startblock

/-- Well-formed refcount index: records sorted and pairwise separated, with
positive lengths, lying inside the AG. -/
def RcWF (agsz : Nat) (l : List xfs_refcount_irec) : Prop :=
  l.Pairwise RcSep ∧ ∀ r ∈ l, 0 < r.rc_blockcount ∧ RCNEXT r ≤ agsz

/-- Two records overlap when each starts before the other ends. -/
def RcOverlap (a b : xfs_refcount_irec) : Prop :=
  a.rc_startblock < RCNEXT b ∧ b.rc_startblock < RCNEXT a

/-- No two stored records of the index overlap. -/
def RcNoOverlap (l : List xfs_refcount_irec) : Prop :=
  l.Pairwise fun a b => ¬ RcOverlap a b

/-! ## Reverse-map index (xfs_rmap.c)

The embedding models the rmapx configuration (xfs_sb_version_hasrmapxbt and
hasrmapbt both true): records keyed and ordered lexicographically by
(rm_startblock, rm_owner, rm_offset), per xfs_rmapxbt_key_diff, which is the
ordering the spec describes.  xfs_owner_info_unpack is plumbing; the
operations here take the unpacked owner and offset directly. -/

/-- In-core reverse-mapping record: struct xfs_rmap_irec.  rm_blockcount is
a u32 whose high bit carries the unwritten flag; rm_offset is a u64 whose
high bits carry the bmbt and attr-fork flags. -/
structure xfs_rmap_irec where
  rm_startblock : Nat
  rm_blockcount : Nat
  rm_owner : Nat
  rm_offset : Nat
deriving Repr, DecidableEq

/-- Modelled from the spec: xfs_format.h is not part of the core source; the
wildcard owner asserted during space-growth operations, the all-ones u64. -/
def XFS_RMAP_OWN_NULL : Nat := u64lim - 1

/-- Modelled from the spec: xfs_format.h is not part of the core source; the
unknown-owner wildcard accepted during log recovery. -/
def XFS_RMAP_OWN_UNKNOWN : Nat := u64lim - 2

/-- Modelled from the spec: non-inode owners are the reserved sentinels with
the top bit of the u64 owner set. -/
def XFS_RMAP_NON_INODE_OWNER (owner : Nat) : Bool :=
  decide (2 ^ 63 ≤ owner)

/-- Modelled from the spec: the bmbt-block flag bit in rm_offset. -/
def XFS_RMAP_OFF_BMBT : Nat := 2 ^ 63

/-- Modelled from the spec: the attr-fork flag bit in rm_offset. -/
def XFS_RMAP_OFF_ATTR : Nat := 2 ^ 62

/-- Modelled from the spec: the unwritten flag bit in rm_blockcount. -/
def XFS_RMAP_LEN_UNWRITTEN : Nat := 2 ^ 31

/-- Test of the bmbt flag bit in an offset field. -/
def XFS_RMAP_IS_BMBT (off : Nat) : Bool := decide (off / 2 ^ 63 % 2 = 1)

/-- Test of the attr-fork flag bit in an offset field. -/
def XFS_RMAP_IS_ATTR_FORK (off : Nat) : Bool := decide (off / 2 ^ 62 % 2 = 1)

/-- Test of the unwritten flag bit in a blockcount field. -/
def XFS_RMAP_IS_UNWRITTEN (len : Nat) : Bool := decide (len / 2 ^ 31 % 2 = 1)

/-- XFS_RMAP_LEN: the blockcount with the unwritten flag bit cleared
(blockcounts are u32). -/
def XFS_RMAP_LEN (len : Nat) : Nat :=
  if XFS_RMAP_IS_UNWRITTEN len then len - XFS_RMAP_LEN_UNWRITTEN else len

/-- The rmapx lookup key order: is the record's (start, owner, offset) at or
below the search key. -/
def rmapKeyLE (r : xfs_rmap_irec) (bno owner offset : Nat) : Bool :=
  decide (r.rm_startblock < bno) ||
    (decide (r.rm_startblock = bno) &&
      (decide (r.rm_owner < owner) ||
        (decide (r.rm_owner = owner) && decide (r.rm_offset ≤ offset))))

/-- Exact key match (rm_blockcount is not part of the key). -/
def rmapKeyEq (r : xfs_rmap_irec) (bno owner offset : Nat) : Bool :=
  decide (r.rm_startblock = bno) && decide (r.rm_owner = owner) &&
    decide (r.rm_offset = offset)

/-- The records at or left of a lookup-le key. -/
def rmBelow (l : List xfs_rmap_irec) (bno owner offset : Nat) : List xfs_rmap_irec :=
  l.takeWhile (fun r => rmapKeyLE r bno owner offset)

/-- The records strictly right of a lookup-le key. -/
def rmAbove (l : List xfs_rmap_irec) (bno owner offset : Nat) : List xfs_rmap_irec :=
  l.dropWhile (fun r => rmapKeyLE r bno owner offset)

/-- xfs_rmapbt_insert: fail with CorruptMetadata when a record with the same
key exists (the lookup-eq stat must be 0), else insert at the key position. -/
def xfs_rmapbt_insert (l : List xfs_rmap_irec) (agbno len owner offset : Nat) :
    Except XfsError (List xfs_rmap_irec) :=
  if l.any (fun r => rmapKeyEq r agbno owner offset) then .error .EFSCORRUPTED
  else Except.ok (rmBelow l agbno owner offset ++
    ⟨agbno, len, owner, offset⟩ :: rmAbove l agbno owner offset)

/-- Delete the first record matching a predicate, or fail. -/
def rmapDeleteFirst (p : xfs_rmap_irec → Bool) :
    List xfs_rmap_irec → Except XfsError (List xfs_rmap_irec)
  | [] => .error .EFSCORRUPTED
  | r :: t =>
    if p r then Except.ok t
    else do
      let t' ← rmapDeleteFirst p t
      Except.ok (r :: t')

/-- Update the first record matching a predicate in place, or fail. -/
def rmapUpdateFirst (p : xfs_rmap_irec → Bool) (f : xfs_rmap_irec → xfs_rmap_irec) :
    List xfs_rmap_irec → Except XfsError (List xfs_rmap_irec)
  | [] => .error .EFSCORRUPTED
  | r :: t =>
    if p r then Except.ok (f r :: t)
    else do
      let t' ← rmapUpdateFirst p f t
      Except.ok (r :: t')

/-- xfs_rmapbt_delete: lookup-eq (stat must be 1) then delete the record. -/
def xfs_rmapbt_delete (l : List xfs_rmap_irec) (agbno len owner offset : Nat) :
    Except XfsError (List xfs_rmap_irec) :=
  rmapDeleteFirst (fun r => rmapKeyEq r agbno owner offset) l

/-- is_mergeable_rmap: same owner, not the wildcard, not unwritten, and
matching attr-fork and bmbt flags. -/
def is_mergeable_rmap (irec : xfs_rmap_irec) (owner offset : Nat) : Bool :=
  if irec.rm_owner = XFS_RMAP_OWN_NULL then false
  else if irec.rm_owner ≠ owner then false
  else if XFS_RMAP_IS_UNWRITTEN irec.rm_blockcount then false
  else if XFS_RMAP_IS_ATTR_FORK offset ≠ XFS_RMAP_IS_ATTR_FORK irec.rm_offset then false
  else if XFS_RMAP_IS_BMBT offset ≠ XFS_RMAP_IS_BMBT irec.rm_offset then false
  else true

/-- xfs_rmap_free: locate the covering record left of the freeing range and
remove, shrink or split it.  The wildcard owner XFS_RMAP_OWN_NULL only
asserts that the range lies strictly beyond the record found, mutating
nothing.  Embeds the configuration with the rmapbt feature enabled. -/
def xfs_rmap_free (l : List xfs_rmap_irec) (bno len owner offset : Nat) :
    Except XfsError (List xfs_rmap_irec) :=
  match (rmBelow l bno owner offset).getLast? with
  | none => .error .EFSCORRUPTED
  | some ltrec =>
    let A := rmBelow l bno owner offset
    let B := rmAbove l bno owner offset
    let ltoff := ltrec.rm_offset % XFS_RMAP_OFF_BMBT
    if owner = XFS_RMAP_OWN_NULL then
      if ltrec.rm_startblock + ltrec.rm_blockcount < bno then Except.ok l
      else .error .EFSCORRUPTED
    else if XFS_RMAP_IS_UNWRITTEN ltrec.rm_blockcount then .error .EFSCORRUPTED
    else if ¬ (ltrec.rm_startblock ≤ bno ∧
        bno + len ≤ ltrec.rm_startblock + XFS_RMAP_LEN ltrec.rm_blockcount) then
      .error .EFSCORRUPTED
    else if ¬ (owner = ltrec.rm_owner ∨ XFS_RMAP_NON_INODE_OWNER owner) then
      .error .EFSCORRUPTED
    else if ¬ XFS_RMAP_NON_INODE_OWNER owner ∧ XFS_RMAP_IS_BMBT offset ∧
        ¬ XFS_RMAP_IS_BMBT ltrec.rm_offset then
      .error .EFSCORRUPTED
    else if ¬ XFS_RMAP_NON_INODE_OWNER owner ∧ ¬ XFS_RMAP_IS_BMBT offset ∧
        ¬ (ltrec.rm_offset ≤ offset ∧ offset ≤ ltoff + ltrec.rm_blockcount) then
      .error .EFSCORRUPTED
    else if ltrec.rm_startblock = bno ∧ ltrec.rm_blockcount = len then
      Except.ok (A.dropLast ++ B)
    else if ltrec.rm_startblock = bno then
      Except.ok (A.dropLast ++
        { ltrec with rm_startblock := ltrec.rm_startblock + len,
                     rm_blockcount := ltrec.rm_blockcount - len } :: B)
    else if ltrec.rm_startblock + ltrec.rm_blockcount = bno + len then
      Except.ok (A.dropLast ++
        { ltrec with rm_blockcount := ltrec.rm_blockcount - len } :: B)
    else
      Except.ok (A.dropLast ++
        { ltrec with rm_blockcount := bno - ltrec.rm_startblock } ::
        ⟨bno + len, ltrec.rm_blockcount - len - (bno - ltrec.rm_startblock),
          ltrec.rm_owner, offset⟩ :: B)

/-- xfs_rmap_alloc: add one reverse mapping, merging with the left or right
adjacent record when the owner matches and the extents are contiguous, with
corruption checks against the nearest neighbors.  Embeds the configuration
with the rmapbt feature enabled. -/
def xfs_rmap_alloc (l : List xfs_rmap_irec) (bno len owner offset : Nat) :
    Except XfsError (List xfs_rmap_irec) :=
  match (rmBelow l bno owner offset).getLast? with
  | none => .error .EFSCORRUPTED
  | some lt0 =>
    let A := rmBelow l bno owner offset
    let B := rmAbove l bno owner offset
    let ltrec := if is_mergeable_rmap lt0 owner offset then lt0
      else { lt0 with rm_owner := XFS_RMAP_OWN_NULL }
    if ¬ (ltrec.rm_owner = XFS_RMAP_OWN_NULL ∨
        ltrec.rm_startblock + ltrec.rm_blockcount ≤ bno) then
      .error .EFSCORRUPTED
    else
      let gtCheck : Except XfsError xfs_rmap_irec :=
        match B.head? with
        | some g =>
          if ¬ (bno + len ≤ g.rm_startblock) then .error .EFSCORRUPTED
          else Except.ok (if is_mergeable_rmap g owner offset then g
            else { g with rm_owner := XFS_RMAP_OWN_NULL })
        | none => Except.ok ⟨0, 0, XFS_RMAP_OWN_NULL, 0⟩
      match gtCheck with
      | .error e => .error e
      | .ok gtrec =>
        if ltrec.rm_owner = owner ∧
            ltrec.rm_startblock + ltrec.rm_blockcount = bno then
          if gtrec.rm_owner = owner ∧ bno + len = gtrec.rm_startblock then
            Except.ok (A.dropLast ++
              { ltrec with rm_blockcount :=
                  ltrec.rm_blockcount + len + gtrec.rm_blockcount } :: B.tail)
          else
            Except.ok (A.dropLast ++
              { ltrec with rm_blockcount := ltrec.rm_blockcount + len } :: B)
        else if gtrec.rm_owner = owner ∧ bno + len = gtrec.rm_startblock then
          Except.ok (A ++
            { gtrec with rm_startblock := bno,
                         rm_blockcount := gtrec.rm_blockcount + len } :: B.tail)
        else
          Except.ok (A ++ ⟨bno, len, owner, offset⟩ :: B)

/-! ## Deferred rmap intents (xfs_rmap.c intent list and flush) -/

/-- In-core bmap record: struct xfs_bmbt_irec (br_state reduced to the
unwritten bit, the only state the rmap code consults). -/
structure xfs_bmbt_irec where
  br_startoff : Nat
  br_startblock : Nat
  br_blockcount : Nat
  br_unwritten : Bool
deriving Repr, DecidableEq

/-- Modelled from the spec: xfs_format.h is not part of the core source;
delayed-allocation placeholder startblocks have the STARTBLOCKMASK bits all
set (isnullstartblock). -/
def STARTBLOCKMASK : Nat := (2 ^ 35 - 1) * 2 ^ 17

/-- isnullstartblock. -/
def isnullstartblock (x : Nat) : Bool :=
  decide (x &&& STARTBLOCKMASK = STARTBLOCKMASK)

/-- b2r_off: encode the logical offset, setting the attr-fork flag bit. -/
def b2r_off (attrFork : Bool) (off : Nat) : Nat :=
  if attrFork then off ||| XFS_RMAP_OFF_ATTR else off

/-- b2r_len: encode the blockcount, setting the unwritten flag bit. -/
def b2r_len (irec : xfs_bmbt_irec) : Nat :=
  if irec.br_unwritten then irec.br_blockcount ||| XFS_RMAP_LEN_UNWRITTEN
  else irec.br_blockcount

/-- Signed addition on a u64 field, wrapping as C unsigned arithmetic. -/
def addWrap64 (a : Nat) (d : Int) : Nat :=
  (((a : Int) + d) % (u64lim : Int)).toNat

/-- XFS_FSB_TO_AGNO for a filesystem with 2^agblklog blocks per AG. -/
def XFS_FSB_TO_AGNO (agblklog fsb : Nat) : Nat := fsb / 2 ^ agblklog

/-- XFS_FSB_TO_AGBNO. -/
def XFS_FSB_TO_AGBNO (agblklog fsb : Nat) : Nat := fsb % 2 ^ agblklog

/-- enum xfs_rmap_intent_type. -/
inductive xfs_rmap_intent_type where
  | combine
  | lcombine
  | rcombine
  | insertMap
  | deleteMap
  | move
  | slide
  | resize
deriving Repr, DecidableEq

/-- struct xfs_rmap_intent, with the payload union flattened (the fields of
the variant not selected by ri_type are ignored by the apply functions). -/
structure xfs_rmap_intent where
  ri_type : xfs_rmap_intent_type
  ri_ino : Nat
  ri_whichfork : Bool
  ri_prev : xfs_bmbt_irec
  ri_left : xfs_bmbt_irec
  ri_right : xfs_bmbt_irec
  ri_adj : Int
deriving Repr, DecidableEq

/-- rmap_ag: the AG a queued intent operates on. -/
def rmap_ag (agblklog : Nat) (ri : xfs_rmap_intent) : Nat :=
  match ri.ri_type with
  | .combine | .lcombine => XFS_FSB_TO_AGNO agblklog ri.ri_left.br_startblock
  | .rcombine => XFS_FSB_TO_AGNO agblklog ri.ri_right.br_startblock
  | _ => XFS_FSB_TO_AGNO agblklog ri.ri_prev.br_startblock

/-- The insertion loop of __xfs_rmap_add: walk past every queued intent
whose AG number is at or below the new intent's, insert before the first
intent with a greater AG number. -/
def rmap_add_go (agblklog new_agno : Nat) (new : xfs_rmap_intent) :
    List xfs_rmap_intent → List xfs_rmap_intent
  | [] => [new]
  | cur :: rest =>
    if rmap_ag agblklog cur > new_agno then new :: cur :: rest
    else cur :: rmap_add_go agblklog new_agno new rest

/-- __xfs_rmap_add: queue an intent, keeping the list sorted by AG number
with FIFO order within an AG. -/
def __xfs_rmap_add (agblklog : Nat) (rlist : List xfs_rmap_intent)
    (ri : xfs_rmap_intent) : List xfs_rmap_intent :=
  rmap_add_go agblklog (rmap_ag agblklog ri) ri rlist

/-- __xfs_rmap_resize: look up the mapping of PREV exactly and change its
blockcount by size_adj. -/
def __xfs_rmap_resize (agblklog : Nat) (l : List xfs_rmap_irec) (ino : Nat)
    (fork : Bool) (PREV : xfs_bmbt_irec) (size_adj : Int) :
    Except XfsError (List xfs_rmap_irec) :=
  rmapUpdateFirst
    (fun r => rmapKeyEq r (XFS_FSB_TO_AGBNO agblklog PREV.br_startblock) ino
      (b2r_off fork PREV.br_startoff))
    (fun r =>
      let grown : xfs_bmbt_irec :=
        { PREV with br_blockcount := addWrap64 PREV.br_blockcount size_adj }
      { r with rm_blockcount := b2r_len grown })
    l

/-- __xfs_rmap_move: delete the mapping of PREV and re-add it with start,
offset and blockcount shifted by start_adj. -/
def __xfs_rmap_move (agblklog : Nat) (l : List xfs_rmap_irec) (ino : Nat)
    (fork : Bool) (PREV : xfs_bmbt_irec) (start_adj : Int) :
    Except XfsError (List xfs_rmap_irec) := do
  let l1 ← xfs_rmapbt_delete l (XFS_FSB_TO_AGBNO agblklog PREV.br_startblock)
    (b2r_len PREV) ino (b2r_off fork PREV.br_startoff)
  let irec : xfs_bmbt_irec :=
    { PREV with br_startblock := addWrap64 PREV.br_startblock start_adj,
                br_startoff := addWrap64 PREV.br_startoff start_adj,
                br_blockcount := addWrap64 PREV.br_blockcount (-start_adj) }
  xfs_rmapbt_insert l1 (XFS_FSB_TO_AGBNO agblklog irec.br_startblock)
    (b2r_len irec) ino (b2r_off fork irec.br_startoff)

/-- __xfs_rmap_slide: delete the mapping of PREV and re-add it with the
logical offset shifted by start_adj. -/
def __xfs_rmap_slide (agblklog : Nat) (l : List xfs_rmap_irec) (ino : Nat)
    (fork : Bool) (PREV : xfs_bmbt_irec) (start_adj : Int) :
    Except XfsError (List xfs_rmap_irec) := do
  let l1 ← xfs_rmapbt_delete l (XFS_FSB_TO_AGBNO agblklog PREV.br_startblock)
    (b2r_len PREV) ino (b2r_off fork PREV.br_startoff)
  xfs_rmapbt_insert l1 (XFS_FSB_TO_AGBNO agblklog PREV.br_startblock)
    (b2r_len PREV) ino (b2r_off fork (addWrap64 PREV.br_startoff start_adj))

/-- Delete the mapping of PREV unless it is a delayed-allocation
placeholder (shared by the combine variants). -/
def rmapDeletePrev (agblklog : Nat) (l : List xfs_rmap_irec) (ino : Nat)
    (fork : Bool) (PREV : xfs_bmbt_irec) : Except XfsError (List xfs_rmap_irec) :=
  if ¬ isnullstartblock PREV.br_startblock then
    xfs_rmapbt_delete l (XFS_FSB_TO_AGBNO agblklog PREV.br_startblock)
      (b2r_len PREV) ino (b2r_off fork PREV.br_startoff)
  else Except.ok l

/-- __xfs_rmap_combine: delete the right and prev mappings and grow the left
mapping over both. -/
def __xfs_rmap_combine (agblklog : Nat) (l : List xfs_rmap_irec) (ino : Nat)
    (fork : Bool) (LEFT RIGHT PREV : xfs_bmbt_irec) :
    Except XfsError (List xfs_rmap_irec) := do
  let l1 ← xfs_rmapbt_delete l (XFS_FSB_TO_AGBNO agblklog RIGHT.br_startblock)
    (b2r_len RIGHT) ino (b2r_off fork RIGHT.br_startoff)
  let l2 ← rmapDeletePrev agblklog l1 ino fork PREV
  __xfs_rmap_resize agblklog l2 ino fork LEFT
    ((PREV.br_blockcount : Int) + (RIGHT.br_blockcount : Int))

/-- __xfs_rmap_lcombine: delete the prev mapping and grow the left mapping
over it. -/
def __xfs_rmap_lcombine (agblklog : Nat) (l : List xfs_rmap_irec) (ino : Nat)
    (fork : Bool) (LEFT PREV : xfs_bmbt_irec) :
    Except XfsError (List xfs_rmap_irec) := do
  let l1 ← rmapDeletePrev agblklog l ino fork PREV
  __xfs_rmap_resize agblklog l1 ino fork LEFT (PREV.br_blockcount : Int)

/-- __xfs_rmap_rcombine: delete the prev mapping and grow the right mapping
leftward over it. -/
def __xfs_rmap_rcombine (agblklog : Nat) (l : List xfs_rmap_irec) (ino : Nat)
    (fork : Bool) (RIGHT PREV : xfs_bmbt_irec) :
    Except XfsError (List xfs_rmap_irec) := do
  let l1 ← rmapDeletePrev agblklog l ino fork PREV
  __xfs_rmap_move agblklog l1 ino fork RIGHT (-(PREV.br_blockcount : Int))

/-- __xfs_rmap_insert. -/
def __xfs_rmap_insert (agblklog : Nat) (l : List xfs_rmap_irec) (ino : Nat)
    (fork : Bool) (rec : xfs_bmbt_irec) : Except XfsError (List xfs_rmap_irec) :=
  xfs_rmapbt_insert l (XFS_FSB_TO_AGBNO agblklog rec.br_startblock)
    (b2r_len rec) ino (b2r_off fork rec.br_startoff)

/-- __xfs_rmap_delete. -/
def __xfs_rmap_delete (agblklog : Nat) (l : List xfs_rmap_irec) (ino : Nat)
    (fork : Bool) (rec : xfs_bmbt_irec) : Except XfsError (List xfs_rmap_irec) :=
  xfs_rmapbt_delete l (XFS_FSB_TO_AGBNO agblklog rec.br_startblock)
    (b2r_len rec) ino (b2r_off fork rec.br_startoff)

/-- Dispatch one queued intent against the rmap index of its AG (the switch
in __xfs_rmap_finish). -/
def rmapApplyIntent (agblklog : Nat) (l : List xfs_rmap_irec)
    (ri : xfs_rmap_intent) : Except XfsError (List xfs_rmap_irec) :=
  match ri.ri_type with
  | .combine => __xfs_rmap_combine agblklog l ri.ri_ino ri.ri_whichfork
      ri.ri_left ri.ri_right ri.ri_prev
  | .lcombine => __xfs_rmap_lcombine agblklog l ri.ri_ino ri.ri_whichfork
      ri.ri_left ri.ri_prev
  | .rcombine => __xfs_rmap_rcombine agblklog l ri.ri_ino ri.ri_whichfork
      ri.ri_right ri.ri_prev
  | .insertMap => __xfs_rmap_insert agblklog l ri.ri_ino ri.ri_whichfork ri.ri_prev
  | .deleteMap => __xfs_rmap_delete agblklog l ri.ri_ino ri.ri_whichfork ri.ri_prev
  | .move => __xfs_rmap_move agblklog l ri.ri_ino ri.ri_whichfork ri.ri_prev ri.ri_adj
  | .slide => __xfs_rmap_slide agblklog l ri.ri_ino ri.ri_whichfork ri.ri_prev ri.ri_adj
  | .resize => __xfs_rmap_resize agblklog l ri.ri_ino ri.ri_whichfork ri.ri_prev ri.ri_adj

/-- The loop of __xfs_rmap_finish: apply the queued intents in list order
with one cursor per AG; an intent whose AG number is below the AG of the
currently open cursor fails with CorruptMetadata. -/
def __xfs_rmap_finish_go (agblklog : Nat) (st : Nat → List xfs_rmap_irec)
    (cursorAg : Option Nat) :
    List xfs_rmap_intent → Except XfsError (Nat → List xfs_rmap_irec)
  | [] => Except.ok st
  | ri :: rest =>
    let agno := rmap_ag agblklog ri
    match cursorAg with
    | some c =>
      if agno < c then .error .EFSCORRUPTED
      else do
        let l' ← rmapApplyIntent agblklog (st agno) ri
        __xfs_rmap_finish_go agblklog (fun a => if a = agno then l' else st a)
          (some agno) rest
    | none => do
        let l' ← rmapApplyIntent agblklog (st agno) ri
        __xfs_rmap_finish_go agblklog (fun a => if a = agno then l' else st a)
          (some agno) rest

/-- __xfs_rmap_finish over the per-AG index family, starting with no open
cursor. -/
def __xfs_rmap_finish (agblklog : Nat) (st : Nat → List xfs_rmap_irec)
    (rlist : List xfs_rmap_intent) : Except XfsError (Nat → List xfs_rmap_irec) :=
  __xfs_rmap_finish_go agblklog st none rlist

/-! ## Well-formedness and overlap predicates for the two indexes -/

/-- Strict lexicographic order of rmap records by (start, owner, offset). -/
def rmapKeyLt (a b : xfs_rmap_irec) : Prop :=
  a.rm_startblock < b.rm_startblock ∨
    (a.rm_startblock = b.rm_startblock ∧
      (a.rm_owner < b.rm_owner ∨
        (a.rm_owner = b.rm_owner ∧ a.rm_offset < b.rm_offset)))

instance : DecidablePred fun p : xfs_rmap_irec × xfs_rmap_irec => rmapKeyLt p.1 p.2 := by
  intro p; unfold rmapKeyLt; infer_instance

/-- Well-formed rmap index: records strictly sorted by key (hence unique by
full key), with positive payload lengths inside the AG and u32/u64 bounded
fields. -/
def RmapWF (agsz : Nat) (l : List xfs_rmap_irec) : Prop :=
  l.Pairwise rmapKeyLt ∧
    ∀ r ∈ l, 0 < XFS_RMAP_LEN r.rm_blockcount ∧
      r.rm_startblock + XFS_RMAP_LEN r.rm_blockcount ≤ agsz ∧
      r.rm_blockcount < u32lim ∧ r.rm_owner < u64lim ∧ r.rm_offset < u64lim

/-- Two rmap records for the same owner whose physical extents overlap. -/
def rmapSameOwnerOverlap (a b : xfs_rmap_irec) : Prop :=
  a.rm_owner = b.rm_owner ∧
    a.rm_startblock < b.rm_startblock + XFS_RMAP_LEN b.rm_blockcount ∧
    b.rm_startblock < a.rm_startblock + XFS_RMAP_LEN a.rm_blockcount

/-- No two stored rmap records for the same owner overlap. -/
def RmapNoSameOwnerOverlap (l : List xfs_rmap_irec) : Prop :=
  l.Pairwise fun a b => ¬ rmapSameOwnerOverlap a b

/-! ## Operation sequences over the two indexes (for the invariant claims) -/

/-- The refcount-adjuster operations (spec 4.2): genuine refcount increase
and decrease, and the CoW-reservation alloc and free. -/
inductive RcOp where
  | inc (agbno aglen : Nat)
  | dec (agbno aglen : Nat)
  | cowAlloc (agbno aglen : Nat)
  | cowFree (agbno aglen : Nat)
deriving Repr, DecidableEq

/-- A call is in range when it covers at least one block of the AG (spec
section 3: extents have positive length and lie within one AG). -/
def RcOpOk (agsz : Nat) : RcOp → Prop
  | .inc agbno aglen | .dec agbno aglen | .cowAlloc agbno aglen | .cowFree agbno aglen =>
    0 < aglen ∧ agbno + aglen ≤ agsz

/-- Run one refcount-adjuster operation; a CorruptMetadata failure aborts
the enclosing transaction, rolling the index back to its prior state (spec
section 7), so the failing call leaves the state unchanged. -/
def rcStep (agsz : Nat) (l : List xfs_refcount_irec) : RcOp → List xfs_refcount_irec
  | .inc agbno aglen =>
    match xfs_refcount_increase agsz l agbno aglen with
    | .ok s => s.1
    | .error _ => l
  | .dec agbno aglen =>
    match xfs_refcount_decrease agsz l agbno aglen with
    | .ok s => s.1
    | .error _ => l
  | .cowAlloc agbno aglen =>
    match xfs_refcountbt_cow_alloc agsz l agbno aglen with
    | .ok s => s
    | .error _ => l
  | .cowFree agbno aglen =>
    match xfs_refcountbt_cow_free agsz l agbno aglen with
    | .ok s => s
    | .error _ => l

instance : DecidableRel rmapKeyLt := by
  intro a b; unfold rmapKeyLt; infer_instance

instance : DecidableRel RcSep := by
  intro a b; unfold RcSep; infer_instance

instance : DecidableRel RcOverlap := by
  intro a b; unfold RcOverlap; infer_instance

instance : DecidableRel rmapSameOwnerOverlap := by
  intro a b; unfold rmapSameOwnerOverlap; infer_instance

instance (agsz : Nat) : DecidablePred (RcWF agsz) := by
  intro l; unfold RcWF; infer_instance

instance : DecidablePred RcNoOverlap := by
  intro l; unfold RcNoOverlap
  have : DecidableRel fun a b => ¬ RcOverlap a b := fun a b => instDecidableNot
  infer_instance

instance (agsz : Nat) : DecidablePred (RmapWF agsz) := by
  intro l; unfold RmapWF; infer_instance

instance : DecidablePred RmapNoSameOwnerOverlap := by
  intro l; unfold RmapNoSameOwnerOverlap
  have : DecidableRel fun a b : xfs_rmap_irec => ¬ rmapSameOwnerOverlap a b :=
    fun a b => instDecidableNot
  infer_instance

instance (agsz : Nat) : DecidablePred (RcOpOk agsz) := by
  intro op; cases op <;> (unfold RcOpOk; infer_instance)

/-- A genuine refcount adjustment (increase or decrease), as opposed to the
CoW-reservation operations. -/
def RcOpGenuine : RcOp → Prop
  | .inc _ _ => True
  | .dec _ _ => True
  | .cowAlloc _ _ => False
  | .cowFree _ _ => False

instance : DecidablePred RcOpGenuine := by
  intro op; cases op <;> (unfold RcOpGenuine; infer_instance)

/-- A purely-shared well-formed refcount index: well-formed and every stored
record has refcount at least 2 (no CoW reservation records). -/
def ShWF (agsz : Nat) (l : List xfs_refcount_irec) : Prop :=
  RcWF agsz l ∧ ∀ r ∈ l, 2 ≤ r.rc_refcount

instance (agsz : Nat) : DecidablePred (ShWF agsz) := by
  intro l; unfold ShWF; infer_instance

/-- No stored record straddles the block boundary b. -/
def NoStraddle (l : List xfs_refcount_irec) (b : Nat) : Prop :=
  ∀ r ∈ l, ¬ (r.rc_startblock < b ∧ b < RCNEXT r)

/-- The segment preconditions maintained along the adjust pipeline: a
purely-shared well-formed index in which no record straddles either
boundary of the in-AG adjustment range. -/
def SegOK (agsz : Nat) (l : List xfs_refcount_irec) (agbno aglen : Nat) : Prop :=
  ShWF agsz l ∧ NoStraddle l agbno ∧ NoStraddle l (agbno + aglen) ∧
    agbno + aglen ≤ agsz

theorem agResvStep_inv {r : xfs_ag_resv} {op : AgResvOp}
    (hr : AgResvInv r) (hop : AgResvOpOk op) : AgResvInv (agResvStep r op) := by
  obtain ⟨hle, hlt⟩ := hr
  cases op with
  | init ask used =>
    obtain ⟨ha, hu⟩ := hop
    simp only [agResvStep, resv_init_entry, AgResvInv]
    split <;> constructor <;> omega
  | allocExtent len =>
    simp only [agResvStep, resv_alloc_entry, AgResvInv]
    split <;> constructor <;> simp_all <;> omega
  | freeExtent len =>
    simp only [agResvStep, resv_free_extent_entry, AgResvInv]
    split <;> constructor <;> simp_all <;> omega
  | freePool =>
    simp only [agResvStep, resv_free_entry, AgResvInv]
    exact ⟨Nat.le_refl 0, by unfold u32lim; omega⟩

theorem agResvFold_inv (ops : List AgResvOp) (r : xfs_ag_resv)
    (hr : AgResvInv r) (hops : ∀ op ∈ ops, AgResvOpOk op) :
    AgResvInv (ops.foldl agResvStep r) := by
  induction ops generalizing r with
  | nil => exact hr
  | cons op rest ih =>
    exact ih _ (agResvStep_inv hr (hops op (List.mem_cons_self op rest)))
      (fun o ho => hops o (List.mem_cons_of_mem op ho))

/-! ## Helper lemmas -/

theorem decide_lt_or_max (a b c : Nat) :
    (decide (a < b) || decide (a < c)) = decide (a < max b c) := by
  by_cases h1 : a < b <;> by_cases h2 : a < c <;>
    simp [h1, h2, lt_max_iff]

/-! ## Claim theorems -/

/-- C8: xfs_ag_resv_critical returns true exactly when the class's available
headroom (free blocks, plus the free-list blocks for the AGFL class, minus
the other class's reserved blocks) is below the larger of the two
thresholds: a tenth of the class's asked value and the fixed floor equal to
the maximum index height. -/
theorem c8_critical_threshold (pag : xfs_perag) (t : xfs_ag_resv_type)
    (h : t = .metadata ∨ t = .agfl) :
    xfs_ag_resv_critical pag t = ag_resv_critical_spec pag t := by
  rcases h with h | h <;> subst h <;>
    simp only [xfs_ag_resv_critical, ag_resv_critical_spec] <;>
    exact decide_lt_or_max _ _ _

/-- C8 witness: the equivalence evaluated at a concrete per-AG state. -/
theorem c8_critical_threshold_witness :
    ((xfs_ag_resv_type.metadata = .metadata ∨ xfs_ag_resv_type.metadata = .agfl) ∧
      xfs_ag_resv_critical ⟨50, 3, ⟨100, 10⟩, ⟨40, 7⟩⟩ .metadata =
        ag_resv_critical_spec ⟨50, 3, ⟨100, 10⟩, ⟨40, 7⟩⟩ .metadata) :=
  ⟨Or.inl rfl, c8_critical_threshold ⟨50, 3, ⟨100, 10⟩, ⟨40, 7⟩⟩ .metadata (Or.inl rfl)⟩

/-- C6: for every reservation class entry within u32 bounds, every sequence
of init / allocate / free / pool-free calls with u32 arguments keeps
0 <= reserved <= asked, and init sets reserved = max(ask, used) - used,
which lies within [0, asked]. -/
theorem c6_reservation_bound (r : xfs_ag_resv) (ops : List AgResvOp) (ask used : Nat)
    (hr : AgResvInv r) (hops : ∀ op ∈ ops, AgResvOpOk op) :
    (0 ≤ (ops.foldl agResvStep r).ar_reserved ∧
      (ops.foldl agResvStep r).ar_reserved ≤ (ops.foldl agResvStep r).ar_asked) ∧
    (resv_init_entry ask used).ar_reserved = max ask used - used ∧
    (resv_init_entry ask used).ar_reserved ≤ (resv_init_entry ask used).ar_asked := by
  refine ⟨⟨Nat.zero_le _, (agResvFold_inv ops r hr hops).1⟩, ?_, ?_⟩ <;>
    simp only [resv_init_entry] <;> split <;> omega

/-- C6 witness: the bound evaluated over a concrete call sequence. -/
theorem c6_reservation_bound_witness :
    (AgResvInv ⟨0, 0⟩ ∧
      (∀ op ∈ [AgResvOp.init 100 40, AgResvOp.allocExtent 70,
        AgResvOp.freeExtent 90, AgResvOp.freePool], AgResvOpOk op)) ∧
    ((0 ≤ (([AgResvOp.init 100 40, AgResvOp.allocExtent 70,
        AgResvOp.freeExtent 90, AgResvOp.freePool].foldl agResvStep ⟨0, 0⟩)).ar_reserved ∧
      (([AgResvOp.init 100 40, AgResvOp.allocExtent 70,
        AgResvOp.freeExtent 90, AgResvOp.freePool].foldl agResvStep ⟨0, 0⟩)).ar_reserved ≤
      (([AgResvOp.init 100 40, AgResvOp.allocExtent 70,
        AgResvOp.freeExtent 90, AgResvOp.freePool].foldl agResvStep ⟨0, 0⟩)).ar_asked) ∧
    (resv_init_entry 100 40).ar_reserved = max 100 40 - 40 ∧
    (resv_init_entry 100 40).ar_reserved ≤ (resv_init_entry 100 40).ar_asked) :=
  ⟨⟨by decide, by decide⟩,
    c6_reservation_bound ⟨0, 0⟩ _ 100 40 (by decide) (by decide)⟩

/-- C3 counterexample: starting from init(ask=100, used=40), sixty-one
single-block allocations leave asked at 100 (and reserved at 0); the 61st
call does not grow asked to 101. -/
theorem c3_61st_alloc_cex :
    (List.replicate 61 (AgResvOp.allocExtent 1)).foldl agResvStep
      (resv_init_entry 100 40) = ⟨100, 0⟩ := by
  set_option maxRecDepth 4000 in decide

/-- C3 amended: init(100, 40) yields reserved = 60; sixty single-block
allocations drain reserved to 0 with asked still 100; the 61st allocation
does not fail and does not grow asked: it clamps reserved at 0, leaves
asked at 100, and charges the one-block shortfall directly to the global
free-block counter (delta -1). -/
theorem c3_alloc_exhaustion_behavior :
    resv_init_entry 100 40 = ⟨100, 60⟩ ∧
    (List.replicate 60 (AgResvOp.allocExtent 1)).foldl agResvStep
      (resv_init_entry 100 40) = ⟨100, 0⟩ ∧
    xfs_ag_resv_alloc_extent ⟨500, 0, ⟨100, 0⟩, ⟨0, 0⟩⟩ .metadata 1 =
      (⟨500, 0, ⟨100, 0⟩, ⟨0, 0⟩⟩, -1) := by
  refine ⟨by decide, by set_option maxRecDepth 4000 in decide, ?_⟩
  decide

/-- C4: starting from the single record (10,5,refcount 2), an increase over
blocks [12,14) succeeds and leaves exactly the records (10,2,2), (12,2,3),
(14,1,2): both boundaries split, the middle record incremented, no merge. -/
theorem c4_inner_increase_splits :
    xfs_refcount_increase 1024 [⟨10, 5, 2⟩] 12 2 =
      .ok ([⟨10, 2, 2⟩, ⟨12, 2, 3⟩, ⟨14, 1, 2⟩], []) := rfl

/-- C2 counterexample: with the CoW reservation record (20,3,refcount 1)
stored, a genuine increase over [20,23) does not return CorruptMetadata; it
succeeds and converts the record into the shared record (20,3,refcount 2). -/
theorem c2_increase_on_cow_cex :
    xfs_refcount_increase 1024 [⟨20, 3, 1⟩] 20 3 ≠
      Except.error XfsError.EFSCORRUPTED ∧
    xfs_refcount_increase 1024 [⟨20, 3, 1⟩] 20 3 = .ok ([⟨20, 3, 2⟩], []) := by
  constructor
  · intro h
    have : Except.ok ([(⟨20, 3, 2⟩ : xfs_refcount_irec)], ([] : List (Nat × Nat))) =
        (Except.error XfsError.EFSCORRUPTED :
          Except XfsError (List xfs_refcount_irec × List (Nat × Nat))) := by
      rw [← h]; rfl
    exact Except.noConfusion this
  · rfl

/-- C2 amended: after cow_alloc(20,3) inserts the refcount-1 CoW record, a
genuine increase over the same range succeeds (no CorruptMetadata is
raised) and silently converts the CoW record into the shared record
(20,3,refcount 2); the shared adjust path performs no CoW coexistence
check. -/
theorem c2_increase_converts_cow :
    (xfs_refcountbt_cow_alloc 1024 [] 20 3).bind
      (fun l => xfs_refcount_increase 1024 l 20 3) = .ok ([⟨20, 3, 2⟩], []) := rfl

/-- C5 failing input: from the two records (0,10,owner 5,offset 0) and
(15,5,owner 5,offset 15), alloc(10,5,owner 5,offset 10) performs the
three-way merge into (0,20,owner 5,offset 0); the following
free(10,5,owner 5,offset 10) splits that record back but inserts the right
remnant with offset 10 (the freed range's offset) instead of the original
offset 15, so the index is not restored bit-for-bit. -/
theorem c5_alloc_free_not_restored :
    xfs_rmap_alloc [⟨0, 10, 5, 0⟩, ⟨15, 5, 5, 15⟩] 10 5 5 10 =
      .ok [⟨0, 20, 5, 0⟩] ∧
    xfs_rmap_free [⟨0, 20, 5, 0⟩] 10 5 5 10 =
      .ok [⟨0, 10, 5, 0⟩, ⟨15, 5, 5, 10⟩] ∧
    ([⟨0, 10, 5, 0⟩, ⟨15, 5, 5, 10⟩] : List xfs_rmap_irec) ≠
      [⟨0, 10, 5, 0⟩, ⟨15, 5, 5, 15⟩] := ⟨rfl, rfl, by decide⟩

/-- C9: freeing with the wildcard owner XFS_RMAP_OWN_NULL never mutates the
index: any successful call returns the index unchanged, success happens
exactly when a record is found at or left of the freeing range and the
range starts strictly beyond that record's end, and every other outcome is
the CorruptMetadata error. -/
theorem c9_own_null_free_frame (l : List xfs_rmap_irec) (bno len offset : Nat) :
    (∀ l', xfs_rmap_free l bno len XFS_RMAP_OWN_NULL offset = .ok l' → l' = l) ∧
    (xfs_rmap_free l bno len XFS_RMAP_OWN_NULL offset = .ok l ↔
      ∃ lt, (rmBelow l bno XFS_RMAP_OWN_NULL offset).getLast? = some lt ∧
        lt.rm_startblock + lt.rm_blockcount < bno) ∧
    (xfs_rmap_free l bno len XFS_RMAP_OWN_NULL offset = .ok l ∨
      xfs_rmap_free l bno len XFS_RMAP_OWN_NULL offset = .error .EFSCORRUPTED) := by
  cases hgl : (rmBelow l bno XFS_RMAP_OWN_NULL offset).getLast? with
  | none =>
    refine ⟨?_, ?_, ?_⟩ <;> simp [xfs_rmap_free, hgl]
  | some lt =>
    by_cases hb : lt.rm_startblock + lt.rm_blockcount < bno
    · refine ⟨?_, ?_, ?_⟩ <;> simp [xfs_rmap_free, hgl, hb]
    · refine ⟨?_, ?_, ?_⟩ <;> simp [xfs_rmap_free, hgl, hb]

/-- Unfolding equation for the walk on an exhausted cursor. -/
theorem adjust_rcextents_walk_nil (agsz : Nat) (adj : Int) (agbno aglen : Nat)
    (acc : List xfs_refcount_irec) (freed : List (Nat × Nat)) :
    adjust_rcextents_walk agsz adj [] agbno aglen acc freed =
      (if aglen = 0 then Except.ok (acc.reverse ++ [], freed)
       else if agsz ≠ agbno then
        (if aglen - min aglen (agsz - agbno) = 0 then
          Except.ok
            ((if adjRc 1 adj ≠ 0 then
                (⟨agbno, min aglen (agsz - agbno), adjRc 1 adj⟩ :: acc)
              else acc).reverse,
             (if adjRc 1 adj ≠ 0 then freed
              else (agbno, min aglen (agsz - agbno)) :: freed))
         else .error .EFSCORRUPTED)
       else .error .EFSCORRUPTED) := rfl

/-- Unfolding equation for one step of the walk. -/
theorem adjust_rcextents_walk_cons (agsz : Nat) (adj : Int)
    (ext : xfs_refcount_irec) (rest' : List xfs_refcount_irec)
    (agbno aglen : Nat) (acc : List xfs_refcount_irec) (freed : List (Nat × Nat)) :
    adjust_rcextents_walk agsz adj (ext :: rest') agbno aglen acc freed =
      (if aglen = 0 then Except.ok (acc.reverse ++ ext :: rest', freed)
       else if ext.rc_startblock ≠ agbno then
        (if aglen - min aglen (ext.rc_startblock - agbno) = 0 then
          Except.ok
            ((if adjRc 1 adj ≠ 0 then
                (⟨agbno, min aglen (ext.rc_startblock - agbno), adjRc 1 adj⟩ :: acc)
              else acc).reverse ++ ext :: rest',
             (if adjRc 1 adj ≠ 0 then freed
              else (agbno, min aglen (ext.rc_startblock - agbno)) :: freed))
         else
          adjust_rcextents_walk agsz adj rest'
            (agbno + min aglen (ext.rc_startblock - agbno) + ext.rc_blockcount)
            (aglen - min aglen (ext.rc_startblock - agbno) - ext.rc_blockcount)
            (adjust_walk_rec adj ext
              (if adjRc 1 adj ≠ 0 then
                (⟨agbno, min aglen (ext.rc_startblock - agbno), adjRc 1 adj⟩ :: acc)
               else acc)
              (if adjRc 1 adj ≠ 0 then freed
               else (agbno, min aglen (ext.rc_startblock - agbno)) :: freed)).1
            (adjust_walk_rec adj ext
              (if adjRc 1 adj ≠ 0 then
                (⟨agbno, min aglen (ext.rc_startblock - agbno), adjRc 1 adj⟩ :: acc)
               else acc)
              (if adjRc 1 adj ≠ 0 then freed
               else (agbno, min aglen (ext.rc_startblock - agbno)) :: freed)).2)
       else
        adjust_rcextents_walk agsz adj rest' (agbno + ext.rc_blockcount)
          (aglen - ext.rc_blockcount) (adjust_walk_rec adj ext acc freed).1
          (adjust_walk_rec adj ext acc freed).2) := rfl

/-- Records already in the walked prefix survive the record disposition. -/
theorem adjust_walk_rec_mem (adj : Int) (ext : xfs_refcount_irec)
    (acc : List xfs_refcount_irec) (freed : List (Nat × Nat))
    (r : xfs_refcount_irec) (hr : r ∈ acc) :
    r ∈ (adjust_walk_rec adj ext acc freed).1 := by
  by_cases h1 : ext.rc_refcount = MAXREFCOUNT <;>
    by_cases h2 : 1 < adjRc ext.rc_refcount adj <;>
    by_cases h3 : adjRc ext.rc_refcount adj = 1 <;>
    simp [adjust_walk_rec, h1, h2, h3, hr]

/-- A record at MAXREFCOUNT is pushed to the walked prefix unchanged. -/
theorem adjust_walk_rec_saturated (adj : Int) (ext : xfs_refcount_irec)
    (acc : List xfs_refcount_irec) (freed : List (Nat × Nat))
    (hext : ext.rc_refcount = MAXREFCOUNT) :
    (adjust_walk_rec adj ext acc freed).1 = ext :: acc := by
  unfold adjust_walk_rec
  rw [if_pos hext]

/-- C10 amended: throughout the middle-extent walk, every stored record
whose refcount equals the maximum representable value is skipped for any
adjustment direction: if the walk succeeds, the record is present unchanged
in the resulting index (records already walked also survive). -/
theorem c10_walk_skips_saturated (agsz : Nat) (adj : Int)
    (rest : List xfs_refcount_irec) (agbno aglen : Nat)
    (acc : List xfs_refcount_irec) (freed : List (Nat × Nat))
    (out : List xfs_refcount_irec × List (Nat × Nat))
    (hok : adjust_rcextents_walk agsz adj rest agbno aglen acc freed = .ok out)
    (r : xfs_refcount_irec) (hr : r ∈ acc ∨ r ∈ rest)
    (hsat : r.rc_refcount = MAXREFCOUNT) : r ∈ out.1 := by
  induction rest generalizing agbno aglen acc freed with
  | nil =>
    rcases hr with hr | hr
    · rw [adjust_rcextents_walk_nil] at hok
      by_cases h1 : aglen = 0
      · rw [if_pos h1] at hok
        cases hok
        simp [hr]
      · rw [if_neg h1] at hok
        by_cases h2 : agsz ≠ agbno
        · rw [if_pos h2] at hok
          by_cases h3 : aglen - min aglen (agsz - agbno) = 0
          · rw [if_pos h3] at hok
            cases hok
            by_cases h4 : adjRc 1 adj ≠ 0 <;> simp [h4, hr]
          · rw [if_neg h3] at hok
            exact Except.noConfusion hok
        · rw [if_neg h2] at hok
          exact Except.noConfusion hok
    · exact absurd hr (List.not_mem_nil r)
  | cons ext rest' ih =>
    rw [adjust_rcextents_walk_cons] at hok
    by_cases h1 : aglen = 0
    · rw [if_pos h1] at hok
      cases hok
      rcases hr with hr | hr <;> simp [hr]
    · rw [if_neg h1] at hok
      by_cases h2 : ext.rc_startblock ≠ agbno
      · rw [if_pos h2] at hok
        by_cases h3 : aglen - min aglen (ext.rc_startblock - agbno) = 0
        · rw [if_pos h3] at hok
          cases hok
          rcases hr with hr | hr
          · by_cases h4 : adjRc 1 adj ≠ 0 <;> simp [h4, hr]
          · simp [hr]
        · rw [if_neg h3] at hok
          refine ih _ _ _ _ hok ?_
          rcases hr with hr | hr
          · refine Or.inl (adjust_walk_rec_mem _ _ _ _ _ ?_)
            by_cases h4 : adjRc 1 adj ≠ 0 <;> simp [h4, hr]
          · rcases List.mem_cons.mp hr with hre | hr'
            · subst hre
              refine Or.inl ?_
              rw [adjust_walk_rec_saturated _ _ _ _ hsat]
              exact List.mem_cons_self _ _
            · exact Or.inr hr'
      · rw [if_neg h2] at hok
        refine ih _ _ _ _ hok ?_
        rcases hr with hr | hr
        · exact Or.inl (adjust_walk_rec_mem _ _ _ _ _ hr)
        · rcases List.mem_cons.mp hr with hre | hr'
          · subst hre
            refine Or.inl ?_
            rw [adjust_walk_rec_saturated _ _ _ _ hsat]
            exact List.mem_cons_self _ _
          · exact Or.inr hr'

/-- C10 witness: the walk evaluated over a saturated record with a
decrement. -/
theorem c10_walk_skips_saturated_witness :
    adjust_rcextents_walk 100 (-1) [⟨10, 5, MAXREFCOUNT⟩] 10 5 [] [] =
      .ok ([⟨10, 5, MAXREFCOUNT⟩], []) ∧
    ((⟨10, 5, MAXREFCOUNT⟩ : xfs_refcount_irec) ∈ ([] : List xfs_refcount_irec) ∨
      (⟨10, 5, MAXREFCOUNT⟩ : xfs_refcount_irec) ∈ [(⟨10, 5, MAXREFCOUNT⟩ : xfs_refcount_irec)]) ∧
    (⟨10, 5, MAXREFCOUNT⟩ : xfs_refcount_irec).rc_refcount = MAXREFCOUNT ∧
    (⟨10, 5, MAXREFCOUNT⟩ : xfs_refcount_irec) ∈
      (([⟨10, 5, MAXREFCOUNT⟩], []) :
        List xfs_refcount_irec × List (Nat × Nat)).1 :=
  ⟨rfl, Or.inr (List.mem_cons_self _ _), rfl,
    c10_walk_skips_saturated 100 (-1) [⟨10, 5, MAXREFCOUNT⟩] 10 5 [] []
      ([⟨10, 5, MAXREFCOUNT⟩], []) rfl _ (Or.inr (List.mem_cons_self _ _)) rfl⟩

/-- C10 counterexample: a decrease over [15,20), whose stored record
(15,5,MAXREFCOUNT) is saturated, does not leave that record's refcount at
the maximum: the boundary merge absorbs it into the left neighbor at
MAXREFCOUNT-1, lowering the refcount of its blocks. -/
theorem c10_merge_lowers_saturated_cex :
    xfs_refcount_decrease 1024 [⟨10, 5, 4294967294⟩, ⟨15, 5, 4294967295⟩] 15 5 =
      .ok ([⟨10, 10, 4294967294⟩], []) ∧
    (⟨15, 5, 4294967295⟩ : xfs_refcount_irec) ∉
      ([⟨10, 10, 4294967294⟩] : List xfs_refcount_irec) := by
  exact ⟨rfl, by decide⟩

/-- Members of the intent-insertion result are the new intent or old ones. -/
theorem rmap_add_go_mem (agblklog new_agno : Nat) (new : xfs_rmap_intent)
    (l : List xfs_rmap_intent) (x : xfs_rmap_intent)
    (hx : x ∈ rmap_add_go agblklog new_agno new l) : x = new ∨ x ∈ l := by
  induction l with
  | nil =>
    simp [rmap_add_go] at hx
    exact Or.inl hx
  | cons cur rest ih =>
    by_cases h : rmap_ag agblklog cur > new_agno
    · simp [rmap_add_go, if_pos h] at hx
      rcases hx with hx | hx | hx
      · exact Or.inl hx
      · exact Or.inr (by simp [hx])
      · exact Or.inr (List.mem_cons_of_mem _ hx)
    · simp [rmap_add_go, if_neg h] at hx
      rcases hx with hx | hx
      · exact Or.inr (by simp [hx])
      · rcases ih hx with h' | h'
        · exact Or.inl h'
        · exact Or.inr (List.mem_cons_of_mem _ h')

/-- C7: queuing keeps the deferred-intent list sorted by AG number with FIFO
ties: __xfs_rmap_add places a new intent after every queued intent whose AG
number is at or below its own and before the first with a greater AG
number, preserving the ascending-AG sort; and the flush loop, applying
intents strictly in list order with one cursor per AG, returns
CorruptMetadata the moment it observes an intent whose AG number is below
the AG of the currently open cursor. -/
theorem c7_intent_order_and_flush (agblklog : Nat) (l : List xfs_rmap_intent)
    (ri : xfs_rmap_intent) (st : Nat → List xfs_rmap_irec) (c : Nat)
    (rest : List xfs_rmap_intent)
    (hsort : l.Pairwise fun a b => rmap_ag agblklog a ≤ rmap_ag agblklog b)
    (hdec : rmap_ag agblklog ri < c) :
    (__xfs_rmap_add agblklog l ri =
      l.takeWhile (fun cur => rmap_ag agblklog cur ≤ rmap_ag agblklog ri) ++
        ri :: l.dropWhile (fun cur => rmap_ag agblklog cur ≤ rmap_ag agblklog ri)) ∧
    ((__xfs_rmap_add agblklog l ri).Pairwise
      fun a b => rmap_ag agblklog a ≤ rmap_ag agblklog b) ∧
    (__xfs_rmap_finish_go agblklog st (some c) (ri :: rest) =
      .error .EFSCORRUPTED) := by
  refine ⟨?_, ?_, ?_⟩
  · unfold __xfs_rmap_add
    induction l with
    | nil => simp [rmap_add_go]
    | cons cur rest' ih =>
      by_cases h : rmap_ag agblklog cur > rmap_ag agblklog ri
      · have hb : ¬ rmap_ag agblklog cur ≤ rmap_ag agblklog ri := Nat.not_le_of_lt h
        simp [rmap_add_go, if_pos h, List.takeWhile_cons, List.dropWhile_cons, hb]
      · have hb : rmap_ag agblklog cur ≤ rmap_ag agblklog ri := Nat.le_of_not_lt h
        have hsort' := (List.pairwise_cons.mp hsort).2
        simp [rmap_add_go, if_neg h, List.takeWhile_cons, List.dropWhile_cons, hb,
          ih hsort']
  · unfold __xfs_rmap_add
    induction l with
    | nil => simp [rmap_add_go]
    | cons cur rest' ih =>
      obtain ⟨hcur, hrest⟩ := List.pairwise_cons.mp hsort
      by_cases h : rmap_ag agblklog cur > rmap_ag agblklog ri
      · simp only [rmap_add_go, if_pos h]
        refine List.pairwise_cons.mpr ⟨?_, hsort⟩
        intro x hx
        rcases List.mem_cons.mp hx with hx | hx
        · subst hx; exact Nat.le_of_lt h
        · exact Nat.le_trans (Nat.le_of_lt h) (hcur x hx)
      · simp only [rmap_add_go, if_neg h]
        refine List.pairwise_cons.mpr ⟨?_, ih hrest⟩
        intro x hx
        rcases rmap_add_go_mem _ _ _ _ _ hx with hx | hx
        · subst hx; exact Nat.le_of_not_lt h
        · exact hcur x hx
  · show (if rmap_ag agblklog ri < c then Except.error XfsError.EFSCORRUPTED
      else (rmapApplyIntent agblklog (st (rmap_ag agblklog ri)) ri).bind fun l' =>
        __xfs_rmap_finish_go agblklog
          (fun a => if a = rmap_ag agblklog ri then l' else st a)
          (some (rmap_ag agblklog ri)) rest) = .error .EFSCORRUPTED
    rw [if_pos hdec]

/-- C7 witness: the placement, sort preservation and flush failure at
concrete intents (queued AGs 0 and 2 with 2^4 blocks per AG, new intent in
AG 1, flush cursor already at AG 3). -/
theorem c7_intent_order_witness :
    (([⟨.insertMap, 7, false, ⟨0, 3, 1, false⟩, ⟨0, 0, 0, false⟩, ⟨0, 0, 0, false⟩, 0⟩,
       ⟨.insertMap, 7, false, ⟨0, 35, 1, false⟩, ⟨0, 0, 0, false⟩, ⟨0, 0, 0, false⟩, 0⟩] :
        List xfs_rmap_intent).Pairwise
      (fun a b => rmap_ag 4 a ≤ rmap_ag 4 b) ∧
      rmap_ag 4 ⟨.insertMap, 7, false, ⟨0, 18, 1, false⟩, ⟨0, 0, 0, false⟩,
        ⟨0, 0, 0, false⟩, 0⟩ < 3) ∧
    (__xfs_rmap_finish_go 4 (fun _ => []) (some 3)
      [⟨.insertMap, 7, false, ⟨0, 18, 1, false⟩, ⟨0, 0, 0, false⟩, ⟨0, 0, 0, false⟩, 0⟩] =
      .error .EFSCORRUPTED) :=
  ⟨⟨by decide, by decide⟩,
    (c7_intent_order_and_flush 4
      [⟨.insertMap, 7, false, ⟨0, 3, 1, false⟩, ⟨0, 0, 0, false⟩, ⟨0, 0, 0, false⟩, 0⟩,
       ⟨.insertMap, 7, false, ⟨0, 35, 1, false⟩, ⟨0, 0, 0, false⟩, ⟨0, 0, 0, false⟩, 0⟩]
      ⟨.insertMap, 7, false, ⟨0, 18, 1, false⟩, ⟨0, 0, 0, false⟩, ⟨0, 0, 0, false⟩, 0⟩
      (fun _ => []) 3
      []
      (by decide) (by decide)).2.2⟩

/-! ## List helpers for the sorted-index surgeries -/

theorem getLast?_decomp {α : Type} {l : List α} {x : α} (h : l.getLast? = some x) :
    l = l.dropLast ++ [x] := by
  cases l with
  | nil => cases h
  | cons a t =>
    have hne : (a :: t) ≠ [] := by simp
    rw [List.getLast?_eq_getLast _ hne] at h
    injection h with h
    rw [← h]
    exact (List.dropLast_concat_getLast hne).symm

theorem takeWhile_eq_of {α : Type} (p : α → Bool) (X Z : List α)
    (hX : ∀ x ∈ X, p x = true) (hZ : ∀ z ∈ Z.head?, p z = false) :
    (X ++ Z).takeWhile p = X ∧ (X ++ Z).dropWhile p = Z := by
  induction X with
  | nil =>
    cases Z with
    | nil => simp
    | cons z t =>
      have := hZ z (by simp)
      simp [List.takeWhile_cons, List.dropWhile_cons, this]
  | cons a X' ih =>
    have hpa := hX a (by simp)
    have hrest := ih (fun x hx => hX x (List.mem_cons_of_mem _ hx))
    simp [List.takeWhile_cons, List.dropWhile_cons, hpa, hrest.1, hrest.2]

/-- RcSep is transitive (lengths are nonnegative). -/
theorem rcSep_trans : ∀ {a b c : xfs_refcount_irec}, RcSep a b → RcSep b c → RcSep a c := by
  intro a b c hab hbc
  unfold RcSep RCNEXT at *
  omega

/-- In a sorted positive-length list, everything dropped by a downward-closed
predicate really fails it. -/
theorem dropWhile_sorted_not (p : xfs_refcount_irec → Bool)
    (hmono : ∀ a b, RcSep a b → 0 < a.rc_blockcount → p b = true → p a = true)
    (l : List xfs_refcount_irec) (hpw : l.Pairwise RcSep)
    (hpos : ∀ r ∈ l, 0 < r.rc_blockcount) :
    ∀ z ∈ l.dropWhile p, p z = false := by
  induction l with
  | nil => simp
  | cons a t ih =>
    obtain ⟨ha, ht⟩ := List.pairwise_cons.mp hpw
    by_cases hpa : p a = true
    · rw [List.dropWhile_cons, if_pos hpa]
      exact ih ht (fun r hr => hpos r (List.mem_cons_of_mem _ hr))
    · rw [List.dropWhile_cons, if_neg hpa]
      intro z hz
      rcases List.mem_cons.mp hz with rfl | hz
      · exact Bool.eq_false_iff.mpr hpa
      · by_contra hpz
        exact hpa (hmono a z (ha z hz) (hpos a (by simp))
          (Bool.not_eq_false _ |>.mp hpz))

/-- Every record right of a lookup-le split starts beyond the key. -/
theorem rcAbove_mem_gt (agsz : Nat) (l : List xfs_refcount_irec) (key : Nat)
    (h : RcWF agsz l) : ∀ z ∈ rcAbove l key, key < z.rc_startblock := by
  intro z hz
  have := dropWhile_sorted_not (fun r => r.rc_startblock ≤ key)
    (by
      intro a b hab hpos hb
      simp only [decide_eq_true_eq] at *
      unfold RcSep RCNEXT at hab
      omega)
    l h.1 (fun r hr => (h.2 r hr).1) z hz
  simp only [decide_eq_false_iff_not, not_le] at this
  exact this

/-- Every record at or right of a lookup-ge split starts at or beyond the key. -/
theorem rcFrom_mem_ge (agsz : Nat) (l : List xfs_refcount_irec) (key : Nat)
    (h : RcWF agsz l) : ∀ z ∈ rcFrom l key, key ≤ z.rc_startblock := by
  intro z hz
  have := dropWhile_sorted_not (fun r => r.rc_startblock < key)
    (by
      intro a b hab hpos hb
      simp only [decide_eq_true_eq] at *
      unfold RcSep RCNEXT at hab
      omega)
    l h.1 (fun r hr => (h.2 r hr).1) z hz
  simp only [decide_eq_false_iff_not, not_lt] at this
  exact this

/-- Every record left of a lookup-le split starts at or before the key. -/
theorem rcBelow_mem_le (l : List xfs_refcount_irec) (key : Nat) :
    ∀ x ∈ rcBelow l key, x.rc_startblock ≤ key := by
  intro x hx
  have := List.mem_takeWhile_imp hx
  simpa using this

/-- Every record left of a lookup-ge split starts before the key. -/
theorem rcBefore_mem_lt (l : List xfs_refcount_irec) (key : Nat) :
    ∀ x ∈ rcBefore l key, x.rc_startblock < key := by
  intro x hx
  have := List.mem_takeWhile_imp hx
  simpa using this

/-- The per-record facts of a purely-shared well-formed index. -/
def RcRecOK (agsz : Nat) (r : xfs_refcount_irec) : Prop :=
  0 < r.rc_blockcount ∧ RCNEXT r ≤ agsz ∧ 2 ≤ r.rc_refcount

theorem shwf_iff (agsz : Nat) (l : List xfs_refcount_irec) :
    ShWF agsz l ↔ l.Pairwise RcSep ∧ ∀ r ∈ l, RcRecOK agsz r := by
  unfold ShWF RcWF RcRecOK
  constructor
  · rintro ⟨⟨hpw, hmem⟩, hrc⟩
    exact ⟨hpw, fun r hr => ⟨(hmem r hr).1, (hmem r hr).2, hrc r hr⟩⟩
  · rintro ⟨hpw, hmem⟩
    exact ⟨⟨hpw, fun r hr => ⟨(hmem r hr).1, (hmem r hr).2.1⟩⟩,
      fun r hr => (hmem r hr).2.2⟩

/-- Rebuild a purely-shared well-formed index from three blocks separated at
the boundaries lo <= hi. -/
theorem shwf_glue (agsz lo hi : Nat) (A M B : List xfs_refcount_irec)
    (hlh : lo ≤ hi)
    (hA : A.Pairwise RcSep) (hM : M.Pairwise RcSep) (hB : B.Pairwise RcSep)
    (hAm : ∀ a ∈ A, RcRecOK agsz a) (hMm : ∀ m ∈ M, RcRecOK agsz m)
    (hBm : ∀ b ∈ B, RcRecOK agsz b)
    (hAlo : ∀ a ∈ A, RCNEXT a ≤ lo) (hMlo : ∀ m ∈ M, lo ≤ m.rc_startblock)
    (hMhi : ∀ m ∈ M, RCNEXT m ≤ hi) (hBhi : ∀ b ∈ B, hi ≤ b.rc_startblock) :
    ShWF agsz (A ++ (M ++ B)) := by
  rw [shwf_iff]
  constructor
  · rw [List.pairwise_append]
    refine ⟨hA, ?_, ?_⟩
    · rw [List.pairwise_append]
      refine ⟨hM, hB, ?_⟩
      intro m hm b hb
      unfold RcSep
      exact Nat.le_trans (hMhi m hm) (hBhi b hb)
    · intro a ha y hy
      rcases List.mem_append.mp hy with hy | hy
      · exact Nat.le_trans (hAlo a ha) (hMlo y hy)
      · exact Nat.le_trans (hAlo a ha) (Nat.le_trans hlh (hBhi y hy))
  · intro r hr
    rcases List.mem_append.mp hr with hr | hr
    · exact hAm r hr
    · rcases List.mem_append.mp hr with hr | hr
      · exact hMm r hr
      · exact hBm r hr

/-- Split a purely-shared well-formed index at one element. -/
theorem shwf_decomp (agsz : Nat) (A B : List xfs_refcount_irec)
    (x : xfs_refcount_irec) (h : ShWF agsz (A ++ x :: B)) :
    A.Pairwise RcSep ∧ B.Pairwise RcSep ∧
    (∀ a ∈ A, RcRecOK agsz a) ∧ RcRecOK agsz x ∧ (∀ b ∈ B, RcRecOK agsz b) ∧
    (∀ a ∈ A, RcSep a x) ∧ (∀ b ∈ B, RcSep x b) ∧
    (∀ a ∈ A, ∀ b ∈ B, RcSep a b) := by
  rw [shwf_iff] at h
  obtain ⟨hpw, hmem⟩ := h
  rw [List.pairwise_append] at hpw
  obtain ⟨hA, hxB, hcross⟩ := hpw
  rw [List.pairwise_cons] at hxB
  refine ⟨hA, hxB.2, ?_, ?_, ?_, ?_, hxB.1, ?_⟩
  · exact fun a ha => hmem a (List.mem_append.mpr (Or.inl ha))
  · exact hmem x (List.mem_append.mpr (Or.inr (by simp)))
  · exact fun b hb => hmem b (List.mem_append.mpr (Or.inr (List.mem_cons_of_mem _ hb)))
  · exact fun a ha => hcross a ha x (by simp)
  · exact fun a ha b hb => hcross a ha b (List.mem_cons_of_mem _ hb)

theorem noStraddle_append {l₁ l₂ : List xfs_refcount_irec} {b : Nat}
    (h₁ : NoStraddle l₁ b) (h₂ : NoStraddle l₂ b) : NoStraddle (l₁ ++ l₂) b := by
  intro r hr
  rcases List.mem_append.mp hr with hr | hr
  · exact h₁ r hr
  · exact h₂ r hr

theorem noStraddle_cons {l : List xfs_refcount_irec} {r₀ : xfs_refcount_irec} {b : Nat}
    (h₀ : ¬ (r₀.rc_startblock < b ∧ b < RCNEXT r₀)) (h : NoStraddle l b) :
    NoStraddle (r₀ :: l) b := by
  intro r hr
  rcases List.mem_cons.mp hr with rfl | hr
  · exact h₀
  · exact h r hr

theorem noStraddle_nil (b : Nat) : NoStraddle [] b := by
  intro r hr
  cases hr

theorem getLast?_none {α : Type} {l : List α} (h : l.getLast? = none) : l = [] := by
  cases l with
  | nil => rfl
  | cons a t =>
    rw [List.getLast?_eq_getLast _ (by simp)] at h
    cases h

/-- Splitting at the left boundary preserves the index invariants and leaves
no record straddling the boundary. -/
theorem try_split_left_spec (agsz : Nat) (l : List xfs_refcount_irec) (agbno : Nat)
    (h : ShWF agsz l) :
    ShWF agsz (try_split_left_rcextent l agbno) ∧
    NoStraddle (try_split_left_rcextent l agbno) agbno := by
  have hAB : rcBelow l agbno ++ rcAbove l agbno = l :=
    List.takeWhile_append_dropWhile _ _
  have hBgt : ∀ z ∈ rcAbove l agbno, agbno < z.rc_startblock :=
    rcAbove_mem_gt agsz l agbno h.1
  cases hgl : (rcBelow l agbno).getLast? with
  | none =>
    have hval : try_split_left_rcextent l agbno = l := by
      unfold try_split_left_rcextent
      rw [hgl]
    rw [hval]
    have hAnil : rcBelow l agbno = [] := getLast?_none hgl
    refine ⟨h, ?_⟩
    intro r hr
    have hrB : r ∈ rcAbove l agbno := by
      rw [← hAB, hAnil] at hr
      simpa using hr
    have := hBgt r hrB
    omega
  | some left =>
    have hval : try_split_left_rcextent l agbno =
        (if agbno ≤ left.rc_startblock ∨ RCNEXT left ≤ agbno then l
         else (rcBelow l agbno).dropLast ++
          (⟨left.rc_startblock, agbno - left.rc_startblock, left.rc_refcount⟩ ::
           ⟨agbno, left.rc_blockcount - (agbno - left.rc_startblock),
             left.rc_refcount⟩ ::
           rcAbove l agbno)) := by
      unfold try_split_left_rcextent
      rw [hgl]
    have hdecomp : rcBelow l agbno = (rcBelow l agbno).dropLast ++ [left] :=
      getLast?_decomp hgl
    have hleftmem : left ∈ rcBelow l agbno := by
      rw [hdecomp]; simp
    have hleftle : left.rc_startblock ≤ agbno := rcBelow_mem_le l agbno left hleftmem
    have hl' : l = (rcBelow l agbno).dropLast ++ left :: rcAbove l agbno := by
      conv_lhs => rw [← hAB]
      rw [hdecomp]
      simp
    obtain ⟨hA0, hB, hAm, hxm, hBm, hAx, hxB, hAB2⟩ :=
      shwf_decomp agsz _ _ _ (hl' ▸ h)
    obtain ⟨hxpos, hxsz, hxrc⟩ := hxm
    rw [hval]
    by_cases hcond : agbno ≤ left.rc_startblock ∨ RCNEXT left ≤ agbno
    · rw [if_pos hcond]
      refine ⟨h, ?_⟩
      intro r hr
      rw [hl'] at hr
      rcases List.mem_append.mp hr with hr | hr
      · have h1 := hAx r hr
        unfold RcSep at h1
        omega
      · rcases List.mem_cons.mp hr with rfl | hr
        · rcases hcond with hc | hc <;> omega
        · have := hBgt r hr
          omega
    · rw [if_neg hcond]
      push_neg at hcond
      obtain ⟨hc1, hc2⟩ := hcond
      unfold RCNEXT at hc2 hxsz
      constructor
      · refine shwf_glue agsz left.rc_startblock (left.rc_startblock + left.rc_blockcount)
          ((rcBelow l agbno).dropLast)
          [⟨left.rc_startblock, agbno - left.rc_startblock, left.rc_refcount⟩,
           ⟨agbno, left.rc_blockcount - (agbno - left.rc_startblock), left.rc_refcount⟩]
          (rcAbove l agbno) (by omega) hA0 ?_ hB hAm ?_ hBm
          (fun a ha => hAx a ha) ?_ ?_ ?_
        · refine List.pairwise_cons.mpr ⟨?_, by simp⟩
          intro b hb
          rcases List.mem_cons.mp hb with rfl | hb
          · unfold RcSep RCNEXT
            simp
            omega
          · cases hb
        · intro m hm
          rcases List.mem_cons.mp hm with rfl | hm
          · exact ⟨by simp; omega, by unfold RCNEXT; simp; omega, by simp; omega⟩
          · rcases List.mem_cons.mp hm with rfl | hm
            · exact ⟨by simp; omega, by unfold RCNEXT; simp; omega, by simp; omega⟩
            · cases hm
        · intro m hm
          rcases List.mem_cons.mp hm with rfl | hm
          · simp
          · rcases List.mem_cons.mp hm with rfl | hm
            · simp; omega
            · cases hm
        · intro m hm
          rcases List.mem_cons.mp hm with rfl | hm
          · unfold RCNEXT; simp; omega
          · rcases List.mem_cons.mp hm with rfl | hm
            · unfold RCNEXT; simp; omega
            · cases hm
        · intro b hb
          have := hxB b hb
          unfold RcSep RCNEXT at this
          omega
      · refine noStraddle_append ?_ (noStraddle_cons ?_ (noStraddle_cons ?_ ?_))
        · intro r hr
          have h1 := hAx r hr
          unfold RcSep at h1
          omega
        · unfold RCNEXT
          simp
          omega
        · unfold RCNEXT
          simp
        · intro r hr
          have := hBgt r hr
          omega

/-- Splitting at the right boundary preserves the index invariants, leaves
no record straddling that boundary, and keeps the left boundary clean. -/
theorem try_split_right_spec (agsz : Nat) (l : List xfs_refcount_irec)
    (agb0 agbnext : Nat) (h : ShWF agsz l) (h0 : NoStraddle l agb0)
    (hlt : agb0 < agbnext) :
    ShWF agsz (try_split_right_rcextent l agbnext) ∧
    NoStraddle (try_split_right_rcextent l agbnext) agbnext ∧
    NoStraddle (try_split_right_rcextent l agbnext) agb0 := by
  have hkey : sub1_u32 agbnext = agbnext - 1 := by
    unfold sub1_u32
    rw [if_neg (by omega)]
  have hAB : rcBelow l (agbnext - 1) ++ rcAbove l (agbnext - 1) = l :=
    List.takeWhile_append_dropWhile _ _
  have hBgt : ∀ z ∈ rcAbove l (agbnext - 1), agbnext - 1 < z.rc_startblock :=
    rcAbove_mem_gt agsz l (agbnext - 1) h.1
  cases hgl : (rcBelow l (agbnext - 1)).getLast? with
  | none =>
    have hval : try_split_right_rcextent l agbnext = l := by
      unfold try_split_right_rcextent
      rw [hkey, hgl]
    rw [hval]
    have hAnil : rcBelow l (agbnext - 1) = [] := getLast?_none hgl
    refine ⟨h, ?_, h0⟩
    intro r hr
    have hrB : r ∈ rcAbove l (agbnext - 1) := by
      rw [← hAB, hAnil] at hr
      simpa using hr
    have := hBgt r hrB
    omega
  | some right =>
    have hdecomp : rcBelow l (agbnext - 1) =
        (rcBelow l (agbnext - 1)).dropLast ++ [right] := getLast?_decomp hgl
    have hrmem : right ∈ rcBelow l (agbnext - 1) := by
      rw [hdecomp]; simp
    have hrle : right.rc_startblock ≤ agbnext - 1 :=
      rcBelow_mem_le l (agbnext - 1) right hrmem
    have hl' : l = (rcBelow l (agbnext - 1)).dropLast ++
        right :: rcAbove l (agbnext - 1) := by
      conv_lhs => rw [← hAB]
      rw [hdecomp]
      simp
    obtain ⟨hA0, hB, hAm, hxm, hBm, hAx, hxB, hAB2⟩ :=
      shwf_decomp agsz _ _ _ (hl' ▸ h)
    obtain ⟨hxpos, hxsz, hxrc⟩ := hxm
    have hval : try_split_right_rcextent l agbnext =
        (if RCNEXT right ≤ agbnext then l
         else (rcBelow l (agbnext - 1)).dropLast ++
          (⟨right.rc_startblock, agbnext - right.rc_startblock, right.rc_refcount⟩ ::
           ⟨agbnext, right.rc_blockcount - (agbnext - right.rc_startblock),
             right.rc_refcount⟩ ::
           rcAbove l (agbnext - 1))) := by
      unfold try_split_right_rcextent
      rw [hkey, hgl]
    rw [hval]
    by_cases hcond : RCNEXT right ≤ agbnext
    · rw [if_pos hcond]
      refine ⟨h, ?_, h0⟩
      intro r hr
      rw [hl'] at hr
      rcases List.mem_append.mp hr with hr | hr
      · have h1 := hAx r hr
        unfold RcSep at h1
        omega
      · rcases List.mem_cons.mp hr with rfl | hr
        · omega
        · have := hBgt r hr
          omega
    · rw [if_neg hcond]
      push_neg at hcond
      unfold RCNEXT at hcond hxsz
      have hr0 : agb0 ≤ right.rc_startblock := by
        have := h0 right (by rw [hl']; simp)
        unfold RCNEXT at this
        omega
      refine ⟨?_, ?_, ?_⟩
      · refine shwf_glue agsz right.rc_startblock
          (right.rc_startblock + right.rc_blockcount)
          ((rcBelow l (agbnext - 1)).dropLast)
          [⟨right.rc_startblock, agbnext - right.rc_startblock, right.rc_refcount⟩,
           ⟨agbnext, right.rc_blockcount - (agbnext - right.rc_startblock),
             right.rc_refcount⟩]
          (rcAbove l (agbnext - 1)) (by omega) hA0 ?_ hB hAm ?_ hBm
          (fun a ha => hAx a ha) ?_ ?_ ?_
        · refine List.pairwise_cons.mpr ⟨?_, by simp⟩
          intro b hb
          rcases List.mem_cons.mp hb with rfl | hb
          · unfold RcSep RCNEXT
            simp
            omega
          · cases hb
        · intro m hm
          rcases List.mem_cons.mp hm with rfl | hm
          · exact ⟨by simp; omega, by unfold RCNEXT; simp; omega, by simp; omega⟩
          · rcases List.mem_cons.mp hm with rfl | hm
            · exact ⟨by simp; omega, by unfold RCNEXT; simp; omega, by simp; omega⟩
            · cases hm
        · intro m hm
          rcases List.mem_cons.mp hm with rfl | hm
          · simp
          · rcases List.mem_cons.mp hm with rfl | hm
            · simp; omega
            · cases hm
        · intro m hm
          rcases List.mem_cons.mp hm with rfl | hm
          · unfold RCNEXT; simp; omega
          · rcases List.mem_cons.mp hm with rfl | hm
            · unfold RCNEXT; simp; omega
            · cases hm
        · intro b hb
          have := hxB b hb
          unfold RcSep RCNEXT at this
          omega
      · refine noStraddle_append ?_ (noStraddle_cons ?_ (noStraddle_cons ?_ ?_))
        · intro r hr
          have h1 := hAx r hr
          unfold RcSep at h1
          omega
        · unfold RCNEXT
          simp
          omega
        · unfold RCNEXT
          simp
        · intro r hr
          have := hBgt r hr
          omega
      · refine noStraddle_append ?_ (noStraddle_cons ?_ (noStraddle_cons ?_ ?_))
        · intro r hr
          have := h0 r (by rw [hl']; simp [List.mem_append.mpr (Or.inl hr)])
          exact this
        · simp
          omega
        · simp
          omega
        · intro r hr
          have := h0 r (by
            rw [hl']
            exact List.mem_append.mpr (Or.inr (List.mem_cons_of_mem _ hr)))
          exact this

theorem head?_decomp {α : Type} {l : List α} {x : α} (h : l.head? = some x) :
    l = x :: l.tail := by
  cases l with
  | nil => cases h
  | cons a t =>
    injection h with h
    rw [h]
    rfl

theorem head?_none {α : Type} {l : List α} (h : l.head? = none) : l = [] := by
  cases l with
  | nil => rfl
  | cons a t => cases h

theorem sub1_ge {agbno s : Nat} (h : sub1_u32 agbno < s) : agbno ≤ s := by
  by_cases h0 : agbno = 0
  · subst h0
    exact Nat.zero_le s
  · unfold sub1_u32 at h
    rw [if_neg h0] at h
    omega

/-- Characterization of find_left_extent on a purely-shared well-formed
index: when a left extent is reported, the index splits at it, the left
extent ends exactly at agbno, and cleft is either the stored record
immediately after it (starting at agbno) or the implied refcount-1 gap
extent at agbno. -/
theorem find_left_spec (agsz : Nat) (l : List xfs_refcount_irec)
    (agbno aglen : Nat) (hseg : SegOK agsz l agbno aglen) (haglen : 0 < aglen)
    (left cleft : xfs_refcount_irec)
    (hfind : find_left_extent l agbno aglen .shared = (left, cleft))
    (hne : left.rc_blockcount ≠ 0) :
    ∃ X M, l = X ++ left :: M ∧ RCNEXT left = agbno ∧
      2 ≤ left.rc_refcount ∧ 0 < left.rc_blockcount ∧
      (∀ x ∈ X, RCNEXT x ≤ left.rc_startblock) ∧
      (∀ z ∈ M, agbno ≤ z.rc_startblock) ∧
      cleft.rc_startblock = agbno ∧ 0 < cleft.rc_blockcount ∧
      cleft.rc_blockcount ≤ aglen ∧
      ((∃ M₁, M = cleft :: M₁) ∨
        (cleft.rc_refcount = 1 ∧
          (∀ z ∈ M, agbno + cleft.rc_blockcount ≤ z.rc_startblock) ∧
          (cleft.rc_blockcount = aglen ∨
            ∃ z ∈ M, agbno + cleft.rc_blockcount = z.rc_startblock))) := by
  obtain ⟨hsh, hns0, hns1, hsz⟩ := hseg
  have hAB : rcBelow l (sub1_u32 agbno) ++ rcAbove l (sub1_u32 agbno) = l :=
    List.takeWhile_append_dropWhile _ _
  have hBgt : ∀ z ∈ rcAbove l (sub1_u32 agbno), sub1_u32 agbno < z.rc_startblock :=
    rcAbove_mem_gt agsz l (sub1_u32 agbno) hsh.1
  cases hgl : (rcBelow l (sub1_u32 agbno)).getLast? with
  | none =>
    unfold find_left_extent at hfind
    simp only [hgl] at hfind
    injection hfind with h1 h2
    rw [← h1] at hne
    exact absurd rfl hne
  | some tmp =>
    have hdecomp : rcBelow l (sub1_u32 agbno) =
        (rcBelow l (sub1_u32 agbno)).dropLast ++ [tmp] := getLast?_decomp hgl
    have hl' : l = (rcBelow l (sub1_u32 agbno)).dropLast ++
        tmp :: rcAbove l (sub1_u32 agbno) := by
      conv_lhs => rw [← hAB]
      rw [hdecomp]
      simp
    obtain ⟨hA0, hB, hAm, hxm, hBm, hAx, hxB, hAB2⟩ :=
      shwf_decomp agsz _ _ _ (hl' ▸ hsh)
    unfold find_left_extent at hfind
    simp only [hgl] at hfind
    by_cases hc1 : RCNEXT tmp ≠ agbno
    · rw [if_pos hc1] at hfind
      injection hfind with h1 h2
      rw [← h1] at hne
      exact absurd rfl hne
    · push_neg at hc1
      rw [if_neg (not_not_intro hc1)] at hfind
      by_cases hc2 : tmp.rc_refcount < 2
      · have hcc : (True ∧ tmp.rc_refcount < 2) := ⟨trivial, hc2⟩
        rw [if_pos hcc] at hfind
        injection hfind with h1 h2
        rw [← h1] at hne
        exact absurd rfl hne
      · have hcn : ¬ (True ∧ tmp.rc_refcount < 2) := by
          rintro ⟨-, h⟩
          omega
        rw [if_neg hcn] at hfind
        have hc3 : ¬ ((FindRcFlag.shared : FindRcFlag) = FindRcFlag.cow ∧
            tmp.rc_refcount > 1) := by
          rintro ⟨hc, -⟩
          cases hc
        rw [if_neg hc3] at hfind
        cases hhd : (rcAbove l (sub1_u32 agbno)).head? with
        | none =>
          simp only [hhd] at hfind
          injection hfind with h1 h2
          subst h1
          have hMnil : rcAbove l (sub1_u32 agbno) = [] := head?_none hhd
          refine ⟨(rcBelow l (sub1_u32 agbno)).dropLast, [], ?_, hc1, hxm.2.2, hxm.1,
            fun x hx => hAx x hx, ?_, ?_, ?_, ?_, ?_⟩
          · rw [hMnil] at hl'
            exact hl'
          · intro z hz
            exact absurd hz (List.not_mem_nil z)
          · rw [← h2]
          · rw [← h2]
            exact haglen
          · rw [← h2]
          · right
            refine ⟨by rw [← h2], ?_, Or.inl (by rw [← h2])⟩
            intro z hz
            exact absurd hz (List.not_mem_nil z)
        | some nxt =>
          simp only [hhd] at hfind
          have hMdec : rcAbove l (sub1_u32 agbno) =
              nxt :: (rcAbove l (sub1_u32 agbno)).tail := head?_decomp hhd
          have hnxtmem : nxt ∈ rcAbove l (sub1_u32 agbno) := by
            rw [hMdec]
            simp
          have hnxtge : agbno ≤ nxt.rc_startblock := sub1_ge (hBgt nxt hnxtmem)
          by_cases hc4 : nxt.rc_startblock = agbno
          · rw [if_pos hc4] at hfind
            injection hfind with h1 h2
            subst h1
            subst h2
            have hclen : RCNEXT nxt ≤ agbno + aglen := by
              have h5 := hns1 nxt (by rw [hl', hMdec]; simp)
              unfold RCNEXT at h5 ⊢
              omega
            refine ⟨(rcBelow l (sub1_u32 agbno)).dropLast,
              rcAbove l (sub1_u32 agbno), hl', hc1, hxm.2.2, hxm.1,
              fun x hx => hAx x hx,
              fun z hz => sub1_ge (hBgt z hz), hc4,
              (hBm nxt hnxtmem).1, ?_, Or.inl ⟨_, hMdec⟩⟩
            unfold RCNEXT at hclen
            omega
          · rw [if_neg hc4] at hfind
            injection hfind with h1 h2
            subst h1
            have hnxgt : agbno < nxt.rc_startblock := by omega
            refine ⟨(rcBelow l (sub1_u32 agbno)).dropLast,
              rcAbove l (sub1_u32 agbno), hl', hc1, hxm.2.2, hxm.1,
              fun x hx => hAx x hx,
              fun z hz => sub1_ge (hBgt z hz), ?_, ?_, ?_, ?_⟩
            · rw [← h2]
            · rw [← h2]
              show 0 < min aglen (nxt.rc_startblock - agbno)
              omega
            · rw [← h2]
              show min aglen (nxt.rc_startblock - agbno) ≤ aglen
              exact Nat.min_le_left _ _
            · right
              refine ⟨by rw [← h2], ?_, ?_⟩
              · intro z hz
                rw [hMdec] at hz
                rcases List.mem_cons.mp hz with rfl | hz2
                · rw [← h2]
                  show agbno + min aglen (z.rc_startblock - agbno) ≤ z.rc_startblock
                  omega
                · have hsep : RcSep nxt z := (List.pairwise_cons.mp (hMdec ▸ hB)).1 z hz2
                  rw [← h2]
                  show agbno + min aglen (nxt.rc_startblock - agbno) ≤ z.rc_startblock
                  unfold RcSep RCNEXT at hsep
                  have h6 := (hBm nxt hnxtmem).1
                  omega
              · by_cases hmin : aglen ≤ nxt.rc_startblock - agbno
                · left
                  rw [← h2]
                  show min aglen (nxt.rc_startblock - agbno) = aglen
                  omega
                · right
                  refine ⟨nxt, hnxtmem, ?_⟩
                  rw [← h2]
                  show agbno + min aglen (nxt.rc_startblock - agbno) = nxt.rc_startblock
                  omega

/-- Characterization of find_right_extent on a purely-shared well-formed
index: when a right extent is reported, the index splits at it, the right
extent starts exactly at agbno + aglen, and cright is either the stored
record immediately before it (ending there) or the implied refcount-1 gap
extent ending there. -/
theorem find_right_spec (agsz : Nat) (l : List xfs_refcount_irec)
    (agbno aglen : Nat) (hseg : SegOK agsz l agbno aglen) (haglen : 0 < aglen)
    (right cright : xfs_refcount_irec)
    (hfind : find_right_extent l agbno aglen .shared = (right, cright))
    (hne : right.rc_blockcount ≠ 0) :
    ∃ P F, l = P ++ right :: F ∧ right.rc_startblock = agbno + aglen ∧
      2 ≤ right.rc_refcount ∧ 0 < right.rc_blockcount ∧
      (∀ p ∈ P, RCNEXT p ≤ agbno + aglen) ∧
      (∀ f ∈ F, RCNEXT right ≤ f.rc_startblock) ∧
      RCNEXT cright = agbno + aglen ∧ 0 < cright.rc_blockcount ∧
      agbno ≤ cright.rc_startblock ∧
      ((∃ P₀, P = P₀ ++ [cright]) ∨
        (cright.rc_refcount = 1 ∧
          (∀ p ∈ P, RCNEXT p ≤ cright.rc_startblock) ∧
          (cright.rc_startblock = agbno ∨
            ∃ p ∈ P, cright.rc_startblock = RCNEXT p))) := by
  obtain ⟨hsh, hns0, hns1, hsz⟩ := hseg
  have hPF : rcBefore l (agbno + aglen) ++ rcFrom l (agbno + aglen) = l :=
    List.takeWhile_append_dropWhile _ _
  have hPlt : ∀ p ∈ rcBefore l (agbno + aglen), p.rc_startblock < agbno + aglen :=
    rcBefore_mem_lt l (agbno + aglen)
  cases hhd : (rcFrom l (agbno + aglen)).head? with
  | none =>
    unfold find_right_extent at hfind
    simp only [hhd] at hfind
    injection hfind with h1 h2
    rw [← h1] at hne
    exact absurd rfl hne
  | some tmp =>
    have hFdec : rcFrom l (agbno + aglen) = tmp :: (rcFrom l (agbno + aglen)).tail :=
      head?_decomp hhd
    have hl' : l = rcBefore l (agbno + aglen) ++
        tmp :: (rcFrom l (agbno + aglen)).tail := by
      conv_lhs => rw [← hPF]
      rw [hFdec]
      simp
    obtain ⟨hA0, hB, hAm, hxm, hBm, hAx, hxB, hAB2⟩ :=
      shwf_decomp agsz _ _ _ (hl' ▸ hsh)
    unfold find_right_extent at hfind
    simp only [hhd] at hfind
    by_cases hc1 : tmp.rc_startblock ≠ agbno + aglen
    · rw [if_pos hc1] at hfind
      injection hfind with h1 h2
      rw [← h1] at hne
      exact absurd rfl hne
    · push_neg at hc1
      rw [if_neg (not_not_intro hc1)] at hfind
      by_cases hc2 : tmp.rc_refcount < 2
      · have hcc : (True ∧ tmp.rc_refcount < 2) := ⟨trivial, hc2⟩
        rw [if_pos hcc] at hfind
        injection hfind with h1 h2
        rw [← h1] at hne
        exact absurd rfl hne
      · have hcn : ¬ (True ∧ tmp.rc_refcount < 2) := by
          rintro ⟨-, h⟩
          omega
        rw [if_neg hcn] at hfind
        have hc3 : ¬ ((FindRcFlag.shared : FindRcFlag) = FindRcFlag.cow ∧
            tmp.rc_refcount > 1) := by
          rintro ⟨hc, -⟩
          cases hc
        rw [if_neg hc3] at hfind
        cases hgl : (rcBefore l (agbno + aglen)).getLast? with
        | none =>
          simp only [hgl] at hfind
          injection hfind with h1 h2
          subst h1
          have hPnil : rcBefore l (agbno + aglen) = [] := getLast?_none hgl
          rw [hPnil] at hl'
          refine ⟨[], (rcFrom l (agbno + aglen)).tail, hl', hc1, hxm.2.2, hxm.1,
            ?_, fun f hf => hxB f hf, ?_, ?_, ?_, ?_⟩
          · intro p hp
            exact absurd hp (List.not_mem_nil p)
          · rw [← h2]
            rfl
          · rw [← h2]
            exact haglen
          · rw [← h2]
          · right
            refine ⟨by rw [← h2], ?_, Or.inl (by rw [← h2])⟩
            intro p hp
            exact absurd hp (List.not_mem_nil p)
        | some prv =>
          simp only [hgl] at hfind
          have hPdec : rcBefore l (agbno + aglen) =
              (rcBefore l (agbno + aglen)).dropLast ++ [prv] := getLast?_decomp hgl
          have hprvmem : prv ∈ rcBefore l (agbno + aglen) := by
            rw [hPdec]
            simp
          have hprvlt : prv.rc_startblock < agbno + aglen := hPlt prv hprvmem
          have hprvmem' : prv ∈ l := by
            rw [← hPF]
            exact List.mem_append.mpr (Or.inl hprvmem)
          have hprvok : RcRecOK agsz prv := hAm prv hprvmem
          have hnext_le : RCNEXT prv ≤ agbno + aglen := by
            have h5 := hns1 prv hprvmem'
            unfold RCNEXT at h5 ⊢
            omega
          by_cases hc4 : RCNEXT prv = agbno + aglen
          · rw [if_pos hc4] at hfind
            injection hfind with h1 h2
            subst h1
            subst h2
            have hstart : agbno ≤ prv.rc_startblock := by
              have h5 := hns0 prv hprvmem'
              unfold RCNEXT at h5 hc4
              omega
            refine ⟨rcBefore l (agbno + aglen), (rcFrom l (agbno + aglen)).tail,
              hl', hc1, hxm.2.2, hxm.1,
              fun p hp => le_of_le_of_eq (hAx p hp) hc1,
              fun f hf => hxB f hf, hc4, hprvok.1, hstart, Or.inl ⟨_, hPdec⟩⟩
          · rw [if_neg hc4] at hfind
            injection hfind with h1 h2
            subst h1
            have hmaxlt : max agbno (RCNEXT prv) < agbno + aglen := by
              unfold RCNEXT at hc4 hnext_le ⊢
              omega
            refine ⟨rcBefore l (agbno + aglen), (rcFrom l (agbno + aglen)).tail,
              hl', hc1, hxm.2.2, hxm.1,
              fun p hp => le_of_le_of_eq (hAx p hp) hc1,
              fun f hf => hxB f hf, ?_, ?_, ?_, ?_⟩
            · rw [← h2]
              show max agbno (RCNEXT prv) +
                (tmp.rc_startblock - max agbno (RCNEXT prv)) = agbno + aglen
              omega
            · rw [← h2]
              show 0 < tmp.rc_startblock - max agbno (RCNEXT prv)
              omega
            · rw [← h2]
              show agbno ≤ max agbno (RCNEXT prv)
              omega
            · right
              refine ⟨by rw [← h2], ?_, ?_⟩
              · intro p hp
                rw [← h2]
                show RCNEXT p ≤ max agbno (RCNEXT prv)
                rw [hPdec] at hp
                rcases List.mem_append.mp hp with hp0 | hp1
                · have hsep : RcSep p prv := by
                    have hpw := hA0
                    rw [hPdec] at hpw
                    rw [List.pairwise_append] at hpw
                    exact hpw.2.2 p hp0 prv (by simp)
                  unfold RcSep RCNEXT at hsep
                  unfold RCNEXT
                  have h6 := hprvok.1
                  omega
                · have hpp : p = prv := by simpa using hp1
                  subst hpp
                  unfold RCNEXT
                  omega
              · by_cases hmax : RCNEXT prv ≤ agbno
                · left
                  rw [← h2]
                  show max agbno (RCNEXT prv) = agbno
                  omega
                · right
                  refine ⟨prv, hprvmem, ?_⟩
                  rw [← h2]
                  show max agbno (RCNEXT prv) = RCNEXT prv
                  omega

theorem shwf_split (agsz : Nat) (A B : List xfs_refcount_irec)
    (h : ShWF agsz (A ++ B)) :
    ShWF agsz A ∧ ShWF agsz B ∧ ∀ a ∈ A, ∀ b ∈ B, RcSep a b := by
  rw [shwf_iff] at h
  obtain ⟨hpw, hmem⟩ := h
  rw [List.pairwise_append] at hpw
  refine ⟨?_, ?_, hpw.2.2⟩
  · rw [shwf_iff]
    exact ⟨hpw.1, fun r hr => hmem r (List.mem_append.mpr (Or.inl hr))⟩
  · rw [shwf_iff]
    exact ⟨hpw.2.1, fun r hr => hmem r (List.mem_append.mpr (Or.inr hr))⟩

theorem shwf_append (agsz bnd : Nat) (A B : List xfs_refcount_irec)
    (hA : ShWF agsz A) (hB : ShWF agsz B)
    (hAb : ∀ a ∈ A, RCNEXT a ≤ bnd) (hBb : ∀ b ∈ B, bnd ≤ b.rc_startblock) :
    ShWF agsz (A ++ B) := by
  rw [shwf_iff] at hA hB ⊢
  refine ⟨?_, ?_⟩
  · rw [List.pairwise_append]
    refine ⟨hA.1, hB.1, ?_⟩
    intro a ha b hb
    unfold RcSep
    exact Nat.le_trans (hAb a ha) (hBb b hb)
  · intro r hr
    rcases List.mem_append.mp hr with h1 | h1
    · exact hA.2 r h1
    · exact hB.2 r h1

theorem shwf_singleton (agsz : Nat) (x : xfs_refcount_irec)
    (h : RcRecOK agsz x) : ShWF agsz [x] := by
  rw [shwf_iff]
  exact ⟨List.pairwise_singleton _ _, fun r hr => by
    rw [List.mem_singleton] at hr
    rw [hr]
    exact h⟩

theorem shwf_nil (agsz : Nat) : ShWF agsz [] := by
  rw [shwf_iff]
  exact ⟨List.Pairwise.nil, fun r hr => absurd hr (List.not_mem_nil r)⟩

/-- Two sorted-split decompositions of one well-formed index align: the
record with the smaller start comes first, with an explicit middle. -/
theorem sorted_two_splits (agsz : Nat) :
    ∀ (X : List xfs_refcount_irec) (l M P F : List xfs_refcount_irec)
      (r s : xfs_refcount_irec),
      ShWF agsz l → l = X ++ r :: M → l = P ++ s :: F →
      r.rc_startblock < s.rc_startblock →
      ∃ Mid, P = X ++ r :: Mid ∧ M = Mid ++ s :: F := by
  intro X
  induction X with
  | nil =>
    intro l M P F r s hwf h1 h2 hrs
    cases P with
    | nil =>
      rw [h1] at h2
      simp at h2
      rw [h2.1] at hrs
      omega
    | cons p P' =>
      rw [h1] at h2
      simp at h2
      obtain ⟨hp, hM⟩ := h2
      exact ⟨P', by simp [hp], hM⟩
  | cons x X' ih =>
    intro l M P F r s hwf h1 h2 hrs
    cases P with
    | nil =>
      exfalso
      rw [h1] at h2
      simp at h2
      obtain ⟨hs, hF⟩ := h2
      rw [shwf_iff] at hwf
      have hpw := hwf.1
      rw [h1] at hpw
      have hsep : RcSep x r := by
        rw [List.cons_append, List.pairwise_cons] at hpw
        exact hpw.1 r (by simp)
      have hxok : RcRecOK agsz x := hwf.2 x (by rw [h1]; simp)
      rw [hs] at hsep hxok
      unfold RcSep RCNEXT at hsep
      have := hxok.1
      omega
    | cons p P' =>
      rw [h1] at h2
      simp at h2
      obtain ⟨hxp, htl⟩ := h2
      have hwf' : ShWF agsz (X' ++ r :: M) := by
        rw [h1] at hwf
        rw [shwf_iff] at hwf ⊢
        refine ⟨?_, ?_⟩
        · have := hwf.1
          rw [List.cons_append, List.pairwise_cons] at this
          exact this.2
        · intro q hq
          exact hwf.2 q (by rw [List.cons_append]; exact List.mem_cons_of_mem _ hq)
      obtain ⟨Mid, hP', hM⟩ := ih (X' ++ r :: M) M P' F r s hwf' rfl htl hrs
      exact ⟨Mid, by rw [hxp, hP']; rfl, hM⟩

theorem rcBelow_compute (A B : List xfs_refcount_irec) (k : Nat)
    (hA : ∀ a ∈ A, a.rc_startblock ≤ k)
    (hB : ∀ b ∈ B.head?, k < b.rc_startblock) :
    rcBelow (A ++ B) k = A ∧ rcAbove (A ++ B) k = B := by
  unfold rcBelow rcAbove
  refine takeWhile_eq_of _ A B ?_ ?_
  · intro a ha
    simpa using hA a ha
  · intro b hb
    simp only [decide_eq_false_iff_not, not_le]
    exact hB b hb

theorem rcBefore_compute (A B : List xfs_refcount_irec) (k : Nat)
    (hA : ∀ a ∈ A, a.rc_startblock < k)
    (hB : ∀ b ∈ B.head?, k ≤ b.rc_startblock) :
    rcBefore (A ++ B) k = A ∧ rcFrom (A ++ B) k = B := by
  unfold rcBefore rcFrom
  refine takeWhile_eq_of _ A B ?_ ?_
  · intro a ha
    simpa using hA a ha
  · intro b hb
    simp only [decide_eq_false_iff_not, not_lt]
    exact hB b hb

theorem rcUpdateAtLE_eq (A B : List xfs_refcount_irec) (x newrec : xfs_refcount_irec)
    (hA : ∀ a ∈ A, a.rc_startblock ≤ x.rc_startblock)
    (hB : ∀ b ∈ B.head?, x.rc_startblock < b.rc_startblock) :
    rcUpdateAtLE (A ++ x :: B) x.rc_startblock newrec = .ok (A ++ newrec :: B) := by
  have hsplit : A ++ x :: B = (A ++ [x]) ++ B := by simp
  have hbelow := rcBelow_compute (A ++ [x]) B x.rc_startblock
    (by
      intro a ha
      rcases List.mem_append.mp ha with h1 | h1
      · exact hA a h1
      · rw [List.mem_singleton] at h1
        rw [h1])
    hB
  have hglast : ((A ++ [x]) : List xfs_refcount_irec).getLast? = some x :=
    List.getLast?_concat _
  unfold rcUpdateAtLE
  rw [hsplit, hbelow.1, hbelow.2, hglast, List.dropLast_concat]

theorem rcDeleteAtLE_eq (A B : List xfs_refcount_irec) (x : xfs_refcount_irec)
    (hA : ∀ a ∈ A, a.rc_startblock ≤ x.rc_startblock)
    (hB : ∀ b ∈ B.head?, x.rc_startblock < b.rc_startblock) :
    rcDeleteAtLE (A ++ x :: B) x.rc_startblock = .ok (A ++ B) := by
  have hsplit : A ++ x :: B = (A ++ [x]) ++ B := by simp
  have hbelow := rcBelow_compute (A ++ [x]) B x.rc_startblock
    (by
      intro a ha
      rcases List.mem_append.mp ha with h1 | h1
      · exact hA a h1
      · rw [List.mem_singleton] at h1
        rw [h1])
    hB
  have hglast : ((A ++ [x]) : List xfs_refcount_irec).getLast? = some x :=
    List.getLast?_concat _
  unfold rcDeleteAtLE
  rw [hsplit, hbelow.1, hbelow.2, hglast, List.dropLast_concat]

theorem ok_bind {ε α β : Type} (a : α) (f : α → Except ε β) :
    (Except.ok a >>= f) = f a := rfl

/-- merge_left on a well-formed index with an established left/cleft
context: computes the result list and the advanced range. -/
theorem merge_left_spec (agsz : Nat) (l X M : List xfs_refcount_irec)
    (left cleft : xfs_refcount_irec) (agbno aglen : Nat)
    (hsh : ShWF agsz l)
    (hl : l = X ++ left :: M)
    (hln : RCNEXT left = agbno) (hlp : 0 < left.rc_blockcount)
    (hcs : cleft.rc_startblock = agbno) (hcp : 0 < cleft.rc_blockcount)
    (hrcn : RCNEXT cleft ≤ agsz)
    (hdisp : (∃ M₁, M = cleft :: M₁) ∨
      (cleft.rc_refcount = 1 ∧ ∀ z ∈ M, agbno + cleft.rc_blockcount ≤ z.rc_startblock)) :
    ∃ Rst, merge_left l left cleft agbno aglen =
        .ok (X ++ { left with
            rc_blockcount := left.rc_blockcount + cleft.rc_blockcount } :: Rst,
          agbno + cleft.rc_blockcount, aglen - cleft.rc_blockcount) ∧
      (M = cleft :: Rst ∨ (cleft.rc_refcount = 1 ∧ Rst = M)) ∧
      ShWF agsz (X ++ { left with
        rc_blockcount := left.rc_blockcount + cleft.rc_blockcount } :: Rst) ∧
      (∀ z ∈ Rst, agbno + cleft.rc_blockcount ≤ z.rc_startblock) := by
  obtain ⟨hshX, hshM, hcross⟩ := shwf_split agsz X (left :: M) (hl ▸ hsh)
  have hXle : ∀ a ∈ X, a.rc_startblock ≤ left.rc_startblock := by
    intro a ha
    have := hcross a ha left (by simp)
    unfold RcSep RCNEXT at this
    omega
  have hlstart : left.rc_startblock < agbno := by
    unfold RCNEXT at hln
    omega
  have hlrc : 2 ≤ left.rc_refcount := ((shwf_iff agsz _).mp hshM).2 left (by simp) |>.2.2
  have hlnext : RCNEXT left ≤ agsz := ((shwf_iff agsz _).mp hshM).2 left (by simp) |>.2.1
  rcases hdisp with ⟨M₁, hM⟩ | ⟨hrc1, hgap⟩
  · -- stored cleft: delete it, then extend left over it
    subst hM
    have hMfacts := (shwf_iff agsz _).mp hshM
    have hsepLC : RcSep left cleft := (List.pairwise_cons.mp hMfacts.1).1 cleft (by simp)
    have hpwC := List.pairwise_cons.mp (List.pairwise_cons.mp hMfacts.1).2
    have hrc2 : 2 ≤ cleft.rc_refcount := hMfacts.2 cleft (by simp) |>.2.2
    have hM₁ge : ∀ z ∈ M₁, RCNEXT cleft ≤ z.rc_startblock := by
      intro z hz
      exact hpwC.1 z hz
    have hdel : rcDeleteAtLE l cleft.rc_startblock = .ok (X ++ left :: M₁) := by
      have heq : l = (X ++ [left]) ++ cleft :: M₁ := by rw [hl]; simp
      rw [heq]
      have := rcDeleteAtLE_eq (X ++ [left]) M₁ cleft
        (by
          intro a ha
          rcases List.mem_append.mp ha with h1 | h1
          · have := hXle a h1
            omega
          · rw [List.mem_singleton] at h1
            rw [h1]
            omega)
        (by
          intro b hb
          have hbm : b ∈ M₁ := List.mem_of_mem_head? hb
          have := hM₁ge b hbm
          unfold RCNEXT at this
          omega)
      rw [this]
      simp
    have hupd : rcUpdateAtLE (X ++ left :: M₁) left.rc_startblock
        { left with rc_blockcount := left.rc_blockcount + cleft.rc_blockcount } =
        .ok (X ++ { left with
          rc_blockcount := left.rc_blockcount + cleft.rc_blockcount } :: M₁) := by
      exact rcUpdateAtLE_eq X M₁ left _ hXle
        (by
          intro b hb
          have hbm : b ∈ M₁ := List.mem_of_mem_head? hb
          have := hM₁ge b hbm
          unfold RCNEXT at this
          omega)
    have hgt : cleft.rc_refcount > 1 := by omega
    refine ⟨M₁, ?_, Or.inl rfl, ?_, ?_⟩
    · unfold merge_left
      rw [if_pos hgt, hdel]
      simp only [ok_bind]
      rw [hupd]
      simp only [ok_bind]
    · refine shwf_append agsz left.rc_startblock X _ hshX ?_
        (fun a ha => by
          have := hcross a ha left (by simp)
          exact this)
        (by
          intro b hb
          rcases List.mem_cons.mp hb with rfl | hb2
          · exact Nat.le_refl _
          · have := hM₁ge b hb2
            unfold RCNEXT at this
            omega)
      refine shwf_append agsz (RCNEXT cleft)
        [{ left with rc_blockcount := left.rc_blockcount + cleft.rc_blockcount }] M₁
        (shwf_singleton agsz _ ?_) ?_ ?_ ?_
      · refine ⟨by simp; omega, ?_, by simpa using hlrc⟩
        show left.rc_startblock + (left.rc_blockcount + cleft.rc_blockcount) ≤ agsz
        unfold RCNEXT at hln hrcn
        omega
      · rw [shwf_iff]
        refine ⟨hpwC.2, ?_⟩
        intro r hr
        exact hMfacts.2 r (by simp [hr])
      · intro a ha
        rw [List.mem_singleton] at ha
        rw [ha]
        show left.rc_startblock + (left.rc_blockcount + cleft.rc_blockcount) ≤ RCNEXT cleft
        unfold RCNEXT at hln ⊢
        omega
      · exact hM₁ge
    · intro z hz
      have := hM₁ge z hz
      unfold RCNEXT at this
      omega
  · -- implied cleft: only the update
    have hMfacts := (shwf_iff agsz _).mp hshM
    have hMge : ∀ z ∈ M, agbno + cleft.rc_blockcount ≤ z.rc_startblock := hgap
    have hupd : rcUpdateAtLE l left.rc_startblock
        { left with rc_blockcount := left.rc_blockcount + cleft.rc_blockcount } =
        .ok (X ++ { left with
          rc_blockcount := left.rc_blockcount + cleft.rc_blockcount } :: M) := by
      rw [hl]
      exact rcUpdateAtLE_eq X M left _ hXle
        (by
          intro b hb
          have hbm : b ∈ M := List.mem_of_mem_head? hb
          have := hMge b hbm
          omega)
    have hngt : ¬ (cleft.rc_refcount > 1) := by omega
    refine ⟨M, ?_, Or.inr ⟨hrc1, rfl⟩, ?_, hMge⟩
    · unfold merge_left
      rw [if_neg hngt]
      simp only [ok_bind]
      rw [hupd]
      simp only [ok_bind]
    · refine shwf_append agsz left.rc_startblock X _ hshX ?_
        (fun a ha => by
          have := hcross a ha left (by simp)
          exact this)
        (by
          intro b hb
          rcases List.mem_cons.mp hb with rfl | hb2
          · exact Nat.le_refl _
          · have := hMge b hb2
            omega)
      refine shwf_append agsz (agbno + cleft.rc_blockcount)
        [{ left with rc_blockcount := left.rc_blockcount + cleft.rc_blockcount }] M
        (shwf_singleton agsz _ ?_) ?_ ?_ hMge
      · refine ⟨by simp; omega, ?_, by simpa using hlrc⟩
        show left.rc_startblock + (left.rc_blockcount + cleft.rc_blockcount) ≤ agsz
        unfold RCNEXT at hln hrcn
        omega
      · rw [shwf_iff]
        refine ⟨(List.pairwise_cons.mp hMfacts.1).2, ?_⟩
        intro r hr
        exact hMfacts.2 r (by simp [hr])
      · intro a ha
        rw [List.mem_singleton] at ha
        rw [ha]
        show left.rc_startblock + (left.rc_blockcount + cleft.rc_blockcount) ≤
          agbno + cleft.rc_blockcount
        unfold RCNEXT at hln
        omega

/-- merge_right on a well-formed index with an established right/cright
context: computes the result and preserves well-formedness, with no record
straddling either edge of the trimmed range. -/
theorem merge_right_spec (agsz : Nat) (l₂ C F : List xfs_refcount_irec)
    (right cright : xfs_refcount_irec) (agbno₂ aglen₂ : Nat)
    (hsh : ShWF agsz l₂)
    (hl : l₂ = C ++ right :: F)
    (hns0 : NoStraddle l₂ agbno₂)
    (hrs : right.rc_startblock = agbno₂ + aglen₂)
    (hcn : RCNEXT cright = agbno₂ + aglen₂)
    (hcp : 0 < cright.rc_blockcount)
    (hcb : agbno₂ ≤ cright.rc_startblock)
    (hdisp : (∃ C₀, C = C₀ ++ [cright]) ∨
      (cright.rc_refcount = 1 ∧ ∀ c ∈ C, RCNEXT c ≤ cright.rc_startblock)) :
    ∃ l₃, merge_right l₂ right cright agbno₂ aglen₂ =
        .ok (l₃, agbno₂, aglen₂ - cright.rc_blockcount) ∧
      ShWF agsz l₃ ∧ NoStraddle l₃ agbno₂ ∧
      NoStraddle l₃ (agbno₂ + (aglen₂ - cright.rc_blockcount)) := by
  have hclen : cright.rc_blockcount ≤ aglen₂ := by
    unfold RCNEXT at hcn
    omega
  have hedge : agbno₂ + (aglen₂ - cright.rc_blockcount) = cright.rc_startblock := by
    unfold RCNEXT at hcn
    omega
  obtain ⟨hshC, hshRF, hcross⟩ := shwf_split agsz C (right :: F) (hl ▸ hsh)
  have hRF := (shwf_iff agsz _).mp hshRF
  have hrok : RcRecOK agsz right := hRF.2 right (by simp)
  have hFge : ∀ f ∈ F, RCNEXT right ≤ f.rc_startblock := by
    intro f hf
    exact (List.pairwise_cons.mp hRF.1).1 f hf
  have hFok : ∀ f ∈ F, RcRecOK agsz f := fun f hf => hRF.2 f (by simp [hf])
  have hshF : ShWF agsz F := by
    rw [shwf_iff]
    exact ⟨(List.pairwise_cons.mp hRF.1).2, fun r hr => hRF.2 r (by simp [hr])⟩
  have hCle : ∀ c ∈ C, RCNEXT c ≤ right.rc_startblock := by
    intro c hc
    exact hcross c hc right (by simp)
  have hnrok : RcRecOK agsz
      { right with rc_startblock := right.rc_startblock - cright.rc_blockcount,
                   rc_blockcount := right.rc_blockcount + cright.rc_blockcount } := by
    refine ⟨by simp; omega, ?_, by simpa using hrok.2.2⟩
    show right.rc_startblock - cright.rc_blockcount +
      (right.rc_blockcount + cright.rc_blockcount) ≤ agsz
    have := hrok.2.1
    unfold RCNEXT at this hcn
    omega
  have hnstart : right.rc_startblock - cright.rc_blockcount = cright.rc_startblock := by
    unfold RCNEXT at hcn
    omega
  rcases hdisp with ⟨C₀, hC⟩ | ⟨hrc1, hgap⟩
  · -- stored cright, adjacent to right
    have hl2 : l₂ = C₀ ++ cright :: right :: F := by
      rw [hl, hC]
      simp
    have hcrok : RcRecOK agsz cright := by
      rw [shwf_iff] at hsh
      exact hsh.2 cright (by rw [hl2]; simp)
    have hC₀le : ∀ a ∈ C₀, RCNEXT a ≤ cright.rc_startblock := by
      obtain ⟨hsh0, hsh1, hcr0⟩ := shwf_split agsz C₀ (cright :: right :: F) (hl2 ▸ hsh)
      intro a ha
      exact hcr0 a ha cright (by simp)
    have hdel : rcDeleteAtLE l₂ cright.rc_startblock = .ok (C₀ ++ right :: F) := by
      rw [hl2]
      exact rcDeleteAtLE_eq C₀ (right :: F) cright
        (by
          intro a ha
          have := hC₀le a ha
          unfold RCNEXT at this
          omega)
        (by
          intro b hb
          rw [List.head?_cons, Option.mem_some_iff] at hb
          rw [← hb]
          unfold RCNEXT at hcn
          omega)
    have hupd : rcUpdateAtLE (C₀ ++ right :: F) right.rc_startblock
        { right with rc_startblock := right.rc_startblock - cright.rc_blockcount,
                     rc_blockcount := right.rc_blockcount + cright.rc_blockcount } =
        .ok (C₀ ++ { right with
            rc_startblock := right.rc_startblock - cright.rc_blockcount,
            rc_blockcount := right.rc_blockcount + cright.rc_blockcount } :: F) := by
      exact rcUpdateAtLE_eq C₀ F right _
        (by
          intro a ha
          have h1 := hC₀le a ha
          unfold RCNEXT at h1 hcn
          omega)
        (by
          intro b hb
          have hbm : b ∈ F := List.mem_of_mem_head? hb
          have := hFge b hbm
          have := hrok.1
          unfold RCNEXT at *
          omega)
    have hgt : cright.rc_refcount > 1 := by
      have := hcrok.2.2
      omega
    refine ⟨C₀ ++ { right with
        rc_startblock := right.rc_startblock - cright.rc_blockcount,
        rc_blockcount := right.rc_blockcount + cright.rc_blockcount } :: F,
      ?_, ?_, ?_, ?_⟩
    · unfold merge_right
      rw [if_pos hgt, hdel]
      simp only [ok_bind]
      rw [hupd]
      simp only [ok_bind]
    · refine shwf_append agsz cright.rc_startblock C₀ _ ?_ ?_ hC₀le ?_
      · obtain ⟨h0, -, -⟩ := shwf_split agsz C₀ (cright :: right :: F) (hl2 ▸ hsh)
        exact h0
      · refine shwf_append agsz (RCNEXT right) [_] F
          (shwf_singleton agsz _ hnrok) hshF ?_ hFge
        intro a ha
        rw [List.mem_singleton] at ha
        rw [ha]
        show right.rc_startblock - cright.rc_blockcount +
          (right.rc_blockcount + cright.rc_blockcount) ≤ RCNEXT right
        unfold RCNEXT at hcn ⊢
        omega
      · intro b hb
        rcases List.mem_cons.mp hb with rfl | hb2
        · show cright.rc_startblock ≤ right.rc_startblock - cright.rc_blockcount
          omega
        · have := hFge b hb2
          have := hrok.1
          unfold RCNEXT at *
          omega
    · intro r hr
      rcases List.mem_append.mp hr with h1 | h1
      · exact hns0 r (by rw [hl2]; simp [List.mem_append.mpr (Or.inl h1)])
      · rcases List.mem_cons.mp h1 with rfl | h2
        · intro hcon
          simp only at hcon
          omega
        · exact hns0 r (by rw [hl2]; simp [h2])
    · rw [hedge]
      intro r hr
      rcases List.mem_append.mp hr with h1 | h1
      · have := hC₀le r h1
        intro hcon
        omega
      · rcases List.mem_cons.mp h1 with rfl | h2
        · intro hcon
          simp only at hcon
          omega
        · have := hFge r h2
          have := hrok.1
          intro hcon
          unfold RCNEXT at *
          omega
  · -- implied cright: only the update of right
    have hngt : ¬ (cright.rc_refcount > 1) := by omega
    have hupd : rcUpdateAtLE l₂ right.rc_startblock
        { right with rc_startblock := right.rc_startblock - cright.rc_blockcount,
                     rc_blockcount := right.rc_blockcount + cright.rc_blockcount } =
        .ok (C ++ { right with
            rc_startblock := right.rc_startblock - cright.rc_blockcount,
            rc_blockcount := right.rc_blockcount + cright.rc_blockcount } :: F) := by
      rw [hl]
      exact rcUpdateAtLE_eq C F right _
        (by
          intro a ha
          have h1 := hCle a ha
          unfold RCNEXT at h1
          omega)
        (by
          intro b hb
          have hbm : b ∈ F := List.mem_of_mem_head? hb
          have := hFge b hbm
          have := hrok.1
          unfold RCNEXT at *
          omega)
    refine ⟨C ++ { right with
        rc_startblock := right.rc_startblock - cright.rc_blockcount,
        rc_blockcount := right.rc_blockcount + cright.rc_blockcount } :: F,
      ?_, ?_, ?_, ?_⟩
    · unfold merge_right
      rw [if_neg hngt]
      simp only [ok_bind]
      rw [hupd]
      simp only [ok_bind]
    · refine shwf_append agsz cright.rc_startblock C _ hshC ?_ hgap ?_
      · refine shwf_append agsz (RCNEXT right) [_] F
          (shwf_singleton agsz _ hnrok) hshF ?_ hFge
        intro a ha
        rw [List.mem_singleton] at ha
        rw [ha]
        show right.rc_startblock - cright.rc_blockcount +
          (right.rc_blockcount + cright.rc_blockcount) ≤ RCNEXT right
        unfold RCNEXT at hcn ⊢
        omega
      · intro b hb
        rcases List.mem_cons.mp hb with rfl | hb2
        · show cright.rc_startblock ≤ right.rc_startblock - cright.rc_blockcount
          omega
        · have := hFge b hb2
          have := hrok.1
          unfold RCNEXT at *
          omega
    · intro r hr
      rcases List.mem_append.mp hr with h1 | h1
      · exact hns0 r (by rw [hl]; simp [List.mem_append.mpr (Or.inl h1)])
      · rcases List.mem_cons.mp h1 with rfl | h2
        · intro hcon
          simp only at hcon
          omega
        · exact hns0 r (by rw [hl]; simp [h2])
    · rw [hedge]
      intro r hr
      rcases List.mem_append.mp hr with h1 | h1
      · have := hgap r h1
        intro hcon
        omega
      · rcases List.mem_cons.mp h1 with rfl | h2
        · intro hcon
          simp only at hcon
          omega
        · have := hFge r h2
          have := hrok.1
          intro hcon
          unfold RCNEXT at *
          omega

/-- merge_center with a stored center record: delete center and right, then
extend left over the whole range. -/
theorem merge_center_stored_spec (agsz : Nat) (l X F : List xfs_refcount_irec)
    (left center right : xfs_refcount_irec) (agbno aglen : Nat)
    (hsh : ShWF agsz l)
    (hl : l = X ++ left :: center :: right :: F)
    (hln : RCNEXT left = agbno)
    (hcs : center.rc_startblock = agbno)
    (hcl : center.rc_blockcount = aglen)
    (hrs : right.rc_startblock = agbno + aglen)
    (haglen : 0 < aglen) :
    merge_center l left center
        (left.rc_blockcount + center.rc_blockcount + right.rc_blockcount) =
      .ok (X ++ { left with rc_blockcount :=
          left.rc_blockcount + center.rc_blockcount + right.rc_blockcount } :: F) ∧
    ShWF agsz (X ++ { left with rc_blockcount :=
        left.rc_blockcount + center.rc_blockcount + right.rc_blockcount } :: F) := by
  obtain ⟨hshX, hshB, hcross⟩ := shwf_split agsz X (left :: center :: right :: F) (hl ▸ hsh)
  have hB := (shwf_iff agsz _).mp hshB
  have hlok : RcRecOK agsz left := hB.2 left (by simp)
  have hcok : RcRecOK agsz center := hB.2 center (by simp)
  have hrok : RcRecOK agsz right := hB.2 right (by simp)
  have hFok : ∀ f ∈ F, RcRecOK agsz f := fun f hf => hB.2 f (by simp [hf])
  have hpw1 := List.pairwise_cons.mp hB.1
  have hpw2 := List.pairwise_cons.mp hpw1.2
  have hpw3 := List.pairwise_cons.mp hpw2.2
  have hFge : ∀ f ∈ F, RCNEXT right ≤ f.rc_startblock := fun f hf => hpw3.1 f hf
  have hshF : ShWF agsz F := by
    rw [shwf_iff]
    exact ⟨hpw3.2, fun r hr => hB.2 r (by simp [hr])⟩
  have hXle : ∀ x ∈ X, RCNEXT x ≤ left.rc_startblock := by
    intro x hx
    exact hcross x hx left (by simp)
  have hlstart : left.rc_startblock < agbno := by
    have := hlok.1
    unfold RCNEXT at hln
    omega
  have hbefore := rcBefore_compute (X ++ [left]) (center :: right :: F)
    center.rc_startblock
    (by
      intro a ha
      rcases List.mem_append.mp ha with h1 | h1
      · have := hXle a h1
        unfold RCNEXT at this
        omega
      · rw [List.mem_singleton] at h1
        rw [h1, hcs]
        exact hlstart)
    (by
      intro b hb
      rw [List.head?_cons, Option.mem_some_iff] at hb
      rw [← hb])
  have hl1 : l = (X ++ [left]) ++ center :: right :: F := by
    rw [hl]
    simp
  have hgt : center.rc_refcount > 1 := by
    have := hcok.2.2
    omega
  have hupd : rcUpdateAtLE (X ++ left :: F) left.rc_startblock
      { left with rc_blockcount :=
        left.rc_blockcount + center.rc_blockcount + right.rc_blockcount } =
      .ok (X ++ { left with rc_blockcount :=
        left.rc_blockcount + center.rc_blockcount + right.rc_blockcount } :: F) := by
    exact rcUpdateAtLE_eq X F left _
      (by
        intro a ha
        have := hXle a ha
        unfold RCNEXT at this
        omega)
      (by
        intro b hb
        have hbm : b ∈ F := List.mem_of_mem_head? hb
        have h1 := hFge b hbm
        have := hrok.1
        unfold RCNEXT at h1
        omega)
  constructor
  · unfold merge_center
    rw [hl1]
    simp only [hbefore.1, hbefore.2, if_pos hgt, ok_bind]
    have hlist : (X ++ [left]) ++ F = X ++ left :: F := by simp
    rw [hlist, hupd]
  · refine shwf_append agsz left.rc_startblock X _ hshX ?_ hXle ?_
    · refine shwf_append agsz (RCNEXT right) [_] F (shwf_singleton agsz _ ?_) hshF ?_ hFge
      · refine ⟨?_, ?_, by simpa using hlok.2.2⟩
        · simp
          have := hlok.1
          omega
        · show left.rc_startblock +
            (left.rc_blockcount + center.rc_blockcount + right.rc_blockcount) ≤ agsz
          have := hrok.2.1
          unfold RCNEXT at this hln
          omega
      · intro a ha
        rw [List.mem_singleton] at ha
        rw [ha]
        show left.rc_startblock +
          (left.rc_blockcount + center.rc_blockcount + right.rc_blockcount) ≤ RCNEXT right
        unfold RCNEXT at hln ⊢
        omega
    · intro b hb
      rcases List.mem_cons.mp hb with rfl | hb2
      · exact Nat.le_refl _
      · have h1 := hFge b hb2
        have h2 := hrok.1
        unfold RCNEXT at h1 hln
        omega

/-- merge_center with an implied (refcount-1, unstored) center: delete right
and extend left over the whole range. -/
theorem merge_center_implied_spec (agsz : Nat) (l X F : List xfs_refcount_irec)
    (left center right : xfs_refcount_irec) (agbno aglen : Nat)
    (hsh : ShWF agsz l)
    (hl : l = X ++ left :: right :: F)
    (hln : RCNEXT left = agbno)
    (hcs : center.rc_startblock = agbno)
    (hcl : center.rc_blockcount = aglen)
    (hc1 : ¬ center.rc_refcount > 1)
    (hrs : right.rc_startblock = agbno + aglen)
    (haglen : 0 < aglen) :
    merge_center l left center
        (left.rc_blockcount + center.rc_blockcount + right.rc_blockcount) =
      .ok (X ++ { left with rc_blockcount :=
          left.rc_blockcount + center.rc_blockcount + right.rc_blockcount } :: F) ∧
    ShWF agsz (X ++ { left with rc_blockcount :=
        left.rc_blockcount + center.rc_blockcount + right.rc_blockcount } :: F) := by
  obtain ⟨hshX, hshB, hcross⟩ := shwf_split agsz X (left :: right :: F) (hl ▸ hsh)
  have hB := (shwf_iff agsz _).mp hshB
  have hlok : RcRecOK agsz left := hB.2 left (by simp)
  have hrok : RcRecOK agsz right := hB.2 right (by simp)
  have hpw1 := List.pairwise_cons.mp hB.1
  have hpw2 := List.pairwise_cons.mp hpw1.2
  have hFge : ∀ f ∈ F, RCNEXT right ≤ f.rc_startblock := fun f hf => hpw2.1 f hf
  have hshF : ShWF agsz F := by
    rw [shwf_iff]
    exact ⟨hpw2.2, fun r hr => hB.2 r (by simp [hr])⟩
  have hXle : ∀ x ∈ X, RCNEXT x ≤ left.rc_startblock := by
    intro x hx
    exact hcross x hx left (by simp)
  have hlstart : left.rc_startblock < agbno := by
    have := hlok.1
    unfold RCNEXT at hln
    omega
  have hbefore := rcBefore_compute (X ++ [left]) (right :: F) center.rc_startblock
    (by
      intro a ha
      rcases List.mem_append.mp ha with h1 | h1
      · have := hXle a h1
        unfold RCNEXT at this
        omega
      · rw [List.mem_singleton] at h1
        rw [h1, hcs]
        exact hlstart)
    (by
      intro b hb
      rw [List.head?_cons, Option.mem_some_iff] at hb
      rw [← hb, hrs, hcs]
      omega)
  have hl1 : l = (X ++ [left]) ++ right :: F := by
    rw [hl]
    simp
  have hupd : rcUpdateAtLE (X ++ left :: F) left.rc_startblock
      { left with rc_blockcount :=
        left.rc_blockcount + center.rc_blockcount + right.rc_blockcount } =
      .ok (X ++ { left with rc_blockcount :=
        left.rc_blockcount + center.rc_blockcount + right.rc_blockcount } :: F) := by
    exact rcUpdateAtLE_eq X F left _
      (by
        intro a ha
        have := hXle a ha
        unfold RCNEXT at this
        omega)
      (by
        intro b hb
        have hbm : b ∈ F := List.mem_of_mem_head? hb
        have h1 := hFge b hbm
        have := hrok.1
        unfold RCNEXT at h1
        omega)
  constructor
  · unfold merge_center
    rw [hl1]
    simp only [hbefore.1, hbefore.2, if_neg hc1, ok_bind]
    have hlist : (X ++ [left]) ++ F = X ++ left :: F := by simp
    rw [hlist, hupd]
  · refine shwf_append agsz left.rc_startblock X _ hshX ?_ hXle ?_
    · refine shwf_append agsz (RCNEXT right) [_] F (shwf_singleton agsz _ ?_) hshF ?_ hFge
      · refine ⟨?_, ?_, by simpa using hlok.2.2⟩
        · simp
          have := hlok.1
          omega
        · show left.rc_startblock +
            (left.rc_blockcount + center.rc_blockcount + right.rc_blockcount) ≤ agsz
          have := hrok.2.1
          unfold RCNEXT at this hln
          omega
      · intro a ha
        rw [List.mem_singleton] at ha
        rw [ha]
        show left.rc_startblock +
          (left.rc_blockcount + center.rc_blockcount + right.rc_blockcount) ≤ RCNEXT right
        unfold RCNEXT at hln ⊢
        omega
    · intro b hb
      rcases List.mem_cons.mp hb with rfl | hb2
      · exact Nat.le_refl _
      · have h1 := hFge b hb2
        have h2 := hrok.1
        unfold RCNEXT at h1 hln
        omega

theorem sep_of_split (l A B : List xfs_refcount_irec) (x y : xfs_refcount_irec)
    (hpw : l.Pairwise RcSep) (hl : l = A ++ x :: B) (hy : y ∈ B) : RcSep x y := by
  rw [hl, List.pairwise_append] at hpw
  exact (List.pairwise_cons.mp hpw.2.1).1 y hy

set_option maxHeartbeats 1000000 in
/-- try_merge_rcextents on a purely-shared well-formed segment context:
the result is well-formed, the range only shrinks, and when the remaining
range is nonempty no record straddles its edges. -/
theorem try_merge_spec (agsz : Nat) (l : List xfs_refcount_irec) (agbno aglen : Nat)
    (adjust : Int)
    (hseg : SegOK agsz l agbno aglen) (haglen : 0 < aglen)
    (l' : List xfs_refcount_irec) (agbno' aglen' : Nat)
    (hok : try_merge_rcextents l agbno aglen adjust .shared = .ok (l', agbno', aglen')) :
    ShWF agsz l' ∧ agbno ≤ agbno' ∧ agbno' + aglen' ≤ agbno + aglen ∧
    (aglen' ≠ 0 → NoStraddle l' agbno' ∧ NoStraddle l' (agbno' + aglen')) := by
  obtain ⟨hsh, hns0, hns1, hsz⟩ := hseg
  have hpwl := ((shwf_iff agsz l).mp hsh).1
  have hmeml := ((shwf_iff agsz l).mp hsh).2
  cases hfl : find_left_extent l agbno aglen FindRcFlag.shared with
  | mk left cleft =>
  cases hfr : find_right_extent l agbno aglen FindRcFlag.shared with
  | mk right cright =>
  unfold try_merge_rcextents at hok
  simp only [hfl, hfr] at hok
  by_cases hz : left.rc_blockcount = 0 ∧ right.rc_blockcount = 0
  · rw [if_pos hz] at hok
    simp only [Except.ok.injEq, Prod.mk.injEq] at hok
    obtain ⟨e1, e2, e3⟩ := hok
    subst e1
    subst e2
    subst e3
    exact ⟨hsh, Nat.le_refl _, Nat.le_refl _, fun _ => ⟨hns0, hns1⟩⟩
  · rw [if_neg hz] at hok
    by_cases hcb : left.rc_blockcount ≠ 0 ∧ right.rc_blockcount ≠ 0 ∧
        cleft.rc_blockcount ≠ 0 ∧ cright.rc_blockcount ≠ 0 ∧
        (cleft.rc_startblock = cright.rc_startblock ∧
          cleft.rc_blockcount = cright.rc_blockcount) ∧
        left.rc_refcount = adjRc cleft.rc_refcount adjust ∧
        right.rc_refcount = adjRc cleft.rc_refcount adjust ∧
        left.rc_blockcount + cleft.rc_blockcount + right.rc_blockcount < MAXREFCEXTLEN
    · -- center merge branch
      rw [if_pos hcb] at hok
      obtain ⟨hlne, hrne, hclne, hcrne, ⟨hceq1, hceq2⟩, hlrcM, hrrcM, hsum⟩ := hcb
      obtain ⟨X, M, hlX, hlnext, hlrc, hlpos, hXle, hMge, hcls, hclp, hclla, hcldisp⟩ :=
        find_left_spec agsz l agbno aglen ⟨hsh, hns0, hns1, hsz⟩ haglen left cleft hfl hlne
      obtain ⟨P, F, hrP, hrst, hrrc, hrpos, hPle, hFge, hcrn, hcrp, hcrb, hcrdisp⟩ :=
        find_right_spec agsz l agbno aglen ⟨hsh, hns0, hns1, hsz⟩ haglen right cright hfr hrne
      have hlstart : left.rc_startblock < agbno := by
        unfold RCNEXT at hlnext
        omega
      have hcll : cleft.rc_blockcount = aglen := by
        unfold RCNEXT at hcrn
        omega
      obtain ⟨Mid, hPdec, hMdec⟩ :=
        sorted_two_splits agsz X l M P F left right hsh hlX hrP (by omega)
      rcases hcldisp with ⟨M₁, hM₁⟩ | ⟨hclrc, hclgap, hclX⟩
      · -- stored center
        cases Mid with
        | nil =>
          exfalso
          rw [hM₁] at hMdec
          simp at hMdec
          have : cleft.rc_startblock = right.rc_startblock := by rw [hMdec.1]
          omega
        | cons m Mid₁ =>
          rw [hM₁] at hMdec
          simp at hMdec
          obtain ⟨hmeq, hM₁eq⟩ := hMdec
          cases Mid₁ with
          | cons q Mid₂ =>
            exfalso
            have hql : l = (X ++ [left, cleft]) ++ q :: (Mid₂ ++ right :: F) := by
              rw [hlX, hM₁, hM₁eq]
              simp
            have hqmem : q ∈ l := by
              rw [hql]
              simp
            have hqok : RcRecOK agsz q := hmeml q hqmem
            have hsep1 : RcSep cleft q := by
              refine sep_of_split l (X ++ [left]) (q :: (Mid₂ ++ right :: F)) cleft q hpwl ?_ (by simp)
              rw [hlX, hM₁, hM₁eq]
              simp
            have hsep2 : RcSep q right := by
              refine sep_of_split l (X ++ [left, cleft]) (Mid₂ ++ right :: F) q right hpwl hql ?_
              simp
            unfold RcSep RCNEXT at hsep1 hsep2
            have := hqok.1
            omega
          | nil =>
            have hlfull : l = X ++ left :: cleft :: right :: F := by
              rw [hlX, hM₁, hM₁eq]
              simp
            obtain ⟨hmc1, hmc2⟩ := merge_center_stored_spec agsz l X F left cleft right
              agbno aglen hsh hlfull hlnext hcls hcll hrst haglen
            rw [hmc1] at hok
            simp only [ok_bind, Except.ok.injEq, Prod.mk.injEq] at hok
            obtain ⟨e1, e2, e3⟩ := hok
            subst e1
            subst e2
            subst e3
            exact ⟨hmc2, Nat.le_refl _, by omega, fun h => absurd rfl h⟩
      · -- implied center
        cases Mid with
        | cons m Mid₁ =>
          exfalso
          have hmM : m ∈ M := by
            rw [hMdec]
            simp
          have h1 := hclgap m hmM
          have hml : l = (X ++ [left]) ++ m :: (Mid₁ ++ right :: F) := by
            rw [hlX, hMdec]
            simp
          have hmok : RcRecOK agsz m := hmeml m (by rw [hml]; simp)
          have hsep2 : RcSep m right := by
            refine sep_of_split l (X ++ [left]) (Mid₁ ++ right :: F) m right hpwl hml ?_
            simp
          unfold RcSep RCNEXT at hsep2
          have := hmok.1
          omega
        | nil =>
          have hMrf : M = right :: F := by simpa using hMdec
          have hlfull : l = X ++ left :: right :: F := by rw [hlX, hMrf]
          have hc1 : ¬ (cleft.rc_refcount > 1) := by omega
          obtain ⟨hmc1, hmc2⟩ := merge_center_implied_spec agsz l X F left cleft right
            agbno aglen hsh hlfull hlnext hcls hcll hc1 hrst haglen
          rw [hmc1] at hok
          simp only [ok_bind, Except.ok.injEq, Prod.mk.injEq] at hok
          obtain ⟨e1, e2, e3⟩ := hok
          subst e1
          subst e2
          subst e3
          exact ⟨hmc2, Nat.le_refl _, by omega, fun h => absurd rfl h⟩
    · -- no center merge
      rw [if_neg hcb] at hok
      by_cases hlb : left.rc_blockcount ≠ 0 ∧ cleft.rc_blockcount ≠ 0 ∧
          left.rc_refcount = adjRc cleft.rc_refcount adjust ∧
          left.rc_blockcount + cleft.rc_blockcount < MAXREFCEXTLEN
      · -- left merge fires
        rw [if_pos hlb] at hok
        obtain ⟨hlne, hclne, hlrcM, hsumL⟩ := hlb
        obtain ⟨X, M, hlX, hlnext, hlrc, hlpos, hXle, hMge, hcls, hclp, hclla, hcldisp⟩ :=
          find_left_spec agsz l agbno aglen ⟨hsh, hns0, hns1, hsz⟩ haglen left cleft hfl hlne
        have hlstart : left.rc_startblock < agbno := by
          unfold RCNEXT at hlnext
          omega
        have hrcnle : RCNEXT cleft ≤ agsz := by
          unfold RCNEXT
          omega
        have hdisp' : (∃ M₁, M = cleft :: M₁) ∨
            (cleft.rc_refcount = 1 ∧
              ∀ z ∈ M, agbno + cleft.rc_blockcount ≤ z.rc_startblock) := by
          rcases hcldisp with h | ⟨h1, h2, h3⟩
          · exact Or.inl h
          · exact Or.inr ⟨h1, h2⟩
        obtain ⟨Rst, hml, hRdisp, hshL2, hRge⟩ :=
          merge_left_spec agsz l X M left cleft agbno aglen hsh hlX hlnext hlpos hcls hclp
            hrcnle hdisp'
        rw [hml] at hok
        simp only [ok_bind] at hok
        have hRstM : ∀ z ∈ Rst, z ∈ M := by
          rcases hRdisp with h | ⟨-, h⟩
          · intro z hz
            rw [h]
            exact List.mem_cons_of_mem _ hz
          · intro z hz
            rw [← h]
            exact hz
        have hns20 : NoStraddle
            (X ++ { left with
              rc_blockcount := left.rc_blockcount + cleft.rc_blockcount } :: Rst)
            (agbno + cleft.rc_blockcount) := by
          intro r hr hcon
          rcases List.mem_append.mp hr with h1 | h1
          · have := hXle r h1
            unfold RCNEXT at this hcon
            omega
          · rcases List.mem_cons.mp h1 with rfl | h2
            · unfold RCNEXT at hcon
              simp only at hcon
              unfold RCNEXT at hlnext
              omega
            · have := hRge r h2
              unfold RCNEXT at hcon
              omega
        have hns21 : NoStraddle
            (X ++ { left with
              rc_blockcount := left.rc_blockcount + cleft.rc_blockcount } :: Rst)
            (agbno + aglen) := by
          intro r hr hcon
          rcases List.mem_append.mp hr with h1 | h1
          · have := hXle r h1
            unfold RCNEXT at this hcon hlnext
            omega
          · rcases List.mem_cons.mp h1 with rfl | h2
            · unfold RCNEXT at hcon
              simp only at hcon
              unfold RCNEXT at hlnext
              omega
            · exact hns1 r (by rw [hlX]; exact List.mem_append.mpr (Or.inr
                (List.mem_cons_of_mem _ (hRstM r h2)))) hcon
        by_cases hceq : cleft.rc_startblock = cright.rc_startblock ∧
            cleft.rc_blockcount = cright.rc_blockcount
        · rw [if_pos hceq] at hok
          simp only [Except.ok.injEq, Prod.mk.injEq] at hok
          obtain ⟨e1, e2, e3⟩ := hok
          subst e1
          subst e2
          subst e3
          refine ⟨hshL2, by omega, by omega, fun _ => ⟨hns20, ?_⟩⟩
          have hE : agbno + cleft.rc_blockcount + (aglen - cleft.rc_blockcount) =
              agbno + aglen := by omega
          rw [hE]
          exact hns21
        · rw [if_neg hceq] at hok
          unfold try_merge_right_part at hok
          by_cases hrb : right.rc_blockcount ≠ 0 ∧ cright.rc_blockcount ≠ 0 ∧
              right.rc_refcount = adjRc cright.rc_refcount adjust ∧
              right.rc_blockcount + cright.rc_blockcount < MAXREFCEXTLEN
          · rw [if_pos hrb] at hok
            obtain ⟨hrne, hcrne, hrrcM, hsumR⟩ := hrb
            obtain ⟨P, F, hrP, hrst, hrrc, hrpos, hPle, hFge, hcrn, hcrp, hcrb, hcrdisp⟩ :=
              find_right_spec agsz l agbno aglen ⟨hsh, hns0, hns1, hsz⟩ haglen right cright
                hfr hrne
            rcases hcrdisp with ⟨P₀, hP₀⟩ | ⟨hcrrc, hcrgap, hcrX⟩
            · -- stored cright: it sits directly before right
              have hlP0 : l = P₀ ++ cright :: (right :: F) := by
                rw [hrP, hP₀]
                simp
              have hlc : left.rc_startblock < cright.rc_startblock := by omega
              obtain ⟨Mid₂, hP₀dec, hMdec₂⟩ :=
                sorted_two_splits agsz X l M P₀ (right :: F) left cright hsh hlX hlP0 hlc
              rcases hcldisp with ⟨M₁, hM₁⟩ | ⟨hclrc, hclgap, hclX⟩
              · -- stored cleft
                cases Mid₂ with
                | nil =>
                  exfalso
                  rw [hM₁] at hMdec₂
                  simp at hMdec₂
                  exact hceq ⟨by rw [hMdec₂.1], by rw [hMdec₂.1]⟩
                | cons m Mid₃ =>
                  rw [hM₁] at hMdec₂
                  simp at hMdec₂
                  obtain ⟨hmeq, hM₁eq⟩ := hMdec₂
                  have hclmem : cleft ∈ l := by
                    rw [hlX, hM₁]
                    simp
                  have hclrc2 : 2 ≤ cleft.rc_refcount := (hmeml cleft hclmem).2.2
                  have hRstEq : Rst = M₁ := by
                    rcases hRdisp with h | ⟨h1, -⟩
                    · rw [hM₁] at h
                      simp at h
                      exact h.symm
                    · exact absurd h1 (by omega)
                  have hsep : RcSep cleft cright := by
                    refine sep_of_split l (X ++ [left]) (Mid₃ ++ cright :: right :: F)
                      cleft cright hpwl ?_ (by simp)
                    rw [hlX, hM₁, hM₁eq]
                    simp
                  have hcb2 : agbno + cleft.rc_blockcount ≤ cright.rc_startblock := by
                    unfold RcSep RCNEXT at hsep
                    omega
                  have hl₂ : X ++ { left with
                      rc_blockcount := left.rc_blockcount + cleft.rc_blockcount } :: Rst =
                      ((X ++ { left with
                        rc_blockcount := left.rc_blockcount + cleft.rc_blockcount } ::
                        Mid₃) ++ [cright]) ++ right :: F := by
                    rw [hRstEq, hM₁eq]
                    simp
                  have hrs2 : right.rc_startblock =
                      (agbno + cleft.rc_blockcount) + (aglen - cleft.rc_blockcount) := by
                    omega
                  have hcn2 : RCNEXT cright =
                      (agbno + cleft.rc_blockcount) + (aglen - cleft.rc_blockcount) := by
                    unfold RCNEXT at hcrn ⊢
                    omega
                  obtain ⟨l₃, hmr, hsh₃, hnsA, hnsB⟩ :=
                    merge_right_spec agsz _ _ F right cright
                      (agbno + cleft.rc_blockcount) (aglen - cleft.rc_blockcount)
                      hshL2 hl₂ hns20 hrs2 hcn2 hcrp hcb2
                      (Or.inl ⟨X ++ { left with
                        rc_blockcount := left.rc_blockcount + cleft.rc_blockcount } ::
                        Mid₃, rfl⟩)
                  rw [hmr] at hok
                  simp only [Except.ok.injEq, Prod.mk.injEq] at hok
                  obtain ⟨e1, e2, e3⟩ := hok
                  subst e1
                  subst e2
                  subst e3
                  exact ⟨hsh₃, by omega, by omega, fun _ => ⟨hnsA, hnsB⟩⟩
              · -- implied cleft with stored cright
                have hRstEq : Rst = M := by
                  rcases hRdisp with h | ⟨-, h⟩
                  · exact absurd ((hmeml cleft (by rw [hlX, h]; simp)).2.2) (by omega)
                  · exact h
                have hcrM : cright ∈ M := by
                  rw [hMdec₂]
                  simp
                have hcb2 : agbno + cleft.rc_blockcount ≤ cright.rc_startblock :=
                  hclgap cright hcrM
                have hl₂ : X ++ { left with
                    rc_blockcount := left.rc_blockcount + cleft.rc_blockcount } :: Rst =
                    ((X ++ { left with
                      rc_blockcount := left.rc_blockcount + cleft.rc_blockcount } ::
                      Mid₂) ++ [cright]) ++ right :: F := by
                  rw [hRstEq, hMdec₂]
                  simp
                have hrs2 : right.rc_startblock =
                    (agbno + cleft.rc_blockcount) + (aglen - cleft.rc_blockcount) := by
                  omega
                have hcn2 : RCNEXT cright =
                    (agbno + cleft.rc_blockcount) + (aglen - cleft.rc_blockcount) := by
                  unfold RCNEXT at hcrn ⊢
                  omega
                obtain ⟨l₃, hmr, hsh₃, hnsA, hnsB⟩ :=
                  merge_right_spec agsz _ _ F right cright
                    (agbno + cleft.rc_blockcount) (aglen - cleft.rc_blockcount)
                    hshL2 hl₂ hns20 hrs2 hcn2 hcrp hcb2
                    (Or.inl ⟨X ++ { left with
                      rc_blockcount := left.rc_blockcount + cleft.rc_blockcount } ::
                      Mid₂, rfl⟩)
                rw [hmr] at hok
                simp only [Except.ok.injEq, Prod.mk.injEq] at hok
                obtain ⟨e1, e2, e3⟩ := hok
                subst e1
                subst e2
                subst e3
                exact ⟨hsh₃, by omega, by omega, fun _ => ⟨hnsA, hnsB⟩⟩
            · -- implied cright
              obtain ⟨Mid, hPdec, hMdec⟩ :=
                sorted_two_splits agsz X l M P F left right hsh hlX hrP (by omega)
              rcases hcldisp with ⟨M₁, hM₁⟩ | ⟨hclrc, hclgap, hclX⟩
              · -- stored cleft with implied cright
                cases Mid with
                | nil =>
                  exfalso
                  rw [hM₁] at hMdec
                  simp at hMdec
                  have : cleft.rc_startblock = right.rc_startblock := by rw [hMdec.1]
                  omega
                | cons m Mid₁ =>
                  rw [hM₁] at hMdec
                  simp at hMdec
                  obtain ⟨hmeq, hM₁eq⟩ := hMdec
                  have hclmem : cleft ∈ l := by
                    rw [hlX, hM₁]
                    simp
                  have hclrc2 : 2 ≤ cleft.rc_refcount := (hmeml cleft hclmem).2.2
                  have hRstEq : Rst = M₁ := by
                    rcases hRdisp with h | ⟨h1, -⟩
                    · rw [hM₁] at h
                      simp at h
                      exact h.symm
                    · exact absurd h1 (by omega)
                  have hclmemP : cleft ∈ P := by
                    rw [hPdec, hmeq]
                    simp
                  have hcb2 : agbno + cleft.rc_blockcount ≤ cright.rc_startblock := by
                    have := hcrgap cleft hclmemP
                    unfold RCNEXT at this
                    omega
                  have hl₂ : X ++ { left with
                      rc_blockcount := left.rc_blockcount + cleft.rc_blockcount } :: Rst =
                      (X ++ { left with
                        rc_blockcount := left.rc_blockcount + cleft.rc_blockcount } ::
                        Mid₁) ++ right :: F := by
                    rw [hRstEq, hM₁eq]
                    simp
                  have hC : ∀ c ∈ X ++ { left with
                      rc_blockcount := left.rc_blockcount + cleft.rc_blockcount } :: Mid₁,
                      RCNEXT c ≤ cright.rc_startblock := by
                    intro c hc
                    rcases List.mem_append.mp hc with h1 | h1
                    · have := hXle c h1
                      unfold RCNEXT at this hlnext ⊢
                      omega
                    · rcases List.mem_cons.mp h1 with rfl | h2
                      · show left.rc_startblock + (left.rc_blockcount + cleft.rc_blockcount) ≤
                          cright.rc_startblock
                        unfold RCNEXT at hlnext
                        omega
                      · have hcP : c ∈ P := by
                          rw [hPdec]
                          simp [h2]
                        exact hcrgap c hcP
                  have hrs2 : right.rc_startblock =
                      (agbno + cleft.rc_blockcount) + (aglen - cleft.rc_blockcount) := by
                    omega
                  have hcn2 : RCNEXT cright =
                      (agbno + cleft.rc_blockcount) + (aglen - cleft.rc_blockcount) := by
                    unfold RCNEXT at hcrn ⊢
                    omega
                  obtain ⟨l₃, hmr, hsh₃, hnsA, hnsB⟩ :=
                    merge_right_spec agsz _ _ F right cright
                      (agbno + cleft.rc_blockcount) (aglen - cleft.rc_blockcount)
                      hshL2 hl₂ hns20 hrs2 hcn2 hcrp hcb2 (Or.inr ⟨hcrrc, hC⟩)
                  rw [hmr] at hok
                  simp only [Except.ok.injEq, Prod.mk.injEq] at hok
                  obtain ⟨e1, e2, e3⟩ := hok
                  subst e1
                  subst e2
                  subst e3
                  exact ⟨hsh₃, by omega, by omega, fun _ => ⟨hnsA, hnsB⟩⟩
              · -- implied cleft with implied cright
                have hRstEq : Rst = M := by
                  rcases hRdisp with h | ⟨-, h⟩
                  · exact absurd ((hmeml cleft (by rw [hlX, h]; simp)).2.2) (by omega)
                  · exact h
                have hfullcontra : cleft.rc_blockcount = aglen → False := by
                  intro hfull
                  cases Mid with
                  | cons m Mid₁ =>
                    have hmM : m ∈ M := by
                      rw [hMdec]
                      simp
                    have h1 := hclgap m hmM
                    have hml : l = (X ++ [left]) ++ m :: (Mid₁ ++ right :: F) := by
                      rw [hlX, hMdec]
                      simp
                    have hmok := hmeml m (by rw [hml]; simp)
                    have hsep2 : RcSep m right :=
                      sep_of_split l (X ++ [left]) (Mid₁ ++ right :: F) m right hpwl hml
                        (by simp)
                    unfold RcSep RCNEXT at hsep2
                    have := hmok.1
                    omega
                  | nil =>
                    have hcrsa : cright.rc_startblock = agbno := by
                      rcases hcrX with h | ⟨p, hp, hpe⟩
                      · exact h
                      · have hple : RCNEXT p ≤ agbno := by
                          rw [hPdec] at hp
                          rcases List.mem_append.mp hp with h1 | h1
                          · have := hXle p h1
                            unfold RCNEXT at this hlnext ⊢
                            omega
                          · have hpl : p = left := by simpa using h1
                            rw [hpl, hlnext]
                        omega
                    apply hceq
                    refine ⟨by omega, ?_⟩
                    unfold RCNEXT at hcrn
                    omega
                have hcb2 : agbno + cleft.rc_blockcount ≤ cright.rc_startblock := by
                  rcases hclX with hfull | ⟨z, hzM, hzeq⟩
                  · exact (hfullcontra hfull).elim
                  · have hzl : z ∈ l := by
                      rw [hlX]
                      exact List.mem_append.mpr (Or.inr (List.mem_cons_of_mem _ hzM))
                    rw [hMdec] at hzM
                    rcases List.mem_append.mp hzM with hzMid | hzRF
                    · have hzP : z ∈ P := by
                        rw [hPdec]
                        simp [hzMid]
                      have h1 := hcrgap z hzP
                      unfold RCNEXT at h1
                      omega
                    · rcases List.mem_cons.mp hzRF with rfl | hzF
                      · exact (hfullcontra (by omega)).elim
                      · have h1 := hFge z hzF
                        unfold RCNEXT at h1
                        omega
                have hl₂ : X ++ { left with
                    rc_blockcount := left.rc_blockcount + cleft.rc_blockcount } :: Rst =
                    (X ++ { left with
                      rc_blockcount := left.rc_blockcount + cleft.rc_blockcount } ::
                      Mid) ++ right :: F := by
                  rw [hRstEq, hMdec]
                  simp
                have hC : ∀ c ∈ X ++ { left with
                    rc_blockcount := left.rc_blockcount + cleft.rc_blockcount } :: Mid,
                    RCNEXT c ≤ cright.rc_startblock := by
                  intro c hc
                  rcases List.mem_append.mp hc with h1 | h1
                  · have := hXle c h1
                    unfold RCNEXT at this hlnext ⊢
                    omega
                  · rcases List.mem_cons.mp h1 with rfl | h2
                    · show left.rc_startblock + (left.rc_blockcount + cleft.rc_blockcount) ≤
                        cright.rc_startblock
                      unfold RCNEXT at hlnext
                      omega
                    · have hcP : c ∈ P := by
                        rw [hPdec]
                        simp [h2]
                      exact hcrgap c hcP
                have hrs2 : right.rc_startblock =
                    (agbno + cleft.rc_blockcount) + (aglen - cleft.rc_blockcount) := by
                  omega
                have hcn2 : RCNEXT cright =
                    (agbno + cleft.rc_blockcount) + (aglen - cleft.rc_blockcount) := by
                  unfold RCNEXT at hcrn ⊢
                  omega
                obtain ⟨l₃, hmr, hsh₃, hnsA, hnsB⟩ :=
                  merge_right_spec agsz _ _ F right cright
                    (agbno + cleft.rc_blockcount) (aglen - cleft.rc_blockcount)
                    hshL2 hl₂ hns20 hrs2 hcn2 hcrp hcb2 (Or.inr ⟨hcrrc, hC⟩)
                rw [hmr] at hok
                simp only [Except.ok.injEq, Prod.mk.injEq] at hok
                obtain ⟨e1, e2, e3⟩ := hok
                subst e1
                subst e2
                subst e3
                exact ⟨hsh₃, by omega, by omega, fun _ => ⟨hnsA, hnsB⟩⟩
          · rw [if_neg hrb] at hok
            simp only [Except.ok.injEq, Prod.mk.injEq] at hok
            obtain ⟨e1, e2, e3⟩ := hok
            subst e1
            subst e2
            subst e3
            refine ⟨hshL2, by omega, by omega, fun _ => ⟨hns20, ?_⟩⟩
            have hE : agbno + cleft.rc_blockcount + (aglen - cleft.rc_blockcount) =
                agbno + aglen := by omega
            rw [hE]
            exact hns21
      · -- no left merge: right-part on the original index
        rw [if_neg hlb] at hok
        unfold try_merge_right_part at hok
        by_cases hrb : right.rc_blockcount ≠ 0 ∧ cright.rc_blockcount ≠ 0 ∧
            right.rc_refcount = adjRc cright.rc_refcount adjust ∧
            right.rc_blockcount + cright.rc_blockcount < MAXREFCEXTLEN
        · rw [if_pos hrb] at hok
          obtain ⟨hrne, hcrne, hrrcM, hsumR⟩ := hrb
          obtain ⟨P, F, hrP, hrst, hrrc, hrpos, hPle, hFge, hcrn, hcrp, hcrb, hcrdisp⟩ :=
            find_right_spec agsz l agbno aglen ⟨hsh, hns0, hns1, hsz⟩ haglen right cright
              hfr hrne
          have hdispR : (∃ C₀, P = C₀ ++ [cright]) ∨
              (cright.rc_refcount = 1 ∧ ∀ c ∈ P, RCNEXT c ≤ cright.rc_startblock) := by
            rcases hcrdisp with h | ⟨h1, h2, h3⟩
            · exact Or.inl h
            · exact Or.inr ⟨h1, h2⟩
          obtain ⟨l₃, hmr, hsh₃, hnsA, hnsB⟩ :=
            merge_right_spec agsz l P F right cright agbno aglen hsh hrP hns0 hrst hcrn
              hcrp hcrb hdispR
          rw [hmr] at hok
          simp only [Except.ok.injEq, Prod.mk.injEq] at hok
          obtain ⟨e1, e2, e3⟩ := hok
          subst e1
          subst e2
          subst e3
          exact ⟨hsh₃, Nat.le_refl _, by omega, fun _ => ⟨hnsA, hnsB⟩⟩
        · rw [if_neg hrb] at hok
          simp only [Except.ok.injEq, Prod.mk.injEq] at hok
          obtain ⟨e1, e2, e3⟩ := hok
          subst e1
          subst e2
          subst e3
          exact ⟨hsh, Nat.le_refl _, Nat.le_refl _, fun _ => ⟨hns0, hns1⟩⟩

/-- One record disposition of the middle walk preserves well-formedness of
the assembled index and keeps the walked prefix left of the record's end. -/
theorem adjust_walk_rec_shwf (agsz : Nat) (adj : Int) (ext : xfs_refcount_irec)
    (acc rest' : List xfs_refcount_irec) (freed : List (Nat × Nat))
    (h : ShWF agsz (acc.reverse ++ ext :: rest'))
    (hacc : ∀ a ∈ acc, RCNEXT a ≤ ext.rc_startblock) :
    ShWF agsz ((adjust_walk_rec adj ext acc freed).1.reverse ++ rest') ∧
    (∀ a ∈ (adjust_walk_rec adj ext acc freed).1, RCNEXT a ≤ RCNEXT ext) := by
  obtain ⟨hshA, hshB, hcross⟩ := shwf_split agsz acc.reverse (ext :: rest') h
  have hB := (shwf_iff agsz _).mp hshB
  have hextok : RcRecOK agsz ext := hB.2 ext (by simp)
  have hrestge : ∀ b ∈ rest', RCNEXT ext ≤ b.rc_startblock := fun b hb =>
    (List.pairwise_cons.mp hB.1).1 b hb
  have hshrest : ShWF agsz rest' := by
    rw [shwf_iff]
    exact ⟨(List.pairwise_cons.mp hB.1).2, fun r hr => hB.2 r (by simp [hr])⟩
  have hkeepS : ShWF agsz ((ext :: acc).reverse ++ rest') := by
    have heq : (ext :: acc).reverse ++ rest' = acc.reverse ++ ext :: rest' := by simp
    rw [heq]
    exact h
  have hkeepB : ∀ a ∈ ext :: acc, RCNEXT a ≤ RCNEXT ext := by
    intro a ha
    rcases List.mem_cons.mp ha with rfl | h2
    · exact Nat.le_refl _
    · have h3 := hacc a h2
      unfold RCNEXT at h3 ⊢
      omega
  have hdelS : ShWF agsz (acc.reverse ++ rest') := by
    refine shwf_append agsz ext.rc_startblock acc.reverse rest' hshA hshrest ?_ ?_
    · intro a ha
      exact hacc a (List.mem_reverse.mp ha)
    · intro b hb
      have h3 := hrestge b hb
      unfold RCNEXT at h3
      omega
  have hdelB : ∀ a ∈ acc, RCNEXT a ≤ RCNEXT ext := by
    intro a ha
    have h3 := hacc a ha
    unfold RCNEXT at h3 ⊢
    omega
  simp only [adjust_walk_rec]
  by_cases h1 : ext.rc_refcount = MAXREFCOUNT
  · rw [if_pos h1]
    exact ⟨hkeepS, hkeepB⟩
  · rw [if_neg h1]
    by_cases h2 : adjRc ext.rc_refcount adj > 1
    · rw [if_pos h2]
      constructor
      · have heq : ({ ext with rc_refcount := adjRc ext.rc_refcount adj } ::
            acc).reverse ++ rest' =
            acc.reverse ++ ({ ext with rc_refcount := adjRc ext.rc_refcount adj } ::
              rest') := by simp
        rw [heq]
        refine shwf_append agsz ext.rc_startblock acc.reverse _ hshA ?_
          (fun a ha => hacc a (List.mem_reverse.mp ha)) ?_
        · refine shwf_append agsz (RCNEXT ext) [_] rest'
            (shwf_singleton agsz _ ?_) hshrest ?_ hrestge
          · refine ⟨hextok.1, ?_, by simpa using h2⟩
            show ext.rc_startblock + ext.rc_blockcount ≤ agsz
            exact hextok.2.1
          · intro a ha
            rw [List.mem_singleton] at ha
            rw [ha]
            exact Nat.le_refl _
        · intro b hb
          rcases List.mem_cons.mp hb with rfl | h3
          · exact Nat.le_refl _
          · have h4 := hrestge b h3
            unfold RCNEXT at h4
            omega
      · intro a ha
        rcases List.mem_cons.mp ha with rfl | h3
        · exact Nat.le_refl _
        · have h4 := hacc a h3
          unfold RCNEXT at h4 ⊢
          omega
    · rw [if_neg h2]
      by_cases h3 : adjRc ext.rc_refcount adj = 1
      · rw [if_pos h3]
        exact ⟨hdelS, hdelB⟩
      · rw [if_neg h3]
        exact ⟨hkeepS, hkeepB⟩

/-- The middle-extent walk preserves well-formedness: starting from a
well-formed split of the index at the cursor with no record straddling the
range end, a successful walk returns a well-formed index. -/
theorem adjust_walk_shwf (agsz : Nat) (adj : Int) (hadj : adj = 1 ∨ adj = -1) :
    ∀ (rest : List xfs_refcount_irec) (agbno aglen : Nat)
      (acc : List xfs_refcount_irec) (freed : List (Nat × Nat))
      (l' : List xfs_refcount_irec) (fr' : List (Nat × Nat)),
      ShWF agsz (acc.reverse ++ rest) →
      (∀ a ∈ acc, RCNEXT a ≤ agbno) →
      (∀ r ∈ rest, agbno ≤ r.rc_startblock) →
      NoStraddle rest (agbno + aglen) →
      agbno + aglen ≤ agsz →
      adjust_rcextents_walk agsz adj rest agbno aglen acc freed = .ok (l', fr') →
      ShWF agsz l' := by
  intro rest
  induction rest with
  | nil =>
    intro agbno aglen acc freed l' fr' hsh hacc hrest hns hsz hok
    rw [adjust_rcextents_walk_nil] at hok
    by_cases h1 : aglen = 0
    · rw [if_pos h1] at hok
      simp only [Except.ok.injEq, Prod.mk.injEq] at hok
      obtain ⟨e1, e2⟩ := hok
      subst e1
      exact hsh
    · rw [if_neg h1] at hok
      by_cases h2 : agsz ≠ agbno
      · rw [if_pos h2] at hok
        by_cases h3 : aglen - min aglen (agsz - agbno) = 0
        · rw [if_pos h3] at hok
          rcases hadj with ha | ha
          · subst ha
            have hrc2 : adjRc 1 (1 : Int) = 2 := rfl
            rw [hrc2] at hok
            have h4 : (2 : Nat) ≠ 0 := by omega
            rw [if_pos h4, if_pos h4] at hok
            simp only [Except.ok.injEq, Prod.mk.injEq] at hok
            obtain ⟨e1, e2⟩ := hok
            subst e1
            have heq : ((⟨agbno, min aglen (agsz - agbno), 2⟩ :
                xfs_refcount_irec) :: acc).reverse =
                acc.reverse ++ [⟨agbno, min aglen (agsz - agbno), 2⟩] := by simp
            rw [heq]
            refine shwf_append agsz agbno acc.reverse _ ?_
              (shwf_singleton agsz _ ?_)
              (fun a ha => hacc a (List.mem_reverse.mp ha)) ?_
            · have := hsh
              simpa using this
            · refine ⟨?_, ?_, Nat.le_refl 2⟩
              · show 0 < min aglen (agsz - agbno)
                omega
              · show agbno + min aglen (agsz - agbno) ≤ agsz
                omega
            · intro b hb
              rw [List.mem_singleton] at hb
              rw [hb]
          · subst ha
            have hrc0 : adjRc 1 (-1 : Int) = 0 := rfl
            rw [hrc0] at hok
            have h4 : ¬ ((0 : Nat) ≠ 0) := by omega
            rw [if_neg h4, if_neg h4] at hok
            simp only [Except.ok.injEq, Prod.mk.injEq] at hok
            obtain ⟨e1, e2⟩ := hok
            subst e1
            simpa using hsh
        · rw [if_neg h3] at hok
          exact Except.noConfusion hok
      · rw [if_neg h2] at hok
        exact Except.noConfusion hok
  | cons ext rest' ih =>
    intro agbno aglen acc freed l' fr' hsh hacc hrest hns hsz hok
    rw [adjust_rcextents_walk_cons] at hok
    by_cases h1 : aglen = 0
    · rw [if_pos h1] at hok
      simp only [Except.ok.injEq, Prod.mk.injEq] at hok
      obtain ⟨e1, e2⟩ := hok
      subst e1
      exact hsh
    · rw [if_neg h1] at hok
      obtain ⟨hshA, hshB, hcross⟩ := shwf_split agsz acc.reverse (ext :: rest') hsh
      have hB := (shwf_iff agsz _).mp hshB
      have hextok : RcRecOK agsz ext := hB.2 ext (by simp)
      have hrestge : ∀ b ∈ rest', RCNEXT ext ≤ b.rc_startblock := fun b hb =>
        (List.pairwise_cons.mp hB.1).1 b hb
      have hshrest : ShWF agsz rest' := by
        rw [shwf_iff]
        exact ⟨(List.pairwise_cons.mp hB.1).2, fun r hr => hB.2 r (by simp [hr])⟩
      have hextb : agbno ≤ ext.rc_startblock := hrest ext (by simp)
      have hnostr := hns ext (by simp)
      by_cases h2 : ext.rc_startblock ≠ agbno
      · rw [if_pos h2] at hok
        by_cases h3 : aglen - min aglen (ext.rc_startblock - agbno) = 0
        · rw [if_pos h3] at hok
          have hgap : min aglen (ext.rc_startblock - agbno) = aglen := by omega
          have hsepa : agbno + aglen ≤ ext.rc_startblock := by omega
          rcases hadj with ha | ha
          · subst ha
            have hrc2 : adjRc 1 (1 : Int) = 2 := rfl
            rw [hrc2] at hok
            have h4 : (2 : Nat) ≠ 0 := by omega
            rw [if_pos h4, if_pos h4] at hok
            simp only [Except.ok.injEq, Prod.mk.injEq] at hok
            obtain ⟨e1, e2⟩ := hok
            subst e1
            have heq : ((⟨agbno, min aglen (ext.rc_startblock - agbno), 2⟩ :
                xfs_refcount_irec) :: acc).reverse ++ ext :: rest' =
                acc.reverse ++
                  (⟨agbno, min aglen (ext.rc_startblock - agbno), 2⟩ ::
                    ext :: rest' : List xfs_refcount_irec) := by simp
            rw [heq]
            refine shwf_append agsz agbno acc.reverse _ hshA ?_
              (fun a ha => hacc a (List.mem_reverse.mp ha)) ?_
            · refine shwf_append agsz (agbno + aglen) [_] (ext :: rest')
                (shwf_singleton agsz _ ?_) hshB ?_ ?_
              · refine ⟨?_, ?_, Nat.le_refl 2⟩
                · show 0 < min aglen (ext.rc_startblock - agbno)
                  omega
                · show agbno + min aglen (ext.rc_startblock - agbno) ≤ agsz
                  omega
              · intro a ha
                rw [List.mem_singleton] at ha
                rw [ha]
                show agbno + min aglen (ext.rc_startblock - agbno) ≤ agbno + aglen
                omega
              · intro b hb
                rcases List.mem_cons.mp hb with rfl | hb2
                · omega
                · have h5 := hrestge b hb2
                  unfold RCNEXT at h5
                  omega
            · intro b hb
              rcases List.mem_cons.mp hb with rfl | hb2
              · exact Nat.le_refl _
              · rcases List.mem_cons.mp hb2 with rfl | hb3
                · omega
                · have h5 := hrestge b hb3
                  unfold RCNEXT at h5
                  omega
          · subst ha
            have hrc0 : adjRc 1 (-1 : Int) = 0 := rfl
            rw [hrc0] at hok
            have h4 : ¬ ((0 : Nat) ≠ 0) := by omega
            rw [if_neg h4, if_neg h4] at hok
            simp only [Except.ok.injEq, Prod.mk.injEq] at hok
            obtain ⟨e1, e2⟩ := hok
            subst e1
            exact hsh
        · rw [if_neg h3] at hok
          have hgap : min aglen (ext.rc_startblock - agbno) = ext.rc_startblock - agbno := by
            omega
          have hextlt : ext.rc_startblock < agbno + aglen := by omega
          have hextnext : RCNEXT ext ≤ agbno + aglen := by
            unfold RCNEXT at hnostr ⊢
            omega
          have hsum : agbno + min aglen (ext.rc_startblock - agbno) + ext.rc_blockcount =
              RCNEXT ext := by
            unfold RCNEXT
            omega
          have hsum2 : agbno + min aglen (ext.rc_startblock - agbno) + ext.rc_blockcount +
              (aglen - min aglen (ext.rc_startblock - agbno) - ext.rc_blockcount) =
              agbno + aglen := by
            unfold RCNEXT at hextnext
            omega
          rcases hadj with ha | ha
          · subst ha
            have hrc2 : adjRc 1 (1 : Int) = 2 := rfl
            rw [hrc2] at hok
            have h4 : (2 : Nat) ≠ 0 := by omega
            rw [if_pos h4, if_pos h4] at hok
            have hrec := adjust_walk_rec_shwf agsz 1 ext
              (⟨agbno, min aglen (ext.rc_startblock - agbno), 2⟩ :: acc) rest' freed
              (by
                have heq : ((⟨agbno, min aglen (ext.rc_startblock - agbno), 2⟩ :
                    xfs_refcount_irec) :: acc).reverse ++ ext :: rest' =
                    acc.reverse ++
                      (⟨agbno, min aglen (ext.rc_startblock - agbno), 2⟩ ::
                        ext :: rest' : List xfs_refcount_irec) := by simp
                rw [heq]
                refine shwf_append agsz agbno acc.reverse _ hshA ?_
                  (fun a ha => hacc a (List.mem_reverse.mp ha)) ?_
                · refine shwf_append agsz ext.rc_startblock [_] (ext :: rest')
                    (shwf_singleton agsz _ ?_) hshB ?_ ?_
                  · refine ⟨?_, ?_, Nat.le_refl 2⟩
                    · show 0 < min aglen (ext.rc_startblock - agbno)
                      omega
                    · show agbno + min aglen (ext.rc_startblock - agbno) ≤ agsz
                      have := hextok.2.1
                      unfold RCNEXT at this
                      omega
                  · intro a ha
                    rw [List.mem_singleton] at ha
                    rw [ha]
                    show agbno + min aglen (ext.rc_startblock - agbno) ≤
                      ext.rc_startblock
                    omega
                  · intro b hb
                    rcases List.mem_cons.mp hb with rfl | hb2
                    · exact Nat.le_refl _
                    · have h5 := hrestge b hb2
                      unfold RCNEXT at h5
                      omega
                · intro b hb
                  rcases List.mem_cons.mp hb with rfl | hb2
                  · exact Nat.le_refl _
                  · rcases List.mem_cons.mp hb2 with rfl | hb3
                    · omega
                    · have h5 := hrestge b hb3
                      unfold RCNEXT at h5
                      omega)
              (by
                intro a ha
                rcases List.mem_cons.mp ha with rfl | h5
                · show agbno + min aglen (ext.rc_startblock - agbno) ≤
                    ext.rc_startblock
                  omega
                · have := hacc a h5
                  omega)
            refine ih _ _ _ _ _ _ hrec.1 ?_ ?_ ?_ ?_ hok
            · intro a ha
              have := hrec.2 a ha
              omega
            · intro r hr
              have := hrestge r hr
              omega
            · intro r hr
              rw [hsum2]
              exact hns r (List.mem_cons_of_mem _ hr)
            · rw [hsum2]
              exact hsz
          · subst ha
            have hrc0 : adjRc 1 (-1 : Int) = 0 := rfl
            rw [hrc0] at hok
            have h4 : ¬ ((0 : Nat) ≠ 0) := by omega
            rw [if_neg h4, if_neg h4] at hok
            have hrec := adjust_walk_rec_shwf agsz (-1) ext acc rest'
              ((agbno, min aglen (ext.rc_startblock - agbno)) :: freed) hsh
              (by
                intro a ha
                have := hacc a ha
                omega)
            refine ih _ _ _ _ _ _ hrec.1 ?_ ?_ ?_ ?_ hok
            · intro a ha
              have := hrec.2 a ha
              omega
            · intro r hr
              have := hrestge r hr
              omega
            · intro r hr
              rw [hsum2]
              exact hns r (List.mem_cons_of_mem _ hr)
            · rw [hsum2]
              exact hsz
      · rw [if_neg h2] at hok
        push_neg at h2
        have hextnext : RCNEXT ext ≤ agbno + aglen := by
          unfold RCNEXT at hnostr ⊢
          omega
        have hsum : agbno + ext.rc_blockcount = RCNEXT ext := by
          unfold RCNEXT
          omega
        have hsum2 : agbno + ext.rc_blockcount + (aglen - ext.rc_blockcount) =
            agbno + aglen := by
          unfold RCNEXT at hextnext
          omega
        have hrec := adjust_walk_rec_shwf agsz adj ext acc rest' freed hsh
          (by
            intro a ha
            have := hacc a ha
            omega)
        refine ih _ _ _ _ _ _ hrec.1 ?_ ?_ ?_ ?_ hok
        · intro a ha
          have := hrec.2 a ha
          unfold RCNEXT at this ⊢
          omega
        · intro r hr
          have := hrestge r hr
          unfold RCNEXT at this
          omega
        · intro r hr
          rw [hsum2]
          exact hns r (List.mem_cons_of_mem _ hr)
        · rw [hsum2]
          exact hsz

theorem error_bind {ε α β : Type} (e : ε) (f : α → Except ε β) :
    (Except.error e >>= f) = .error e := rfl

theorem adjust_walk_zero (agsz : Nat) (adj : Int) (rest : List xfs_refcount_irec)
    (agbno : Nat) (acc : List xfs_refcount_irec) (freed : List (Nat × Nat)) :
    adjust_rcextents_walk agsz adj rest agbno 0 acc freed =
      .ok (acc.reverse ++ rest, freed) := by
  cases rest with
  | nil => rw [adjust_rcextents_walk_nil, if_pos rfl]
  | cons e r => rw [adjust_rcextents_walk_cons, if_pos rfl]

/-- adjust_rcextents preserves well-formedness: starting from a well-formed
index with no record straddling either range edge (when the range is
nonempty), a successful adjust returns a well-formed index. -/
theorem adjust_rcextents_shwf (agsz : Nat) (l : List xfs_refcount_irec)
    (agbno aglen : Nat) (adj : Int) (hadj : adj = 1 ∨ adj = -1)
    (hsh : ShWF agsz l)
    (hcond : aglen ≠ 0 → NoStraddle l agbno ∧ NoStraddle l (agbno + aglen))
    (hsz : agbno + aglen ≤ agsz)
    (l' : List xfs_refcount_irec) (fr' : List (Nat × Nat))
    (hok : adjust_rcextents agsz l agbno aglen adj = .ok (l', fr')) :
    ShWF agsz l' := by
  have hAB : rcBefore l agbno ++ rcFrom l agbno = l :=
    List.takeWhile_append_dropWhile _ _
  by_cases h0 : aglen = 0
  · subst h0
    unfold adjust_rcextents at hok
    rw [adjust_walk_zero] at hok
    simp only [List.reverse_reverse, Except.ok.injEq, Prod.mk.injEq] at hok
    obtain ⟨e1, e2⟩ := hok
    subst e1
    rw [hAB]
    exact hsh
  · obtain ⟨hns0, hns1⟩ := hcond h0
    unfold adjust_rcextents at hok
    refine adjust_walk_shwf agsz adj hadj (rcFrom l agbno) agbno aglen
      (rcBefore l agbno).reverse [] l' fr' ?_ ?_ ?_ ?_ hsz hok
    · rw [List.reverse_reverse, hAB]
      exact hsh
    · intro a ha
      rw [List.mem_reverse] at ha
      have h1 := rcBefore_mem_lt l agbno a ha
      have h2 : a ∈ l := by
        rw [← hAB]
        exact List.mem_append.mpr (Or.inl ha)
      have h3 := hns0 a h2
      omega
    · exact rcFrom_mem_ge agsz l agbno hsh.1
    · intro r hr
      refine hns1 r ?_
      rw [← hAB]
      exact List.mem_append.mpr (Or.inr hr)

/-- The full shared-refcount adjust pipeline (split, merge, walk) preserves
well-formedness of a purely-shared index. -/
theorem adjust_refcount_shwf (agsz : Nat) (l : List xfs_refcount_irec)
    (agbno aglen : Nat) (adj : Int) (hadj : adj = 1 ∨ adj = -1)
    (hsh : ShWF agsz l) (haglen : 0 < aglen) (hsz : agbno + aglen ≤ agsz)
    (lout : List xfs_refcount_irec) (frout : List (Nat × Nat))
    (hok : xfs_refcountbt_adjust_refcount agsz l agbno aglen adj =
      .ok (lout, frout)) :
    ShWF agsz lout := by
  unfold xfs_refcountbt_adjust_refcount at hok
  simp only [] at hok
  obtain ⟨hsh1, hns1a⟩ := try_split_left_spec agsz l agbno hsh
  obtain ⟨hsh2, hns2b, hns2a⟩ := try_split_right_spec agsz
    (try_split_left_rcextent l agbno) agbno (agbno + aglen) hsh1 hns1a (by omega)
  cases hm : try_merge_rcextents
      (try_split_right_rcextent (try_split_left_rcextent l agbno) (agbno + aglen))
      agbno aglen adj .shared with
  | error e =>
    rw [hm, error_bind] at hok
    exact Except.noConfusion hok
  | ok t =>
    obtain ⟨lM, agbnoM, aglenM⟩ := t
    rw [hm] at hok
    simp only [ok_bind] at hok
    have htm := try_merge_spec agsz
      (try_split_right_rcextent (try_split_left_rcextent l agbno) (agbno + aglen))
      agbno aglen adj ⟨hsh2, hns2a, hns2b, hsz⟩ haglen lM agbnoM aglenM hm
    exact adjust_rcextents_shwf agsz lM agbnoM aglenM adj hadj htm.1
      (fun h => htm.2.2.2 h) (by omega) lout frout hok

/-- A genuine (shared, non-CoW) adjuster call on a purely-shared index
keeps the index purely shared and well formed; a failing call rolls back
to the prior state. -/
theorem rcStep_shwf (agsz : Nat) (l : List xfs_refcount_irec) (op : RcOp)
    (hsh : ShWF agsz l) (hok : RcOpOk agsz op) (hgen : RcOpGenuine op) :
    ShWF agsz (rcStep agsz l op) := by
  cases op with
  | inc agbno aglen =>
    obtain ⟨h1, h2⟩ := hok
    simp only [rcStep]
    cases hx : xfs_refcount_increase agsz l agbno aglen with
    | ok s =>
      obtain ⟨lo, fo⟩ := s
      unfold xfs_refcount_increase at hx
      exact adjust_refcount_shwf agsz l agbno aglen 1 (Or.inl rfl) hsh h1 h2 lo fo hx
    | error e => exact hsh
  | dec agbno aglen =>
    obtain ⟨h1, h2⟩ := hok
    simp only [rcStep]
    cases hx : xfs_refcount_decrease agsz l agbno aglen with
    | ok s =>
      obtain ⟨lo, fo⟩ := s
      unfold xfs_refcount_decrease at hx
      exact adjust_refcount_shwf agsz l agbno aglen (-1) (Or.inr rfl) hsh h1 h2 lo fo hx
    | error e => exact hsh
  | cowAlloc agbno aglen => exact hgen.elim
  | cowFree agbno aglen => exact hgen.elim

/-- Pairwise separation with positive lengths rules out overlap. -/
theorem shwf_no_overlap (agsz : Nat) (l : List xfs_refcount_irec)
    (h : ShWF agsz l) : RcNoOverlap l := by
  rw [shwf_iff] at h
  unfold RcNoOverlap
  refine List.Pairwise.imp ?_ h.1
  intro a b hab
  unfold RcSep at hab
  unfold RcOverlap
  intro hcon
  unfold RCNEXT at *
  omega

/-- Sequences of genuine adjuster calls preserve the purely-shared
well-formed invariant. -/
theorem rcFold_shwf (agsz : Nat) (ops : List RcOp) :
    ∀ l, ShWF agsz l → (∀ op ∈ ops, RcOpOk agsz op ∧ RcOpGenuine op) →
    ShWF agsz (ops.foldl (rcStep agsz) l) := by
  induction ops with
  | nil =>
    intro l h _
    exact h
  | cons op ops' ih =>
    intro l h hops
    simp only [List.foldl_cons]
    exact ih _ (rcStep_shwf agsz l op h (hops op (by simp)).1 (hops op (by simp)).2)
      (fun o ho => hops o (List.mem_cons_of_mem _ ho))

/-- C1 counterexample: the maintainers can create forbidden overlaps.  The
rmap maintainer, when the record left of the new extent fails the merge
test, rewrites its owner to OWN_NULL and skips the left overlap check, so
inserting an owner-5 extent inside an existing owner-5 record succeeds and
leaves two same-owner overlapping records.  The refcount adjuster, when a
stored refcount-1 CoW reservation sits at the increase boundary, merges the
left neighbor over the reservation's range without deleting it, leaving two
overlapping refcount records. -/
theorem c1_overlap_cex :
    RmapWF 100 [⟨0, 20, 5, 0⟩, ⟨10, 2, 9, 0⟩] ∧
    xfs_rmap_alloc [⟨0, 20, 5, 0⟩, ⟨10, 2, 9, 0⟩] 12 3 5 12 =
      .ok [⟨0, 20, 5, 0⟩, ⟨10, 2, 9, 0⟩, ⟨12, 3, 5, 12⟩] ∧
    ¬ RmapNoSameOwnerOverlap [⟨0, 20, 5, 0⟩, ⟨10, 2, 9, 0⟩, ⟨12, 3, 5, 12⟩] ∧
    RcWF 100 [⟨8, 2, 2⟩, ⟨10, 5, 1⟩] ∧
    xfs_refcount_increase 100 [⟨8, 2, 2⟩, ⟨10, 5, 1⟩] 10 5 =
      .ok ([⟨8, 7, 2⟩, ⟨10, 5, 1⟩], []) ∧
    ¬ RcNoOverlap [⟨8, 7, 2⟩, ⟨10, 5, 1⟩] := by
  refine ⟨by decide, by rfl, by decide, by decide, by rfl, by decide⟩

/-- C1 (amended): starting from a well-formed refcount index whose stored
records are all genuinely shared (refcount at least 2, no CoW reservation
records), any sequence of in-range shared increase and decrease calls
leaves an index in which no two stored records overlap. -/
theorem c1_refcount_no_overlap (agsz : Nat) (l : List xfs_refcount_irec)
    (ops : List RcOp) (hsh : ShWF agsz l)
    (hops : ∀ op ∈ ops, RcOpOk agsz op ∧ RcOpGenuine op) :
    RcNoOverlap (ops.foldl (rcStep agsz) l) :=
  shwf_no_overlap agsz _ (rcFold_shwf agsz ops l hsh hops)

/-- C1 witness: a concrete purely-shared index and a concrete in-range
increase/decrease sequence, with the no-overlap conclusion evaluated. -/
theorem c1_refcount_no_overlap_witness :
    ShWF 100 [⟨0, 5, 2⟩] ∧
    (∀ op ∈ [RcOp.inc 2 2, RcOp.dec 0 1], RcOpOk 100 op ∧ RcOpGenuine op) ∧
    RcNoOverlap ([RcOp.inc 2 2, RcOp.dec 0 1].foldl (rcStep 100) [⟨0, 5, 2⟩]) :=
  ⟨by decide, by decide,
    c1_refcount_no_overlap 100 [⟨0, 5, 2⟩] [RcOp.inc 2 2, RcOp.dec 0 1]
      (by decide) (by decide)⟩
